import Mathlib

/-!
# Fixed-arena byte queues (`Queue.cpp`)

A shallow embedding of the queue arena of `Queue.cpp`: the 2048-byte `data`
array split into the descriptor table (`queues`, 64 slots of two `uShort`
fields) and the byte-store pool (`queued_bytes`, 1792 one-byte slots), the
static counters, and the four entry points `create_queue`, `destroy_queue`,
`enqueue_byte` and `dequeue_byte` together with the rebalancing routine
`Q::bound_check_and_memory_rearrange`.

Conventions of the embedding.

* `uShort` values are natural numbers kept below `2^16` by an explicit
  `% 65536` at every place where the source stores into a `uShort`.
* A handle `Q*` is `Option (Fin 64)`: `none` is the null pointer and `some i`
  is `&queues[i]`.
* A call has one of three outcomes: it returns (`ok`), it throws through
  `on_out_of_memory` / `on_illegal_operation` (`thrown`, with the arena as it
  stands at the throw), or it reads or writes outside the array it addresses
  (`undefined`); nothing is said about the arena after the last.
  A `memcpy`/`memset` of zero bytes touches no memory and is never `undefined`.
-/

namespace QueueArena

/-! ## Constants -/

/-- Value of `BAD_VALUE`, the tag of an unused pool byte. -/
def BAD_VALUE : Nat := 0xFF

/-- Value of `BAD_QUEUE`, the tag of an unused descriptor field. -/
def BAD_QUEUE : Nat := 0xFFFF

/-- Size of the arena `data`. -/
def data_size : Nat := 2048

/-- Value of `Q::max_count`. -/
def max_count : Nat := 64

/-- Value of `sizeof(Q)`: two `unsigned short` fields. -/
def sizeof_Q : Nat := 4

/-- Value of `sizeof(queued_byte)`: one `unsigned char`. -/
def sizeof_queued_byte : Nat := 1

/-- Value of `Q::max_bytesize`. -/
def max_bytesize : Nat := max_count * sizeof_Q

/-- Value of `remaining_space`. -/
def remaining_space : Nat := data_size - max_bytesize

/-- Value of `max_queued_byte_count`, the capacity of the pool. -/
def max_queued_byte_count : Nat := remaining_space / sizeof_queued_byte

/-- Size of the scratch buffer `tempCopy`. -/
def tempCopy_size : Nat := 4096

/-- Conversion of an integer result to `uShort`. -/
def u16 (n : Nat) : Nat := n % 65536

/-- Operator `++` on a `uShort`. -/
def inc16 (n : Nat) : Nat := u16 (n + 1)

/-- Operator `--` on a `uShort`: `0` wraps to `0xFFFF`. -/
def dec16 (n : Nat) : Nat := u16 (n + 65535)

/-- Template `MAX` of the source. -/
def MAX (a b : Nat) : Nat := if a > b then a else b

/-! ## Data model -/

/-- Class `Q`: one descriptor of the table. -/
structure Q where
  start_offset : Nat
  length : Nat
deriving DecidableEq, Repr

/-- The two failure signals, `on_out_of_memory` and `on_illegal_operation`. -/
inductive Signal where
  | out_of_memory
  | illegal_operation
deriving DecidableEq, Repr

/-- The whole static state of `Queue.cpp`. -/
structure Arena where
  /-- flag `once` of `initializeData` -/
  once : Bool
  /-- descriptor table `queues` (the first 256 bytes of `data`) -/
  queues : List Q
  /-- pool `queued_bytes` (the other 1792 bytes of `data`) -/
  queued_bytes : List Nat
  /-- counter `Q::current_count` -/
  Q_current_count : Nat
  /-- counter `queued_byte::current_count` -/
  qb_current_count : Nat
  /-- quota `Q::current_max_length` -/
  current_max_length : Nat
  /-- function-local static `last_Q_count` of the rebalancing routine;
  `none` until control first passes its declaration -/
  last_Q_count : Option Nat
deriving DecidableEq, Repr

/-- Outcome of a call. -/
inductive Outcome (α : Type) where
  | ok (val : α) (s : Arena)
  | thrown (e : Signal) (s : Arena)
  | undefined
deriving DecidableEq, Repr

/-- State of the program at start-up: zero-initialised statics. -/
def startup : Arena :=
  { once := false
    queues := List.replicate max_count ⟨0, 0⟩
    queued_bytes := List.replicate max_queued_byte_count 0
    Q_current_count := 0
    qb_current_count := 0
    current_max_length := 80
    last_Q_count := none }

/-- Function `initializeData`: one-time `memset(data, BAD_VALUE, data_size)`. -/
def initializeData (s : Arena) : Arena :=
  if s.once then s
  else { s with
    queues := List.replicate max_count ⟨BAD_QUEUE, BAD_QUEUE⟩
    queued_bytes := List.replicate max_queued_byte_count BAD_VALUE
    once := true }

/-- The freshly initialised arena. -/
def fresh : Arena := initializeData startup

/-- Descriptor `queues[i]`. -/
def Arena.Qat (s : Arena) (i : Fin 64) : Q :=
  s.queues.getD i.val ⟨BAD_QUEUE, BAD_QUEUE⟩

/-- Assignment to the descriptor `queues[i]`. -/
def Arena.setQ (s : Arena) (i : Fin 64) (q : Q) : Arena :=
  { s with queues := s.queues.set i.val q }

/-! ## Class `Q` and `queued_byte` helpers -/

/-- Method `Q::length_is_valid`. -/
def Q.length_is_valid (q : Q) : Bool := q.length != BAD_QUEUE

/-- Method `Q::offset_is_valid`. -/
def Q.offset_is_valid (q : Q) : Bool := q.start_offset != BAD_QUEUE

/-- Method `Q::is_valid`. -/
def Q.is_valid (q : Q) : Bool := q.length_is_valid && q.offset_is_valid

/-- Method `Q::get_queued_bytes_data_size`. -/
def Q.get_queued_bytes_data_size (q : Q) : Nat := u16 (q.length * sizeof_queued_byte)

/-- Method `Q::in_valid_range`, on the slot index `this - Q::begin()`. -/
def in_valid_range (i : Fin 64) : Bool := decide (i.val < max_bytesize)

/-- Function `queued_byte::memory_available`. -/
def memory_available (s : Arena) : Bool := decide (s.qb_current_count < max_queued_byte_count)

/-- Function `Q::create`: the first slot of the table whose `start_offset` is
`BAD_QUEUE`; `none` stands for the `assert_OutOfMemory(false)` after the loop. -/
def Q.create (s : Arena) : Option (Fin 64) :=
  (List.finRange 64).find? (fun i => (s.Qat i).start_offset == BAD_QUEUE)

/-- Function `Q::get_start_offset`. -/
def get_start_offset (s : Arena) (qIdx : Nat) : Nat := u16 (qIdx * s.current_max_length)

/-- Function `memory_used`: the `uShort` sum of the lengths of the valid descriptors. -/
def memory_used (s : Arena) : Nat :=
  s.queues.foldl (fun sum q => if q.is_valid then u16 (sum + q.length) else sum) 0

/-- Function `memory_used_or_reserved`. -/
def memory_used_or_reserved (s : Arena) : Nat :=
  s.queues.foldl
    (fun sum q => if q.is_valid then u16 (sum + MAX q.length s.current_max_length) else sum) 0

/-- Store the bytes `bs` into the buffer `dst` from index `off` on. Callers
check beforehand that the range lies inside `dst`; bytes past the end of `dst`
would be dropped. -/
def write : List Nat → Nat → List Nat → List Nat
  | [], _, _ => []
  | x :: xs, 0, [] => x :: xs
  | _ :: xs, 0, b :: bs => b :: write xs 0 bs
  | x :: xs, off + 1, bs => x :: write xs off bs

/-- Call `memset(dst + off, v, n)` on a buffer, the range being inside it. -/
def memset (dst : List Nat) (off v n : Nat) : List Nat :=
  write dst off (List.replicate n v)

/-- Call `memcpy(dst + doff, src + soff, n)` between two buffers, both ranges
being inside them. -/
def memcpy (dst : List Nat) (doff : Nat) (src : List Nat) (soff n : Nat) : List Nat :=
  write dst doff ((src.drop soff).take n)

/-- A range of `n` bytes at `off` can be accessed in an array of `size` bytes:
it is empty or lies inside the array. -/
def accessible (size off n : Nat) : Bool :=
  n == 0 || decide (off + n ≤ size)

/-! ## Destruction -/

/-- Loop of `Q::destroy_queued_bytes`: `n` iterations from pool index `qb`,
each invalidating one byte and decrementing `queued_byte::current_count`.
`none` when `qb` leaves the pool. -/
def destroy_loop : Nat → Nat → List Nat → Nat → Option (List Nat × Nat)
  | 0, _, pool, cnt => some (pool, cnt)
  | n + 1, qb, pool, cnt =>
    if qb < max_queued_byte_count then
      destroy_loop n (qb + 1) (pool.set qb BAD_VALUE) (dec16 cnt)
    else none

/-- Method `Q::destroy_queued_bytes` of `queues[i]`. -/
def destroy_queued_bytes (s : Arena) (i : Fin 64) : Outcome Unit :=
  let q := s.Qat i
  if !q.length_is_valid then .thrown .illegal_operation s
  else
    match destroy_loop q.length q.start_offset s.queued_bytes s.qb_current_count with
    | none => .undefined
    | some (pool, cnt) => .ok () { s with queued_bytes := pool, qb_current_count := cnt }

/-- Function `Q::destroy`. -/
def Q.destroy (s : Arena) (q : Option (Fin 64)) : Outcome Unit :=
  match q with
  | none => .thrown .illegal_operation s
  | some i =>
    if !in_valid_range i then .thrown .illegal_operation s
    else if !(s.Qat i).is_valid then .thrown .illegal_operation s
    else
      match destroy_queued_bytes s i with
      | .ok _ s1 => .ok () (s1.setQ i ⟨BAD_QUEUE, BAD_QUEUE⟩)
      | r => r

/-! ## Dequeue -/

/-- Loop of `Q::shift_left_queued_bytes`: `n` iterations, each copying the
byte at `qb` to `qb_target` and invalidating the byte at `qb`.
`none` when `qb` leaves the pool. -/
def shift_left_loop : Nat → Nat → Nat → List Nat → Option (List Nat)
  | 0, _, _, pool => some pool
  | n + 1, qb_target, qb, pool =>
    if qb < max_queued_byte_count then
      shift_left_loop n (qb_target + 1) (qb + 1)
        ((pool.set qb_target (pool.getD qb BAD_VALUE)).set qb BAD_VALUE)
    else none

/-- Method `Q::shift_left_queued_bytes` of `queues[i]`. The loop runs `qb` from
`begin + 1` up to `end = begin + length`. With `length = 0` the start is
already past the end, the exit test `qb != end` never fails and `qb` walks out
of the pool. -/
def shift_left_queued_bytes (s : Arena) (i : Fin 64) : Outcome Unit :=
  let q := s.Qat i
  if q.length = 0 then .undefined
  else
    match shift_left_loop (q.length - 1) q.start_offset (q.start_offset + 1) s.queued_bytes with
    | none => .undefined
    | some pool => .ok () { s with queued_bytes := pool }

/-- Method `Q::dequeue_byte` of `queues[i]`. -/
def Q.dequeue_byte (s : Arena) (i : Fin 64) : Outcome Nat :=
  let q := s.Qat i
  if ¬ (q.start_offset < max_queued_byte_count) then .undefined
  else
    let b := s.queued_bytes.getD q.start_offset BAD_VALUE
    match shift_left_queued_bytes s i with
    | .ok _ s1 =>
      let s2 := s1.setQ i { s1.Qat i with length := dec16 (s1.Qat i).length }
      .ok b { s2 with qb_current_count := dec16 s2.qb_current_count }
    | .thrown e s1 => .thrown e s1
    | .undefined => .undefined

/-! ## Rebalancing -/

/-- Result of the first loop of the compaction pass. -/
inductive CopyOut where
  /-- the loop ran to its end -/
  | done (newOffsets : List Nat) (tempCopy : List Nat) (pool : List Nat)
  /-- an `assert_IllegalOp` inside the loop failed -/
  | failed (pool : List Nat)
  /-- an access left `tempCopy` or the pool -/
  | undefined
deriving DecidableEq, Repr

/-- First loop of the compaction pass (lines 374-387): the descriptors from
slot `slot` on, with the running `cumulOffsets`. -/
def copy_out (cml : Nat) : List Q → Nat → Nat → List Nat → List Nat → List Nat → CopyOut
  | [], _, _, newOffsets, tempCopy, pool => .done newOffsets tempCopy pool
  | q :: qs, slot, cumulOffsets, newOffsets, tempCopy, pool =>
    if q.is_valid then
      let newOffsets1 := newOffsets.set slot cumulOffsets
      if ¬ (cumulOffsets < max_queued_byte_count) then .failed pool
      else
        let n := q.get_queued_bytes_data_size
        if !(accessible tempCopy_size cumulOffsets n
            && accessible max_queued_byte_count q.start_offset n) then
          .undefined
        else
          let tempCopy1 := memcpy tempCopy cumulOffsets pool q.start_offset n
          let pool1 := memset pool q.start_offset BAD_VALUE n
          let cumulOffsets1 := u16 (cumulOffsets + MAX cml n)
          if ¬ (cumulOffsets1 ≤ max_queued_byte_count) then .failed pool1
          else copy_out cml qs (slot + 1) cumulOffsets1 newOffsets1 tempCopy1 pool1
    else copy_out cml qs (slot + 1) cumulOffsets newOffsets tempCopy pool

/-- Result of the second loop of the compaction pass. -/
inductive CopyBack where
  /-- the loop ran to its end -/
  | done (queues : List Q) (pool : List Nat)
  /-- the `assert_IllegalOp` inside the loop failed -/
  | failed (queues : List Q) (pool : List Nat)
  /-- an access left `tempCopy` or the pool -/
  | undefined
deriving DecidableEq, Repr

/-- Prefix a visited descriptor to the result of the rest of the second loop. -/
def CopyBack.cons (q : Q) : CopyBack → CopyBack
  | .done qs pool => .done (q :: qs) pool
  | .failed qs pool => .failed (q :: qs) pool
  | .undefined => .undefined

/-- Second loop of the compaction pass (lines 391-400): the descriptors from
slot `slot` on; it returns them as it leaves them. -/
def copy_back (newOffsets tempCopy : List Nat) : List Q → Nat → List Nat → CopyBack
  | [], _, pool => .done [] pool
  | q :: qs, slot, pool =>
    if q.is_valid then
      let off := newOffsets.getD slot 0
      if off = BAD_QUEUE then .failed (q :: qs) pool
      else
        let q1 : Q := { q with start_offset := off }
        let n := q1.get_queued_bytes_data_size
        if !(accessible max_queued_byte_count off n && accessible tempCopy_size off n) then
          .undefined
        else (copy_back newOffsets tempCopy qs (slot + 1) (memcpy pool off tempCopy off n)).cons q1
    else (copy_back newOffsets tempCopy qs (slot + 1) pool).cons q

/-- The compaction pass (lines 365-400), entered with the new quota already
stored in `current_max_length`. -/
def compaction_pass (s : Arena) : Outcome Unit :=
  let tempCopy := List.replicate tempCopy_size BAD_VALUE
  let newOffsets := BAD_QUEUE :: List.replicate 63 0
  match copy_out s.current_max_length s.queues 0 0 newOffsets tempCopy s.queued_bytes with
  | .undefined => .undefined
  | .failed pool => .thrown .illegal_operation { s with queued_bytes := pool }
  | .done newOffsets1 tempCopy1 pool =>
    match copy_back newOffsets1 tempCopy1 s.queues 0 pool with
    | .undefined => .undefined
    | .failed qs pool1 =>
      .thrown .illegal_operation { s with queues := qs, queued_bytes := pool1 }
    | .done qs pool1 => .ok () { s with queues := qs, queued_bytes := pool1 }

/-- The expression `short(floor((float(max_queued_byte_count) -
float(used_or_reserved + 1)) / float(Q::current_count)))`. Every operand is an
integer of magnitude at most `2^16`, exactly representable in `float`, and the
rounded quotient of two such integers never crosses an integer, so the value
is the floor of the exact quotient, which is `/` on `Int` for a positive
divisor. `none` when the divisor is zero or the floor does not fit a `short`. -/
def resize_opt (used_or_reserved count : Nat) : Option Int :=
  if count = 0 then none
  else
    let r : Int := ((max_queued_byte_count : Int) - ((used_or_reserved : Int) + 1)) / (count : Int)
    if -32768 ≤ r ∧ r ≤ 32767 then some r else none

/-- Method `Q::bound_check_and_memory_rearrange` of `queues[i]`. -/
def bound_check_and_memory_rearrange (s : Arena) (i : Fin 64) : Outcome Unit :=
  let used_queued_byte_count := memory_used s
  if ¬ (s.qb_current_count + 1 ≤ max_queued_byte_count) then .thrown .out_of_memory s
  else if ¬ (s.qb_current_count = used_queued_byte_count) then .thrown .illegal_operation s
  else
    let used_or_reserved_queued_byte_count := memory_used_or_reserved s
    let new_used_queued_byte_count := u16 (used_queued_byte_count + 1)
    if s.current_max_length = 0 then .undefined
    else
      let possible_queue_count := u16 (max_queued_byte_count / s.current_max_length)
      let last_Q_count := s.last_Q_count.getD s.Q_current_count
      let Q_count_differs := last_Q_count != s.Q_current_count
      let s1 := { s with last_Q_count := some s.Q_current_count }
      if (s.Qat i).length + 1 ≤ s.current_max_length
          ∧ new_used_queued_byte_count ≤ max_queued_byte_count
          ∧ ¬ (Q_count_differs = true ∧ s.Q_current_count > possible_queue_count) then
        .ok () s1
      else
        match resize_opt used_or_reserved_queued_byte_count s.Q_current_count with
        | none => .undefined
        | some r =>
          let optimal_queue_max_length :=
            (((s.current_max_length : Int) + r) % 65536).toNat
          if ¬ (optimal_queue_max_length * s.Q_current_count ≤ max_queued_byte_count) then
            .thrown .illegal_operation s1
          else compaction_pass { s1 with current_max_length := optimal_queue_max_length }

/-! ## Enqueue -/

/-- Method `Q::enqueue_byte` of `queues[i]`. -/
def Q.enqueue_byte (s : Arena) (i : Fin 64) (b : Nat) : Outcome Unit :=
  if !memory_available s then .thrown .out_of_memory s
  else
    match bound_check_and_memory_rearrange s i with
    | .ok _ s1 =>
      let q := s1.Qat i
      let qb := q.start_offset + q.length
      if ¬ (qb < max_queued_byte_count) then .undefined
      else
        let s2 := { s1 with queued_bytes := s1.queued_bytes.set qb (b % 256) }
        let s3 := s2.setQ i { q with length := inc16 q.length }
        .ok () { s3 with qb_current_count := inc16 s3.qb_current_count }
    | r => r

/-! ## The four entry points -/

/-- Function `create_queue`. -/
def create_queue (s : Arena) : Outcome (Fin 64) :=
  let s0 := initializeData s
  match Q.create s0 with
  | none => .thrown .out_of_memory s0
  | some i =>
    if !in_valid_range i then .thrown .illegal_operation s0
    else
      let s1 := { s0 with Q_current_count := inc16 s0.Q_current_count }
      .ok i (s1.setQ i ⟨get_start_offset s1 i.val, 0⟩)

/-- Function `destroy_queue`. -/
def destroy_queue (s : Arena) (q : Option (Fin 64)) : Outcome Unit :=
  match Q.destroy s q with
  | .ok _ s1 => .ok () { s1 with Q_current_count := dec16 s1.Q_current_count }
  | r => r

/-- Function `enqueue_byte`. -/
def enqueue_byte (s : Arena) (q : Option (Fin 64)) (b : Nat) : Outcome Unit :=
  match q with
  | none => .thrown .illegal_operation s
  | some i =>
    if !(s.Qat i).is_valid then .thrown .illegal_operation s
    else Q.enqueue_byte s i b

/-- Function `dequeue_byte`. -/
def dequeue_byte (s : Arena) (q : Option (Fin 64)) : Outcome Nat :=
  match q with
  | none => .thrown .illegal_operation s
  | some i =>
    if !(s.Qat i).is_valid then .thrown .illegal_operation s
    else Q.dequeue_byte s i

/-! ## Call sequences and reachable states -/

/-- One call of the interface. -/
inductive Call where
  | create_queue
  | destroy_queue (q : Option (Fin 64))
  | enqueue_byte (q : Option (Fin 64)) (b : Nat)
  | dequeue_byte (q : Option (Fin 64))
deriving DecidableEq, Repr

/-- Arena left by a call that returned or threw; `none` after undefined behaviour. -/
def Outcome.arena {α : Type} : Outcome α → Option Arena
  | .ok _ s => some s
  | .thrown _ s => some s
  | .undefined => none

/-- Arena left by a call that returned; `none` otherwise. -/
def Outcome.returned {α : Type} : Outcome α → Option Arena
  | .ok _ s => some s
  | _ => none

/-- Value returned by a call; `none` when it did not return. -/
def Outcome.value {α : Type} : Outcome α → Option α
  | .ok a _ => some a
  | _ => none

/-- Signal and arena of a call that threw; `none` otherwise. -/
def Outcome.thrown_with {α : Type} : Outcome α → Option (Signal × Arena)
  | .thrown e s => some (e, s)
  | _ => none

/-- Arena after one call, whether it returned or threw. -/
def Call.after (s : Arena) : Call → Option Arena
  | .create_queue => (QueueArena.create_queue s).arena
  | .destroy_queue q => (QueueArena.destroy_queue s q).arena
  | .enqueue_byte q b => (QueueArena.enqueue_byte s q b).arena
  | .dequeue_byte q => (QueueArena.dequeue_byte s q).arena

/-- Arena after one call that returned. -/
def Call.returns (s : Arena) : Call → Option Arena
  | .create_queue => (QueueArena.create_queue s).returned
  | .destroy_queue q => (QueueArena.destroy_queue s q).returned
  | .enqueue_byte q b => (QueueArena.enqueue_byte s q b).returned
  | .dequeue_byte q => (QueueArena.dequeue_byte s q).returned

/-- Arena after a sequence of calls, each of which returned or threw. -/
def run : List Call → Arena → Option Arena
  | [], s => some s
  | c :: cs, s =>
    match c.after s with
    | none => none
    | some s1 => run cs s1

/-- Arena after a sequence of calls, each of which returned. -/
def run_ok : List Call → Arena → Option Arena
  | [], s => some s
  | c :: cs, s =>
    match c.returns s with
    | none => none
    | some s1 => run_ok cs s1

/-- States reachable from the freshly initialised arena by calls of the four
entry points. A call that throws leaves a reachable state (the caller may
catch the exception and go on); a call with undefined behaviour leaves none. -/
inductive Reachable : Arena → Prop where
  | fresh : Reachable fresh
  | call {s s1 : Arena} (c : Call) : Reachable s → c.after s = some s1 → Reachable s1

/-- Contribution of one descriptor to the byte count: its length when valid. -/
def Q.live_length (q : Q) : Nat := if q.is_valid then q.length else 0

/-- Sum of `length` over the valid descriptors, as a natural number. -/
def live_length_sum (qs : List Q) : Nat := (qs.map Q.live_length).sum

/-- Shape of an initialised arena: `initializeData` has run, the table has 64
descriptors and the pool 1792 bytes. -/
def Arena.wf (s : Arena) : Prop :=
  s.once = true ∧ s.queues.length = max_count ∧ s.queued_bytes.length = max_queued_byte_count

/-- No two distinct valid descriptors that hold at least one byte have
overlapping pool ranges `[start_offset, start_offset + length)`. -/
def non_overlap (s : Arena) : Prop :=
  ∀ i j : Fin 64, i ≠ j →
    (s.Qat i).is_valid = true → (s.Qat j).is_valid = true →
    1 ≤ (s.Qat i).length → 1 ≤ (s.Qat j).length →
    (s.Qat i).start_offset + (s.Qat i).length ≤ (s.Qat j).start_offset
      ∨ (s.Qat j).start_offset + (s.Qat j).length ≤ (s.Qat i).start_offset

/-! ## Predicates used in the proofs -/

/-- A descriptor table after relocation: slot by slot the length and the
validity are those of the table before. -/
def relocated (qs qs1 : List Q) : Prop :=
  List.Forall₂ (fun q q1 => q1.length = q.length ∧ q1.is_valid = q.is_valid) qs qs1

/-- The buffers held by a result of the first loop have their full sizes. -/
def CopyOut.sized : CopyOut → Prop
  | .done _ tempCopy pool =>
    tempCopy.length = tempCopy_size ∧ pool.length = max_queued_byte_count
  | .failed pool => pool.length = max_queued_byte_count
  | .undefined => True

/-- The table held by a result of the second loop is a relocation of `qs`, and
the pool has its full size. -/
def CopyBack.relocates (qs : List Q) : CopyBack → Prop
  | .done qs1 pool => relocated qs qs1 ∧ pool.length = max_queued_byte_count
  | .failed qs1 pool => relocated qs qs1 ∧ pool.length = max_queued_byte_count
  | .undefined => True

/-- What the rebalancing routine may do to an arena `s`: when it returns, the
table is a relocation of the table of `s`; when it throws, the table is that
of `s`; either way the pool keeps its size and `once` and the two counters
keep their values. -/
def Outcome.rearranges (s : Arena) : Outcome Unit → Prop
  | .ok _ s1 =>
    relocated s.queues s1.queues ∧ s1.queued_bytes.length = max_queued_byte_count
      ∧ s1.once = s.once ∧ s1.Q_current_count = s.Q_current_count
      ∧ s1.qb_current_count = s.qb_current_count
  | .thrown _ s1 =>
    s1.queues = s.queues ∧ s1.queued_bytes.length = max_queued_byte_count
      ∧ s1.once = s.once ∧ s1.Q_current_count = s.Q_current_count
      ∧ s1.qb_current_count = s.qb_current_count
  | .undefined => True

/-- Invariant of the reachable arenas: the shape is that of an initialised
arena, and `queued_byte::current_count` is the sum of the live lengths and
does not exceed the pool capacity. -/
def Arena.inv (s : Arena) : Prop :=
  s.wf ∧ s.qb_current_count = live_length_sum s.queues
    ∧ s.qb_current_count ≤ max_queued_byte_count

/-! ## Concrete arenas and call sequences used as test inputs -/

/-- The arena after 64 calls of `create_queue` on the fresh arena. -/
def full_table : Arena :=
  { fresh with
    queues := (List.range 64).map (fun i => ⟨80 * i, 0⟩)
    Q_current_count := 64 }

/-- An arena whose single queue, in slot 0, fills the whole pool. -/
def full_pool : Arena :=
  { fresh with
    queues := fresh.queues.set 0 ⟨0, 1792⟩
    queued_bytes := List.replicate 1792 0
    Q_current_count := 1
    qb_current_count := 1792
    current_max_length := 1791
    last_Q_count := some 1 }

/-- The arena after one call of `create_queue` on the fresh arena. -/
def one_queue : Arena :=
  { fresh with
    queues := fresh.queues.set 0 ⟨0, 0⟩
    Q_current_count := 1 }

/-- The arena after `create_queue` and `enqueue_byte(q, 0xFF)` on the fresh arena. -/
def one_byte : Arena :=
  { fresh with
    queues := fresh.queues.set 0 ⟨0, 1⟩
    Q_current_count := 1
    qb_current_count := 1
    last_Q_count := some 1 }

/-- Calls: a queue is created and receives 77 bytes of value 1; 22 more queues
are created; then four times the newest queue receives one byte and one more
queue is created. Afterwards there are 27 queues and the quota is 68. -/
def calls_before_failed_compaction : List Call :=
  [Call.create_queue] ++ List.replicate 77 (Call.enqueue_byte (some 0) 1)
    ++ List.replicate 22 Call.create_queue
    ++ [Call.enqueue_byte (some 22) 2, Call.create_queue,
        Call.enqueue_byte (some 23) 2, Call.create_queue,
        Call.enqueue_byte (some 24) 2, Call.create_queue,
        Call.enqueue_byte (some 25) 2, Call.create_queue]

/-- The descriptor table after `calls_before_failed_compaction`: the first
queue holds 77 bytes at offset 0, the queue in slot `i` from 1 to 25 starts at
`77 + 68 * (i - 1)` and holds one byte from slot 22 on, and the newest queue,
in slot 26, starts at `26 * 68`. -/
def table_before_failed_compaction : List Q :=
  ⟨0, 77⟩ :: (List.range 25).map (fun i => ⟨77 + 68 * i, if 21 ≤ i then 1 else 0⟩)
    ++ ⟨1768, 0⟩ :: List.replicate 37 ⟨BAD_QUEUE, BAD_QUEUE⟩

/-- Calls: 22 queues are created, each queue in a slot `i` from 1 to 21 receives
the single byte `100 + i`, then the first queue receives 82 bytes of value 1. -/
def calls_overflow : List Call :=
  List.replicate 22 Call.create_queue
    ++ (List.range 21).map (fun i => Call.enqueue_byte (some (Fin.ofNat (i + 1))) (101 + i))
    ++ List.replicate 82 (Call.enqueue_byte (some 0) 1)

/-- The arena after `calls_overflow`: the quota is 81, the first queue holds 82
bytes from offset 0 and the queue in slot `i` from 1 to 21 holds one byte at
offset `81 * i`; the byte of the second queue, at offset 81, is now 1. -/
def overflowed : Arena :=
  { fresh with
    queues := ⟨0, 82⟩ :: (List.range 21).map (fun i => ⟨81 * (i + 1), 1⟩)
      ++ List.replicate 42 ⟨BAD_QUEUE, BAD_QUEUE⟩
    queued_bytes := (List.range 1792).map (fun k =>
      if k < 82 then 1 else if k % 81 = 0 ∧ k ≤ 1701 then 100 + k / 81 else BAD_VALUE)
    Q_current_count := 22
    qb_current_count := 103
    current_max_length := 81
    last_Q_count := some 22 }

/-- The calls of `calls_overflow` without the last two. -/
def calls_quota_filled : List Call :=
  List.replicate 22 Call.create_queue
    ++ (List.range 21).map (fun i => Call.enqueue_byte (some (Fin.ofNat (i + 1))) (101 + i))
    ++ List.replicate 80 (Call.enqueue_byte (some 0) 1)

/-- The arena after `calls_quota_filled`: the quota is still 80, the first
queue holds 80 bytes and the queue in slot `i` from 1 to 21 holds one byte at
offset `80 * i`. -/
def quota_filled : Arena :=
  { fresh with
    queues := ⟨0, 80⟩ :: (List.range 21).map (fun i => ⟨80 * (i + 1), 1⟩)
      ++ List.replicate 42 ⟨BAD_QUEUE, BAD_QUEUE⟩
    queued_bytes := (List.range 1792).map (fun k =>
      if k < 80 then 1 else if k % 80 = 0 ∧ k ≤ 1680 then 100 + k / 80 else BAD_VALUE)
    Q_current_count := 22
    qb_current_count := 101
    last_Q_count := some 22 }

/-- The arena `quota_filled` after one more byte into the first queue: the
rebalance has raised the quota to 81 and moved slot `i` to offset `81 * i`. -/
def quota_raised : Arena :=
  { fresh with
    queues := ⟨0, 81⟩ :: (List.range 21).map (fun i => ⟨81 * (i + 1), 1⟩)
      ++ List.replicate 42 ⟨BAD_QUEUE, BAD_QUEUE⟩
    queued_bytes := (List.range 1792).map (fun k =>
      if k < 81 then 1 else if k % 81 = 0 ∧ k ≤ 1701 then 100 + k / 81 else BAD_VALUE)
    Q_current_count := 22
    qb_current_count := 102
    current_max_length := 81
    last_Q_count := some 22 }

/-- Calls: 22 queues are created and the first receives 82 bytes of value 1.
Afterwards the quota is 81, the first queue holds 82 bytes from offset 0 and
the second, empty, starts at offset 81. -/
def calls_neighbour : List Call :=
  List.replicate 22 Call.create_queue ++ List.replicate 82 (Call.enqueue_byte (some 0) 1)

/-- The test of lines 343-347 of `Q::bound_check_and_memory_rearrange`, on
`queues[i]`: when it holds the routine returns with "nothing to do". -/
def nothing_to_do (s : Arena) (i : Fin 64) : Prop :=
  (s.Qat i).length + 1 ≤ s.current_max_length
    ∧ u16 (memory_used s + 1) ≤ max_queued_byte_count
    ∧ ¬ (((s.last_Q_count.getD s.Q_current_count) != s.Q_current_count) = true
        ∧ s.Q_current_count > u16 (max_queued_byte_count / s.current_max_length))

instance (s : Arena) (i : Fin 64) : Decidable (nothing_to_do s i) := by
  unfold nothing_to_do
  infer_instance

/-- The value `optimal_queue_max_length` of line 358, for the value `r` of
`resize_opt`: the new quota, as a `uShort`. -/
def optimal_queue_max_length (s : Arena) (r : Int) : Nat :=
  (((s.current_max_length : Int) + r) % 65536).toNat

/-- The arena after 24 calls of `create_queue` on the fresh arena. -/
def table_24 : Arena :=
  { fresh with
    queues := (List.range 24).map (fun i => ⟨80 * i, 0⟩)
      ++ List.replicate 40 ⟨BAD_QUEUE, BAD_QUEUE⟩
    Q_current_count := 24 }

/-- The arena after `create_queue` and `enqueue_byte(q, 7)` on the fresh arena. -/
def one_byte_7 : Arena :=
  { one_byte with queued_bytes := fresh.queued_bytes.set 0 7 }

/-- Calls: a queue is created and receives 81 bytes, which raises the quota to
1791; then 36 more queues are created. -/
def calls_quota_check : List Call :=
  [Call.create_queue] ++ List.replicate 81 (Call.enqueue_byte (some 0) 1)
    ++ List.replicate 36 Call.create_queue

/-- The `n` bytes of a buffer from index `off` on. -/
def slice (buf : List Nat) (off n : Nat) : List Nat := (buf.drop off).take n

/-- The bytes a descriptor designates in a pool. -/
def Q.bytes (pool : List Nat) (q : Q) : List Nat := slice pool q.start_offset q.length

/-- Sum of `MAX(quota, length)` over the valid descriptors in the slots below
`j`, as a natural number. -/
def reserved_before (cml : Nat) (qs : List Q) (j : Nat) : Nat :=
  (((qs.take j).filter Q.is_valid).map (fun q => MAX cml q.length)).sum

/-- Two descriptors designate disjoint pool ranges, as far as both are valid
and hold at least one byte. -/
def Q.disjoint (q q1 : Q) : Prop :=
  q.is_valid = true → q1.is_valid = true → 1 ≤ q.length → 1 ≤ q1.length →
    q.start_offset + q.length ≤ q1.start_offset ∨ q1.start_offset + q1.length ≤ q.start_offset

/-- Second invariant of the reachable arenas: the quota fits the pool, and a
descriptor whose `length` is `BAD_QUEUE` has `start_offset` `BAD_QUEUE` too. -/
def Arena.tidy (s : Arena) : Prop :=
  s.current_max_length ≤ max_queued_byte_count
    ∧ ∀ j : Nat, (s.queues.getD j ⟨BAD_QUEUE, BAD_QUEUE⟩).length = BAD_QUEUE →
        (s.queues.getD j ⟨BAD_QUEUE, BAD_QUEUE⟩).start_offset = BAD_QUEUE

/-- Two queues, the first one filled up to the initial quota of 80 bytes and
one byte in the second. -/
def calls_quota_reached : List Call :=
  [Call.create_queue, Call.create_queue, Call.enqueue_byte (some 1) 9]
    ++ List.replicate 80 (Call.enqueue_byte (some 0) 1)

/-- The arena after `calls_quota_reached`. -/
def quota_reached : Arena :=
  { fresh with
    queues := ⟨0, 80⟩ :: ⟨80, 1⟩ :: List.replicate 62 ⟨BAD_QUEUE, BAD_QUEUE⟩
    queued_bytes := List.replicate 80 1 ++ 9 :: List.replicate 1711 BAD_VALUE
    Q_current_count := 2
    qb_current_count := 81
    last_Q_count := some 2 }

/-- The arena `quota_reached` after the rebalance of the next `enqueue_byte`. -/
def compacted : Arena :=
  { quota_reached with
    queues := ⟨0, 80⟩ :: ⟨895, 1⟩ :: List.replicate 62 ⟨BAD_QUEUE, BAD_QUEUE⟩
    queued_bytes := List.replicate 80 1 ++ List.replicate 815 BAD_VALUE
      ++ 9 :: List.replicate 896 BAD_VALUE
    current_max_length := 895 }

/-- Number of valid descriptors in the table. -/
def valid_count (s : Arena) : Nat :=
  ((List.finRange 64).filter (fun j => (s.Qat j).is_valid)).length

/-- Two queues; 1149 bytes into the first (the quota goes down to 643); the
second destroyed; one more byte (the quota becomes 643 + 1791 - 1149 = 1285);
50 more queues, which take the slots 1 to 50. Every call returns. -/
def calls_quota_1285 : List Call :=
  [Call.create_queue, Call.create_queue]
    ++ List.replicate 1149 (Call.enqueue_byte (some 0) 1)
    ++ [Call.destroy_queue (some 1), Call.enqueue_byte (some 0) 1]
    ++ List.replicate 50 Call.create_queue

/-- Three queues and 1791 bytes into the first. Every call returns. -/
def calls_quota_zero : List Call :=
  List.replicate 3 Call.create_queue ++ List.replicate 1791 (Call.enqueue_byte (some 0) 1)

/-- The layout of the arena while `n` queues, created before any byte was
stored, stay within the quota: slot `j` below `n` holds a valid queue at
offset `j * c` with the bytes `content j`, at most `c` of them, `c` being
the quota; the other slots are free. -/
def uniform_layout (n c : Nat) (s : Arena) (content : Fin 64 → List Nat) : Prop :=
  s.wf ∧ s.Q_current_count = n ∧ s.current_max_length = c
    ∧ (s.last_Q_count = none ∨ s.last_Q_count = some n)
    ∧ (∀ j : Fin 64, j.val < n →
        s.Qat j = ⟨j.val * c, (content j).length⟩ ∧ (content j).length ≤ c
        ∧ slice s.queued_bytes (j.val * c) (content j).length = content j)
    ∧ (∀ j : Fin 64, n ≤ j.val → s.Qat j = ⟨BAD_QUEUE, BAD_QUEUE⟩)

/-- The calls `enqueue_byte(q, b)` for the pairs `(q, b)` of a list, in order. -/
def enqueue_calls (es : List (Fin 64 × Nat)) : List Call :=
  es.map (fun e => Call.enqueue_byte (some e.1) e.2)

/-- The calls `dequeue_byte(q)` for the handles of a list, in order, each
paired with the byte it returned; `none` as soon as one does not return. -/
def dequeue_all : List (Fin 64) → Arena → Option (List (Fin 64 × Nat) × Arena)
  | [], s => some ([], s)
  | q :: qs, s =>
    match dequeue_byte s (some q) with
    | .ok b s1 => (dequeue_all qs s1).map (fun r => ((q, b) :: r.1, r.2))
    | _ => none

/-- The bytes enqueued into `q` by a list of `enqueue_byte` calls, in order,
each as the `unsigned char` it is passed as. -/
def enqueued (q : Fin 64) (es : List (Fin 64 × Nat)) : List Nat :=
  (es.filter (fun e => e.1 = q)).map (fun e => e.2 % 256)

/-- The bytes returned for `q` by a list of `dequeue_byte` calls, in order. -/
def dequeued (q : Fin 64) (rs : List (Fin 64 × Nat)) : List Nat :=
  (rs.filter (fun r => r.1 = q)).map (fun r => r.2)

/-- The layout in which queue 0 holds `L` bytes at offset 0, the slots 1 to
`m - 1` hold valid empty queues and the other slots are free; `c` is the
quota and `L` the byte count. -/
def head_layout (m L c : Nat) (s : Arena) : Prop :=
  s.wf ∧ s.Q_current_count = m ∧ s.qb_current_count = L ∧ s.current_max_length = c
    ∧ s.Qat 0 = ⟨0, L⟩
    ∧ (∀ j : Fin 64, 1 ≤ j.val → j.val < m →
        (s.Qat j).is_valid = true ∧ (s.Qat j).length = 0)
    ∧ (∀ j : Fin 64, m ≤ j.val → s.Qat j = ⟨BAD_QUEUE, BAD_QUEUE⟩)

/-- The quota left by `enqueue_byte` on queue 0 of a `head_layout`, computed
from the numbers alone as `Q::bound_check_and_memory_rearrange` computes it;
`none` when the call does not return. `last` is the static `last_Q_count`. -/
def head_quota (m L c : Nat) (last : Option Nat) : Option Nat :=
  if ¬ (L + 1 ≤ max_queued_byte_count) then none
  else if c = 0 then none
  else if L + 1 ≤ c
      ∧ ¬ (((last.getD m) != m) = true ∧ m > u16 (max_queued_byte_count / c)) then some c
  else
    match resize_opt (u16 (MAX c L + (m - 1) * c)) m with
    | none => none
    | some r =>
      let c1 := (((c : Int) + r) % 65536).toNat
      if c1 * m ≤ max_queued_byte_count
          ∧ MAX c1 L + (m - 1) * c1 ≤ max_queued_byte_count
          ∧ (2 ≤ m → MAX c1 L + (m - 2) * c1 < max_queued_byte_count) then some c1
      else none

/-- Length of queue 0 and quota after `k` calls of `enqueue_byte` on queue 0
of a `head_layout`, by `head_quota`. -/
def head_run (m : Nat) : Nat → Nat → Nat → Option Nat → Option (Nat × Nat)
  | 0, L, c, _ => some (L, c)
  | k + 1, L, c, last =>
    match head_quota m L c last with
    | none => none
    | some c1 => head_run m k (L + 1) c1 (some m)

/-! # Theorems -/

/-! ## Basic facts -/

theorem initializeData_of_once {s : Arena} (h : s.once = true) : initializeData s = s := by
  simp [initializeData, h]

theorem is_valid_iff (q : Q) :
    q.is_valid = true ↔ q.length ≠ BAD_QUEUE ∧ q.start_offset ≠ BAD_QUEUE := by
  simp [Q.is_valid, Q.length_is_valid, Q.offset_is_valid]

theorem Qat_lt_of_valid {s : Arena} {i : Fin 64} (h : (s.Qat i).is_valid = true) :
    i.val < s.queues.length := by
  by_contra hlt
  have : s.Qat i = ⟨BAD_QUEUE, BAD_QUEUE⟩ := by
    unfold Arena.Qat
    rw [List.getD_eq_default _ _ (by omega)]
  rw [this] at h
  simp [Q.is_valid, Q.length_is_valid] at h

theorem Qat_setQ_same {s : Arena} {i : Fin 64} (q : Q) (h : i.val < s.queues.length) :
    (s.setQ i q).Qat i = q := by
  simp [Arena.Qat, Arena.setQ, List.getD_eq_getElem?_getD, h]

theorem getD_set_ne (qs : List Q) (i j : Nat) (q d : Q) (h : i ≠ j) :
    (qs.set j q).getD i d = qs.getD i d := by
  simp only [List.getD_eq_getElem?_getD]
  rw [List.getElem?_set_ne (fun hji => h hji.symm)]

theorem Q_create_eq_none {s : Arena} (h : ∀ i : Fin 64, (s.Qat i).start_offset ≠ BAD_QUEUE) :
    Q.create s = none := by
  unfold Q.create
  rw [List.find?_eq_none]
  intro i _
  simpa using h i

theorem Q_create_some {s : Arena} {i : Fin 64} (h : Q.create s = some i) :
    (s.Qat i).start_offset = BAD_QUEUE := by
  unfold Q.create at h
  simpa using List.find?_some h

theorem in_valid_range_eq (i : Fin 64) : in_valid_range i = true := by
  have := i.isLt
  simp [in_valid_range, max_bytesize, max_count, sizeof_Q]
  omega

theorem max_queued_byte_count_eq : max_queued_byte_count = 1792 := rfl

/-- The value of `resize_opt` is the floor of the exact quotient. -/
theorem resize_opt_floor {used_or_reserved count : Nat} {r : Int}
    (h : resize_opt used_or_reserved count = some r) :
    r = Int.fdiv ((max_queued_byte_count : Int) - ((used_or_reserved : Int) + 1)) count := by
  unfold resize_opt at h
  split at h
  · simp at h
  · dsimp only at h
    split at h
    · simp only [Option.some.injEq] at h
      rw [← h, Int.fdiv_eq_ediv _ (Int.ofNat_nonneg count)]
    · simp at h

/-! ## Arithmetic of `uShort` -/

theorem u16_of_lt {n : Nat} (h : n < 65536) : u16 n = n := Nat.mod_eq_of_lt h

theorem inc16_of_lt {n : Nat} (h : n < 65535) : inc16 n = n + 1 := by
  unfold inc16 u16; omega

theorem dec16_of_pos {n : Nat} (h0 : 0 < n) (h : n ≤ 65536) : dec16 n = n - 1 := by
  unfold dec16 u16; omega

/-! ## The sum of live lengths -/

theorem live_length_sum_cons (q : Q) (qs : List Q) :
    live_length_sum (q :: qs) = q.live_length + live_length_sum qs := by
  simp [live_length_sum]

theorem live_length_sum_set (qs : List Q) (i : Nat) (q : Q) (h : i < qs.length) :
    live_length_sum (qs.set i q) + (qs.getD i ⟨BAD_QUEUE, BAD_QUEUE⟩).live_length
      = live_length_sum qs + q.live_length := by
  induction qs generalizing i with
  | nil => simp at h
  | cons a as ih =>
    cases i with
    | zero => simp [live_length_sum_cons]; omega
    | succ k =>
      have hk : k < as.length := by simpa using h
      have := ih k hk
      simp only [List.set_cons_succ, live_length_sum_cons, List.getD_cons_succ]
      omega

theorem live_length_le_sum (qs : List Q) (i : Nat) :
    (qs.getD i ⟨BAD_QUEUE, BAD_QUEUE⟩).live_length ≤ live_length_sum qs := by
  induction qs generalizing i with
  | nil => simp [Q.live_length, Q.is_valid, Q.length_is_valid]
  | cons a as ih =>
    cases i with
    | zero => simp [live_length_sum_cons]
    | succ k =>
      have := ih k
      simp only [List.getD_cons_succ, live_length_sum_cons]
      omega

theorem live_length_sum_set_dead (qs : List Q) (i : Nat) (q : Q)
    (hold : (qs.getD i ⟨BAD_QUEUE, BAD_QUEUE⟩).live_length = 0) (hnew : q.live_length = 0) :
    live_length_sum (qs.set i q) = live_length_sum qs := by
  by_cases h : i < qs.length
  · have := live_length_sum_set qs i q h
    omega
  · rw [List.set_eq_of_length_le (by omega)]

theorem live_length_of_valid {q : Q} (h : q.is_valid = true) : q.live_length = q.length := by
  simp [Q.live_length, h]

theorem live_length_of_bad_offset {q : Q} (h : q.start_offset = BAD_QUEUE) :
    q.live_length = 0 := by
  simp [Q.live_length, Q.is_valid, Q.offset_is_valid, h]

/-! ## Relocated descriptor tables -/

theorem relocated_refl (qs : List Q) : relocated qs qs := by
  unfold relocated
  induction qs with
  | nil => exact List.Forall₂.nil
  | cons a as ih => exact List.Forall₂.cons ⟨rfl, rfl⟩ ih

theorem relocated_length {qs qs1 : List Q} (h : relocated qs qs1) : qs1.length = qs.length :=
  (List.Forall₂.length_eq h).symm

theorem relocated_sum {qs qs1 : List Q} (h : relocated qs qs1) :
    live_length_sum qs1 = live_length_sum qs := by
  unfold relocated at h
  induction h with
  | nil => rfl
  | cons hab _ ih =>
    simp only [live_length_sum_cons, ih, Q.live_length, hab.1, hab.2]

theorem relocated_getD {qs qs1 : List Q} (h : relocated qs qs1) (i : Nat) :
    (qs1.getD i ⟨BAD_QUEUE, BAD_QUEUE⟩).length = (qs.getD i ⟨BAD_QUEUE, BAD_QUEUE⟩).length
    ∧ (qs1.getD i ⟨BAD_QUEUE, BAD_QUEUE⟩).is_valid
        = (qs.getD i ⟨BAD_QUEUE, BAD_QUEUE⟩).is_valid := by
  unfold relocated at h
  induction h generalizing i with
  | nil => simp
  | cons hab _ ih =>
    cases i with
    | zero => simpa using hab
    | succ k => simpa using ih k

/-! ## Buffers and byte loops -/

theorem write_length (dst : List Nat) (off : Nat) (bs : List Nat) :
    (write dst off bs).length = dst.length := by
  induction dst generalizing off bs with
  | nil => simp [write]
  | cons x xs ih =>
    cases off with
    | zero =>
      cases bs with
      | nil => simp [write]
      | cons b bs => simp [write, ih]
    | succ k => simp [write, ih]

theorem memset_length (dst : List Nat) (off v n size : Nat) (hlen : dst.length = size)
    (_h : accessible size off n = true) : (memset dst off v n).length = size := by
  rw [memset, write_length, hlen]

theorem memcpy_length (dst : List Nat) (doff : Nat) (src : List Nat) (soff n dsize ssize : Nat)
    (hd : dst.length = dsize) (_hs : src.length = ssize)
    (_had : accessible dsize doff n = true) (_has : accessible ssize soff n = true) :
    (memcpy dst doff src soff n).length = dsize := by
  rw [memcpy, write_length, hd]

theorem destroy_loop_spec (n qb : Nat) (pool : List Nat) (cnt : Nat) (pool1 : List Nat)
    (cnt1 : Nat) (h : destroy_loop n qb pool cnt = some (pool1, cnt1)) :
    pool1.length = pool.length ∧ (n ≤ cnt → cnt ≤ 65536 → cnt1 = cnt - n) := by
  induction n generalizing qb pool cnt with
  | zero =>
    simp only [destroy_loop, Option.some.injEq, Prod.mk.injEq] at h
    obtain ⟨rfl, rfl⟩ := h
    simp
  | succ k ih =>
    simp only [destroy_loop] at h
    split at h
    · obtain ⟨hl, hc⟩ := ih _ _ _ h
      refine ⟨by simpa using hl, fun h1 h2 => ?_⟩
      have hd : dec16 cnt = cnt - 1 := dec16_of_pos (by omega) h2
      rw [hc (by omega) (by omega), hd]
      omega
    · simp at h

theorem shift_left_loop_length (n qb_target qb : Nat) (pool pool1 : List Nat)
    (h : shift_left_loop n qb_target qb pool = some pool1) : pool1.length = pool.length := by
  induction n generalizing qb_target qb pool with
  | zero =>
    simp only [shift_left_loop, Option.some.injEq] at h
    rw [← h]
  | succ k ih =>
    simp only [shift_left_loop] at h
    split at h
    · simpa using ih _ _ _ h
    · simp at h

/-! ## The two loops of the compaction pass -/

/-- Buffers keep their sizes through the first loop. -/
theorem copy_out_sized (cml : Nat) (qs : List Q) (slot cumul : Nat)
    (offs temp pool : List Nat)
    (ht : temp.length = tempCopy_size) (hp : pool.length = max_queued_byte_count) :
    (copy_out cml qs slot cumul offs temp pool).sized := by
  induction qs generalizing slot cumul offs temp pool with
  | nil => simp [copy_out, CopyOut.sized, ht, hp]
  | cons q qs ih =>
    simp only [copy_out]
    split
    · split
      · simpa [CopyOut.sized] using hp
      · split
        · trivial
        · rename_i hacc
          replace hacc : accessible tempCopy_size cumul q.get_queued_bytes_data_size = true
              ∧ accessible max_queued_byte_count q.start_offset q.get_queued_bytes_data_size
                = true := by
            simpa using hacc
          have hp1 := memset_length pool q.start_offset BAD_VALUE
            q.get_queued_bytes_data_size _ hp hacc.2
          split
          · simpa [CopyOut.sized] using hp1
          · exact ih _ _ _ _ _
              (memcpy_length _ _ _ _ _ _ _ ht hp hacc.1 hacc.2) hp1
    · exact ih _ _ _ _ _ ht hp

/-- Offsets recorded by the first loop: entries below the starting slot are
kept, and the entry of every valid descriptor visited is not `BAD_QUEUE`. -/
theorem copy_out_offsets (cml : Nat) (qs : List Q) (slot cumul : Nat)
    (offs temp pool offs1 temp1 pool1 : List Nat)
    (h : copy_out cml qs slot cumul offs temp pool = .done offs1 temp1 pool1) :
    (∀ k, k < slot → offs1.getD k 0 = offs.getD k 0)
    ∧ (∀ j, j < qs.length → (qs.getD j ⟨BAD_QUEUE, BAD_QUEUE⟩).is_valid = true →
        offs1.getD (slot + j) 0 ≠ BAD_QUEUE) := by
  induction qs generalizing slot cumul offs temp pool with
  | nil =>
    simp only [copy_out, CopyOut.done.injEq] at h
    obtain ⟨rfl, -, -⟩ := h
    simp
  | cons q qs ih =>
    simp only [copy_out] at h
    split at h
    · rename_i hv
      split at h
      · simp at h
      · rename_i hcum
        split at h
        · simp at h
        · split at h
          · simp at h
          · obtain ⟨h1, h2⟩ := ih _ _ _ _ _ h
            have hslot : offs1.getD slot 0 ≠ BAD_QUEUE := by
              rw [h1 slot (by omega)]
              simp only [List.getD_eq_getElem?_getD, List.getElem?_set, if_true]
              split
              · simp only [Option.getD_some]
                simp only [max_queued_byte_count, remaining_space, data_size, max_bytesize,
                  max_count, sizeof_Q, sizeof_queued_byte, BAD_QUEUE] at hcum ⊢
                omega
              · simp [BAD_QUEUE]
            refine ⟨fun k hk => ?_, fun j hj hjv => ?_⟩
            · rw [h1 k (by omega)]
              simp only [List.getD_eq_getElem?_getD]
              rw [List.getElem?_set_ne (by omega)]
            · cases j with
              | zero => simpa using hslot
              | succ j1 =>
                have := h2 j1 (by simpa using hj) (by simpa using hjv)
                rwa [show slot + (j1 + 1) = slot + 1 + j1 by omega]
    · obtain ⟨h1, h2⟩ := ih _ _ _ _ _ h
      refine ⟨fun k hk => h1 k (by omega), fun j hj hjv => ?_⟩
      cases j with
      | zero =>
        rename_i hv
        simp at hjv
        exact absurd hjv hv
      | succ j1 =>
        have := h2 j1 (by simpa using hj) (by simpa using hjv)
        rwa [show slot + (j1 + 1) = slot + 1 + j1 by omega]

theorem relocates_cons {q q1 : Q} {qs : List Q} {r : CopyBack}
    (hq : q1.length = q.length ∧ q1.is_valid = q.is_valid) (h : r.relocates qs) :
    (r.cons q1).relocates (q :: qs) := by
  cases r with
  | done qs1 pool => exact ⟨List.Forall₂.cons hq h.1, h.2⟩
  | failed qs1 pool => exact ⟨List.Forall₂.cons hq h.1, h.2⟩
  | undefined => trivial

/-- The second loop only relocates descriptors and keeps the pool size. -/
theorem copy_back_relocates (offs temp : List Nat) (qs : List Q) (slot : Nat)
    (pool : List Nat)
    (ht : temp.length = tempCopy_size) (hp : pool.length = max_queued_byte_count) :
    (copy_back offs temp qs slot pool).relocates qs := by
  induction qs generalizing slot pool with
  | nil => exact ⟨List.Forall₂.nil, hp⟩
  | cons q qs ih =>
    simp only [copy_back]
    split
    · rename_i hv
      split
      · exact ⟨relocated_refl _, hp⟩
      · rename_i hoff
        split
        · trivial
        · rename_i hacc
          replace hacc :
              accessible max_queued_byte_count (offs.getD slot 0)
                (Q.get_queued_bytes_data_size ⟨offs.getD slot 0, q.length⟩) = true
              ∧ accessible tempCopy_size (offs.getD slot 0)
                (Q.get_queued_bytes_data_size ⟨offs.getD slot 0, q.length⟩) = true := by
            simpa using hacc
          refine relocates_cons ⟨rfl, ?_⟩
            (ih _ _ (memcpy_length _ _ _ _ _ _ _ hp ht hacc.1 hacc.2))
          rw [hv]
          rw [is_valid_iff] at hv ⊢
          exact ⟨hv.1, hoff⟩
    · exact relocates_cons ⟨rfl, rfl⟩ (ih _ _ hp)

theorem cons_ne_failed {q : Q} {r : CopyBack} (h : ∀ qs1 pool1, r ≠ .failed qs1 pool1) :
    ∀ qs1 pool1, r.cons q ≠ .failed qs1 pool1 := by
  intro qs1 pool1
  cases r with
  | done a b => simp [CopyBack.cons]
  | failed a b => exact absurd rfl (h a b)
  | undefined => simp [CopyBack.cons]

/-- The assertion inside the second loop cannot fail on offsets that are not
`BAD_QUEUE` at the valid slots. -/
theorem copy_back_not_failed (offs temp : List Nat) (qs : List Q) (slot : Nat)
    (pool : List Nat)
    (hoffs : ∀ j, j < qs.length → (qs.getD j ⟨BAD_QUEUE, BAD_QUEUE⟩).is_valid = true →
      offs.getD (slot + j) 0 ≠ BAD_QUEUE) :
    ∀ qs1 pool1, copy_back offs temp qs slot pool ≠ .failed qs1 pool1 := by
  induction qs generalizing slot pool with
  | nil => intro qs1 pool1; simp [copy_back]
  | cons q qs ih =>
    have htail : ∀ j, j < qs.length → (qs.getD j ⟨BAD_QUEUE, BAD_QUEUE⟩).is_valid = true →
        offs.getD (slot + 1 + j) 0 ≠ BAD_QUEUE := by
      intro j hj hjv
      have := hoffs (j + 1) (by simpa using hj) (by simpa using hjv)
      rwa [show slot + (j + 1) = slot + 1 + j by omega] at this
    simp only [copy_back]
    split
    · rename_i hv
      have h0 := hoffs 0 (by simp) (by simpa using hv)
      simp only [Nat.add_zero] at h0
      simp only [h0, if_false]
      split
      · intro qs1 pool1; simp
      · exact cons_ne_failed (ih _ _ htail)
    · exact cons_ne_failed (ih _ _ htail)

/-! ## The rebalancing routine -/

theorem compaction_pass_rearranges (s : Arena)
    (hp : s.queued_bytes.length = max_queued_byte_count) :
    (compaction_pass s).rearranges s := by
  unfold compaction_pass
  dsimp only
  have ht : (List.replicate tempCopy_size BAD_VALUE).length = tempCopy_size :=
    List.length_replicate _ _
  have hsz := copy_out_sized s.current_max_length s.queues 0 0
    (BAD_QUEUE :: List.replicate 63 0) _ _ ht hp
  have hoffs := copy_out_offsets s.current_max_length s.queues 0 0
    (BAD_QUEUE :: List.replicate 63 0) (List.replicate tempCopy_size BAD_VALUE) s.queued_bytes
  generalize copy_out s.current_max_length s.queues 0 0 (BAD_QUEUE :: List.replicate 63 0)
    (List.replicate tempCopy_size BAD_VALUE) s.queued_bytes = r at hsz hoffs
  cases r with
  | undefined => dsimp only [Outcome.rearranges]
  | failed pool => exact ⟨rfl, hsz, rfl, rfl, rfl⟩
  | done offs1 temp1 pool1 =>
    have hrel := copy_back_relocates offs1 temp1 s.queues 0 pool1 hsz.1 hsz.2
    have hnf := copy_back_not_failed offs1 temp1 s.queues 0 pool1
      (fun j hj hjv => by simpa using (hoffs offs1 temp1 pool1 rfl).2 j hj hjv)
    dsimp only
    generalize copy_back offs1 temp1 s.queues 0 pool1 = r2 at hrel hnf
    cases r2 with
    | undefined => dsimp only [Outcome.rearranges]
    | failed qs pool2 => exact absurd rfl (hnf qs pool2)
    | done qs pool2 => exact ⟨hrel.1, hrel.2, rfl, rfl, rfl⟩

theorem bound_check_rearranges (s : Arena) (i : Fin 64)
    (hp : s.queued_bytes.length = max_queued_byte_count) :
    (bound_check_and_memory_rearrange s i).rearranges s := by
  unfold bound_check_and_memory_rearrange
  simp only
  split
  · exact ⟨rfl, hp, rfl, rfl, rfl⟩
  · split
    · exact ⟨rfl, hp, rfl, rfl, rfl⟩
    · split
      · trivial
      · split
        · exact ⟨relocated_refl _, hp, rfl, rfl, rfl⟩
        · split
          · trivial
          · split
            · exact ⟨rfl, hp, rfl, rfl, rfl⟩
            · rename_i r _ _
              have := compaction_pass_rearranges
                { once := s.once, queues := s.queues, queued_bytes := s.queued_bytes,
                  Q_current_count := s.Q_current_count,
                  qb_current_count := s.qb_current_count,
                  current_max_length := (((s.current_max_length : Int) + r) % 65536).toNat,
                  last_Q_count := some s.Q_current_count } hp
              exact this

/-- A throw of the rebalancing routine either comes from the compaction pass
or leaves the pool as it was. -/
theorem bound_check_thrown {s s1 : Arena} {i : Fin 64} {e : Signal}
    (h : bound_check_and_memory_rearrange s i = .thrown e s1) :
    s1.queued_bytes = s.queued_bytes
    ∨ ∃ s0, s0.queues = s.queues ∧ s0.queued_bytes = s.queued_bytes
        ∧ compaction_pass s0 = .thrown e s1 := by
  unfold bound_check_and_memory_rearrange at h
  simp only at h
  split at h
  · simp only [Outcome.thrown.injEq] at h; exact Or.inl (by rw [← h.2])
  · split at h
    · simp only [Outcome.thrown.injEq] at h; exact Or.inl (by rw [← h.2])
    · split at h
      · simp at h
      · split at h
        · simp at h
        · split at h
          · simp at h
          · split at h
            · simp only [Outcome.thrown.injEq] at h; exact Or.inl (by rw [← h.2])
            · exact Or.inr ⟨_, by rfl, by rfl, h⟩

/-! ## What each entry point did, read off its outcome -/

theorem create_queue_thrown {s s1 : Arena} {e : Signal} (honce : s.once = true)
    (h : create_queue s = .thrown e s1) : s1 = s := by
  unfold create_queue at h
  simp only [initializeData_of_once honce, in_valid_range_eq] at h
  cases hc : Q.create s with
  | none => simp only [hc, Outcome.thrown.injEq] at h; exact h.2.symm
  | some i => simp [hc] at h

/-- What a returning `destroy_queue` did. -/
theorem destroy_queue_ok {s s1 : Arena} {i : Fin 64}
    (h : destroy_queue s (some i) = .ok () s1) :
    (s.Qat i).is_valid = true ∧ ∃ pool cnt,
      destroy_loop (s.Qat i).length (s.Qat i).start_offset s.queued_bytes s.qb_current_count
        = some (pool, cnt)
      ∧ s1 = { s with
          queues := s.queues.set i.val ⟨BAD_QUEUE, BAD_QUEUE⟩
          queued_bytes := pool
          qb_current_count := cnt
          Q_current_count := dec16 s.Q_current_count } := by
  unfold destroy_queue Q.destroy at h
  by_cases hv : (s.Qat i).is_valid = true
  · refine ⟨hv, ?_⟩
    have hl : (s.Qat i).length_is_valid = true := by
      simp [Q.is_valid] at hv; exact hv.1
    simp only [in_valid_range_eq, hv, destroy_queued_bytes, hl] at h
    cases hd : destroy_loop (s.Qat i).length (s.Qat i).start_offset s.queued_bytes
        s.qb_current_count with
    | none => simp [hd] at h
    | some pc =>
      obtain ⟨pool, cnt⟩ := pc
      refine ⟨pool, cnt, rfl, ?_⟩
      simp [hd, Arena.setQ] at h
      exact h.symm
  · simp [hv, in_valid_range_eq] at h

theorem destroy_queue_thrown {s s1 : Arena} {q : Option (Fin 64)} {e : Signal}
    (h : destroy_queue s q = .thrown e s1) : s1 = s := by
  unfold destroy_queue Q.destroy at h
  cases q with
  | none => simp only [Outcome.thrown.injEq] at h; exact h.2.symm
  | some i =>
    simp only [in_valid_range_eq, Bool.not_true, Bool.false_eq_true, if_false] at h
    by_cases hv : (s.Qat i).is_valid = true
    · have hl : (s.Qat i).length_is_valid = true := by
        simp [Q.is_valid] at hv; exact hv.1
      simp only [hv, Bool.not_true, Bool.false_eq_true, if_false, destroy_queued_bytes,
        hl] at h
      cases hd : destroy_loop (s.Qat i).length (s.Qat i).start_offset s.queued_bytes
          s.qb_current_count with
      | none => simp [hd] at h
      | some pc => simp [hd] at h
    · simp only [hv, Bool.not_false, if_true, Outcome.thrown.injEq] at h
      exact h.2.symm

/-- What a returning `Q::dequeue_byte` did. -/
theorem dequeue_byte_ok {s s2 : Arena} {i : Fin 64} {b : Nat}
    (h : dequeue_byte s (some i) = .ok b s2) :
    (s.Qat i).is_valid = true ∧ (s.Qat i).start_offset < max_queued_byte_count
    ∧ (s.Qat i).length ≠ 0 ∧ b = s.queued_bytes.getD (s.Qat i).start_offset BAD_VALUE
    ∧ ∃ pool,
      shift_left_loop ((s.Qat i).length - 1) (s.Qat i).start_offset
        ((s.Qat i).start_offset + 1) s.queued_bytes = some pool
      ∧ s2 = { s with
          queues := s.queues.set i.val
            { start_offset := (s.Qat i).start_offset, length := dec16 (s.Qat i).length }
          queued_bytes := pool
          qb_current_count := dec16 s.qb_current_count } := by
  unfold dequeue_byte at h
  by_cases hv : (s.Qat i).is_valid = true
  · simp only [hv, Bool.not_true, Bool.false_eq_true, if_false, Q.dequeue_byte,
      shift_left_queued_bytes] at h
    by_cases hs : (s.Qat i).start_offset < max_queued_byte_count
    · by_cases hl : (s.Qat i).length = 0
      · simp [hs, hl] at h
      · cases hloop : shift_left_loop ((s.Qat i).length - 1) (s.Qat i).start_offset
            ((s.Qat i).start_offset + 1) s.queued_bytes with
        | none => simp [hs, hl, hloop] at h
        | some pool =>
          simp only [hs, hl, hloop, not_true_eq_false, if_false, Outcome.ok.injEq] at h
          refine ⟨hv, hs, hl, h.1.symm, pool, rfl, ?_⟩
          rw [← h.2]
          simp [Arena.setQ, Arena.Qat]
    · simp [hs] at h
  · simp [hv] at h

theorem dequeue_byte_thrown {s s1 : Arena} {q : Option (Fin 64)} {e : Signal}
    (h : dequeue_byte s q = .thrown e s1) : s1 = s := by
  unfold dequeue_byte at h
  cases q with
  | none => simp only [Outcome.thrown.injEq] at h; exact h.2.symm
  | some i =>
    by_cases hv : (s.Qat i).is_valid = true
    · simp only [hv, Bool.not_true, Bool.false_eq_true, if_false, Q.dequeue_byte,
        shift_left_queued_bytes] at h
      by_cases hs : (s.Qat i).start_offset < max_queued_byte_count
      · by_cases hl : (s.Qat i).length = 0
        · simp [hs, hl] at h
        · cases hloop : shift_left_loop ((s.Qat i).length - 1) (s.Qat i).start_offset
              ((s.Qat i).start_offset + 1) s.queued_bytes with
          | none => simp [hs, hl, hloop] at h
          | some pool => simp [hs, hl, hloop] at h
      · simp [hs] at h
    · simp only [hv, Bool.not_false, if_true, Outcome.thrown.injEq] at h
      exact h.2.symm

/-- A `dequeue_byte` on a valid queue of length 1 whose byte lies in the pool. -/
theorem dequeue_byte_single (s : Arena) (i : Fin 64) (hv : (s.Qat i).is_valid = true)
    (hs : (s.Qat i).start_offset < max_queued_byte_count) (hl : (s.Qat i).length = 1) :
    dequeue_byte s (some i)
      = .ok (s.queued_bytes.getD (s.Qat i).start_offset BAD_VALUE)
          { s with
            queues := s.queues.set i.val ⟨(s.Qat i).start_offset, 0⟩
            qb_current_count := dec16 s.qb_current_count } := by
  have hq : ∀ pool : List Nat, Arena.Qat { s with queued_bytes := pool } i = s.Qat i :=
    fun _ => rfl
  simp only [dequeue_byte, hv, Q.dequeue_byte, hs, shift_left_queued_bytes, hl,
    shift_left_loop, Bool.not_true, Bool.false_eq_true, if_false, not_true_eq_false,
    Nat.sub_self, one_ne_zero, hq, Arena.setQ]
  simp [dec16, u16]

/-- What a returning `enqueue_byte` did. -/
theorem enqueue_byte_ok {s s3 : Arena} {i : Fin 64} {b : Nat}
    (h : enqueue_byte s (some i) b = .ok () s3) :
    (s.Qat i).is_valid = true ∧ s.qb_current_count < max_queued_byte_count
    ∧ ∃ s1, bound_check_and_memory_rearrange s i = .ok () s1
      ∧ (s1.Qat i).start_offset + (s1.Qat i).length < max_queued_byte_count
      ∧ s3 = { s1 with
          queues := s1.queues.set i.val
            { start_offset := (s1.Qat i).start_offset, length := inc16 (s1.Qat i).length }
          queued_bytes :=
            s1.queued_bytes.set ((s1.Qat i).start_offset + (s1.Qat i).length) (b % 256)
          qb_current_count := inc16 s1.qb_current_count } := by
  unfold enqueue_byte at h
  by_cases hv : (s.Qat i).is_valid = true
  · simp only [hv, Bool.not_true, Bool.false_eq_true, if_false, Q.enqueue_byte,
      memory_available] at h
    by_cases hm : s.qb_current_count < max_queued_byte_count
    · simp only [hm, decide_True, Bool.not_true, Bool.false_eq_true, if_false] at h
      cases hb : bound_check_and_memory_rearrange s i with
      | undefined => simp [hb] at h
      | thrown e s1 => simp [hb] at h
      | ok u s1 =>
        simp only [hb] at h
        by_cases hq : (s1.Qat i).start_offset + (s1.Qat i).length < max_queued_byte_count
        · simp only [hq, not_true_eq_false, if_false, Outcome.ok.injEq, true_and] at h
          refine ⟨hv, hm, s1, rfl, hq, ?_⟩
          rw [← h]
          simp [Arena.setQ, Arena.Qat]
        · simp [hq] at h
    · simp [hm] at h
  · simp [hv] at h

theorem enqueue_byte_thrown {s s1 : Arena} {q : Option (Fin 64)} {b : Nat} {e : Signal}
    (h : enqueue_byte s q b = .thrown e s1) :
    s1 = s ∨ ∃ i, q = some i ∧ bound_check_and_memory_rearrange s i = .thrown e s1 := by
  unfold enqueue_byte at h
  cases q with
  | none => simp only [Outcome.thrown.injEq] at h; exact Or.inl h.2.symm
  | some i =>
    by_cases hv : (s.Qat i).is_valid = true
    · simp only [hv, Bool.not_true, Bool.false_eq_true, if_false, Q.enqueue_byte,
        memory_available] at h
      by_cases hm : s.qb_current_count < max_queued_byte_count
      · simp only [hm, decide_True, Bool.not_true, Bool.false_eq_true, if_false] at h
        cases hb : bound_check_and_memory_rearrange s i with
        | undefined => simp [hb] at h
        | thrown e1 s2 =>
          simp only [hb, Outcome.thrown.injEq] at h
          exact Or.inr ⟨i, rfl, by rw [hb, h.1, h.2]⟩
        | ok u s2 =>
          simp only [hb] at h
          by_cases hq : (s2.Qat i).start_offset + (s2.Qat i).length < max_queued_byte_count
          · simp [hq] at h
          · simp [hq] at h
      · simp only [hm, decide_False, Bool.not_false, if_true, Outcome.thrown.injEq] at h
        exact Or.inl h.2.symm
    · simp only [hv, Bool.not_false, if_true, Outcome.thrown.injEq] at h
      exact Or.inl h.2.symm

/-! ## Preservation of the invariant -/

theorem inv_fresh : fresh.inv := by
  refine ⟨⟨rfl, ?_, ?_⟩, ?_, ?_⟩
  · simp [fresh, initializeData, startup]
  · simp [fresh, initializeData, startup]
  · simp [fresh, initializeData, startup, live_length_sum, Q.live_length, Q.is_valid,
      Q.length_is_valid]
  · simp [fresh, initializeData, startup]

theorem create_queue_inv {s s1 : Arena} (hinv : s.inv)
    (h : (create_queue s).arena = some s1) : s1.inv := by
  obtain ⟨⟨honce, hq, hp⟩, hsum, hle⟩ := hinv
  unfold create_queue at h
  simp only [initializeData_of_once honce, in_valid_range_eq] at h
  cases hc : Q.create s with
  | none =>
    simp only [hc, Outcome.arena, Option.some.injEq] at h
    subst h
    exact ⟨⟨honce, hq, hp⟩, hsum, hle⟩
  | some i =>
    simp only [hc, Outcome.arena, Option.some.injEq, Bool.not_true, Bool.false_eq_true,
      if_false] at h
    subst h
    refine ⟨⟨honce, ?_, hp⟩, ?_, hle⟩
    · simpa [Arena.setQ] using hq
    · have hold := live_length_of_bad_offset (Q_create_some hc)
      simp only [Arena.setQ]
      rw [live_length_sum_set_dead _ _ _ hold (by simp [Q.live_length])]
      exact hsum

theorem destroy_queue_inv {s s1 : Arena} {q : Option (Fin 64)} (hinv : s.inv)
    (h : (destroy_queue s q).arena = some s1) : s1.inv := by
  cases hr : destroy_queue s q with
  | undefined => simp [hr, Outcome.arena] at h
  | thrown e s2 =>
    simp only [hr, Outcome.arena, Option.some.injEq] at h
    rw [← h, destroy_queue_thrown hr]
    exact hinv
  | ok u s2 =>
    simp only [hr, Outcome.arena, Option.some.injEq] at h
    subst h
    cases q with
    | none => simp [destroy_queue, Q.destroy] at hr
    | some i =>
      obtain ⟨⟨honce, hq, hp⟩, hsum, hle⟩ := hinv
      obtain ⟨hv, pool, cnt, hloop, rfl⟩ := destroy_queue_ok hr
      obtain ⟨hpl, hcnt⟩ := destroy_loop_spec _ _ _ _ _ _ hloop
      have hlt := Qat_lt_of_valid hv
      have hset := live_length_sum_set s.queues i.val ⟨BAD_QUEUE, BAD_QUEUE⟩ hlt
      have hlive : (s.queues.getD i.val ⟨BAD_QUEUE, BAD_QUEUE⟩).live_length
          = (s.Qat i).length := live_length_of_valid hv
      have hdead : Q.live_length ⟨BAD_QUEUE, BAD_QUEUE⟩ = 0 :=
        live_length_of_bad_offset rfl
      have hlen_le := live_length_le_sum s.queues i.val
      rw [max_queued_byte_count_eq] at hle
      have hc := hcnt (by omega) (by omega)
      refine ⟨⟨honce, by simpa using hq, by rw [hpl]; exact hp⟩, ?_, ?_⟩
      · show cnt = live_length_sum (s.queues.set i.val ⟨BAD_QUEUE, BAD_QUEUE⟩)
        omega
      · show cnt ≤ max_queued_byte_count
        rw [max_queued_byte_count_eq]
        omega

theorem dequeue_byte_inv {s s1 : Arena} {q : Option (Fin 64)} (hinv : s.inv)
    (h : (dequeue_byte s q).arena = some s1) : s1.inv := by
  cases hr : dequeue_byte s q with
  | undefined => simp [hr, Outcome.arena] at h
  | thrown e s2 =>
    simp only [hr, Outcome.arena, Option.some.injEq] at h
    rw [← h, dequeue_byte_thrown hr]
    exact hinv
  | ok b s2 =>
    simp only [hr, Outcome.arena, Option.some.injEq] at h
    subst h
    cases q with
    | none => simp [dequeue_byte] at hr
    | some i =>
      obtain ⟨⟨honce, hq, hp⟩, hsum, hle⟩ := hinv
      obtain ⟨hv, -, hl0, -, pool, hloop, rfl⟩ := dequeue_byte_ok hr
      have hpl := shift_left_loop_length _ _ _ _ _ hloop
      have hlt := Qat_lt_of_valid hv
      have hlive : (s.queues.getD i.val ⟨BAD_QUEUE, BAD_QUEUE⟩).live_length
          = (s.Qat i).length := live_length_of_valid hv
      have hlen_le := live_length_le_sum s.queues i.val
      rw [max_queued_byte_count_eq] at hle
      have hdl : dec16 (s.Qat i).length = (s.Qat i).length - 1 :=
        dec16_of_pos (by omega) (by omega)
      have hdc : dec16 s.qb_current_count = s.qb_current_count - 1 :=
        dec16_of_pos (by omega) (by omega)
      have hnewv : Q.is_valid ⟨(s.Qat i).start_offset, dec16 (s.Qat i).length⟩ = true := by
        rw [is_valid_iff] at hv ⊢
        refine ⟨?_, hv.2⟩
        show dec16 (s.Qat i).length ≠ BAD_QUEUE
        rw [hdl]
        simp only [BAD_QUEUE]
        omega
      have hset := live_length_sum_set s.queues i.val
        ⟨(s.Qat i).start_offset, dec16 (s.Qat i).length⟩ hlt
      rw [live_length_of_valid hnewv] at hset
      refine ⟨⟨honce, by simpa using hq, by rw [hpl]; exact hp⟩, ?_, ?_⟩
      · show dec16 s.qb_current_count = live_length_sum (s.queues.set i.val _)
        simp only at hset
        omega
      · show dec16 s.qb_current_count ≤ max_queued_byte_count
        rw [max_queued_byte_count_eq]
        omega

theorem enqueue_byte_inv {s s1 : Arena} {q : Option (Fin 64)} {b : Nat} (hinv : s.inv)
    (h : (enqueue_byte s q b).arena = some s1) : s1.inv := by
  obtain ⟨⟨honce, hq, hp⟩, hsum, hle⟩ := hinv
  cases hr : enqueue_byte s q b with
  | undefined => simp [hr, Outcome.arena] at h
  | thrown e s2 =>
    simp only [hr, Outcome.arena, Option.some.injEq] at h
    subst h
    rcases enqueue_byte_thrown hr with rfl | ⟨i, -, hb⟩
    · exact ⟨⟨honce, hq, hp⟩, hsum, hle⟩
    · have hre := bound_check_rearranges s i hp
      rw [hb] at hre
      obtain ⟨h1, h2, h3, -, h5⟩ := hre
      exact ⟨⟨h3.trans honce, by rw [h1]; exact hq, h2⟩, by rw [h5, h1]; exact hsum,
        by rw [h5]; exact hle⟩
  | ok u s2 =>
    simp only [hr, Outcome.arena, Option.some.injEq] at h
    subst h
    cases q with
    | none => simp [enqueue_byte] at hr
    | some i =>
      obtain ⟨hv, hm, s0, hb, -, rfl⟩ := enqueue_byte_ok hr
      have hre := bound_check_rearranges s i hp
      rw [hb] at hre
      obtain ⟨h1, h2, h3, -, h5⟩ := hre
      obtain ⟨hgl, hgv⟩ := relocated_getD h1 i.val
      have hv0 : (s0.Qat i).is_valid = true := hgv.trans hv
      have hl0 : (s0.Qat i).length = (s.Qat i).length := hgl
      have hlt := Qat_lt_of_valid hv0
      have hlive : (s.queues.getD i.val ⟨BAD_QUEUE, BAD_QUEUE⟩).live_length
          = (s.Qat i).length := live_length_of_valid hv
      have hlive0 : (s0.queues.getD i.val ⟨BAD_QUEUE, BAD_QUEUE⟩).live_length
          = (s0.Qat i).length := live_length_of_valid hv0
      have hlen_le := live_length_le_sum s.queues i.val
      have hsum0 := relocated_sum h1
      rw [max_queued_byte_count_eq] at hle hm
      have hil : inc16 (s0.Qat i).length = (s0.Qat i).length + 1 := inc16_of_lt (by omega)
      have hic : inc16 s0.qb_current_count = s0.qb_current_count + 1 :=
        inc16_of_lt (by omega)
      have hnewv : Q.is_valid ⟨(s0.Qat i).start_offset, inc16 (s0.Qat i).length⟩ = true := by
        rw [is_valid_iff] at hv0 ⊢
        refine ⟨?_, hv0.2⟩
        show inc16 (s0.Qat i).length ≠ BAD_QUEUE
        rw [hil]
        simp only [BAD_QUEUE]
        omega
      have hset := live_length_sum_set s0.queues i.val
        ⟨(s0.Qat i).start_offset, inc16 (s0.Qat i).length⟩ hlt
      rw [live_length_of_valid hnewv] at hset
      refine ⟨⟨h3.trans honce, ?_, ?_⟩, ?_, ?_⟩
      · show (s0.queues.set i.val _).length = max_count
        rw [List.length_set, relocated_length h1]
        exact hq
      · show (s0.queued_bytes.set _ _).length = max_queued_byte_count
        rw [List.length_set]
        exact h2
      · show inc16 s0.qb_current_count = live_length_sum (s0.queues.set i.val _)
        simp only at hset
        omega
      · show inc16 s0.qb_current_count ≤ max_queued_byte_count
        rw [max_queued_byte_count_eq]
        omega

/-- Every reachable arena satisfies the invariant. -/
theorem reachable_inv {s : Arena} (h : Reachable s) : s.inv := by
  induction h with
  | fresh => exact inv_fresh
  | call c _ hstep ih =>
    cases c with
    | create_queue => exact create_queue_inv ih hstep
    | destroy_queue q => exact destroy_queue_inv ih hstep
    | enqueue_byte q b => exact enqueue_byte_inv ih hstep
    | dequeue_byte q => exact dequeue_byte_inv ih hstep

/-- A call other than `create_queue` leaves an invalid descriptor invalid. -/
theorem after_keeps_invalid {c : Call} {s s1 : Arena} {i : Fin 64}
    (hp : s.queued_bytes.length = max_queued_byte_count)
    (hc : c ≠ Call.create_queue) (h : c.after s = some s1)
    (hi : (s.Qat i).is_valid = false) : (s1.Qat i).is_valid = false := by
  cases c with
  | create_queue => exact absurd rfl hc
  | destroy_queue q =>
    simp only [Call.after] at h
    cases hr : destroy_queue s q with
    | undefined => simp [hr, Outcome.arena] at h
    | thrown e s2 =>
      simp only [hr, Outcome.arena, Option.some.injEq] at h
      rw [← h, destroy_queue_thrown hr]; exact hi
    | ok u s2 =>
      simp only [hr, Outcome.arena, Option.some.injEq] at h
      subst h
      cases q with
      | none => simp [destroy_queue, Q.destroy] at hr
      | some j =>
        obtain ⟨hv, pool, cnt, -, rfl⟩ := destroy_queue_ok hr
        have hij : i.val ≠ j.val := by
          intro hij
          rw [Fin.ext hij, hv] at hi
          exact absurd hi (by simp)
        show ((s.queues.set j.val _).getD i.val _).is_valid = false
        rw [getD_set_ne _ _ _ _ _ hij]
        exact hi
  | dequeue_byte q =>
    simp only [Call.after] at h
    cases hr : dequeue_byte s q with
    | undefined => simp [hr, Outcome.arena] at h
    | thrown e s2 =>
      simp only [hr, Outcome.arena, Option.some.injEq] at h
      rw [← h, dequeue_byte_thrown hr]; exact hi
    | ok b s2 =>
      simp only [hr, Outcome.arena, Option.some.injEq] at h
      subst h
      cases q with
      | none => simp [dequeue_byte] at hr
      | some j =>
        obtain ⟨hv, -, -, -, pool, -, rfl⟩ := dequeue_byte_ok hr
        have hij : i.val ≠ j.val := by
          intro hij
          rw [Fin.ext hij, hv] at hi
          exact absurd hi (by simp)
        show ((s.queues.set j.val _).getD i.val _).is_valid = false
        rw [getD_set_ne _ _ _ _ _ hij]
        exact hi
  | enqueue_byte q b =>
    simp only [Call.after] at h
    cases hr : enqueue_byte s q b with
    | undefined => simp [hr, Outcome.arena] at h
    | thrown e s2 =>
      simp only [hr, Outcome.arena, Option.some.injEq] at h
      subst h
      rcases enqueue_byte_thrown hr with rfl | ⟨j, -, hb⟩
      · exact hi
      · have hre := bound_check_rearranges s j hp
        rw [hb] at hre
        unfold Arena.Qat
        rw [hre.1]
        exact hi
    | ok u s2 =>
      simp only [hr, Outcome.arena, Option.some.injEq] at h
      subst h
      cases q with
      | none => simp [enqueue_byte] at hr
      | some j =>
        obtain ⟨hv, -, s0, hb, -, rfl⟩ := enqueue_byte_ok hr
        have hre := bound_check_rearranges s j hp
        rw [hb] at hre
        have hij : i.val ≠ j.val := by
          intro hij
          rw [Fin.ext hij, hv] at hi
          exact absurd hi (by simp)
        show ((s0.queues.set j.val _).getD i.val _).is_valid = false
        rw [getD_set_ne _ _ _ _ _ hij, (relocated_getD hre.1 i.val).2]
        exact hi

/-- Calls other than `create_queue`, run from a reachable arena, leave an
invalid descriptor invalid. -/
theorem run_keeps_invalid {cs : List Call} {s s1 : Arena} {i : Fin 64}
    (hs : Reachable s) (hc : Call.create_queue ∉ cs) (h : run cs s = some s1)
    (hi : (s.Qat i).is_valid = false) : (s1.Qat i).is_valid = false := by
  induction cs generalizing s with
  | nil =>
    simp only [run, Option.some.injEq] at h
    exact h ▸ hi
  | cons c cs ih =>
    simp only [run] at h
    cases ha : c.after s with
    | none => simp [ha] at h
    | some s2 =>
      simp only [ha] at h
      have hne : c ≠ Call.create_queue := fun hcc => hc (hcc ▸ List.mem_cons_self _ _)
      exact ih (Reachable.call c hs ha) (fun hm => hc (List.mem_cons_of_mem _ hm)) h
        (after_keeps_invalid (reachable_inv hs).1.2.2 hne ha hi)

/-! ## Runs -/

theorem reachable_run {cs : List Call} {s s1 : Arena} (h : Reachable s)
    (hr : run cs s = some s1) : Reachable s1 := by
  induction cs generalizing s with
  | nil =>
    simp only [run, Option.some.injEq] at hr
    exact hr ▸ h
  | cons c cs ih =>
    simp only [run] at hr
    cases hc : c.after s with
    | none => simp [hc] at hr
    | some s2 =>
      simp only [hc] at hr
      exact ih (Reachable.call c h hc) hr

theorem returned_arena {α : Type} {r : Outcome α} {s : Arena} (h : r.returned = some s) :
    r.arena = some s := by
  cases r <;> simp_all [Outcome.returned, Outcome.arena]

theorem after_of_returns {c : Call} {s s1 : Arena} (h : c.returns s = some s1) :
    c.after s = some s1 := by
  cases c <;> exact returned_arena h

theorem run_of_run_ok {cs : List Call} {s s1 : Arena} (hr : run_ok cs s = some s1) :
    run cs s = some s1 := by
  induction cs generalizing s with
  | nil => simpa [run_ok, run] using hr
  | cons c cs ih =>
    simp only [run_ok] at hr
    cases hc : c.returns s with
    | none => simp [hc] at hr
    | some s2 =>
      simp only [hc] at hr
      simp only [run, after_of_returns hc]
      exact ih hr

theorem exists_of_map_check {o : Option Arena} {p : Arena → Bool}
    (h : o.map p = some true) : ∃ s, o = some s ∧ p s = true := by
  cases o with
  | none => simp at h
  | some s => exact ⟨s, rfl, by simpa using h⟩

theorem thrown_of_thrown_with {α : Type} {r : Outcome α} {e : Signal} {s : Arena}
    (h : r.thrown_with = some (e, s)) : r = .thrown e s := by
  cases r with
  | ok a s1 => simp [Outcome.thrown_with] at h
  | thrown e1 s1 =>
    simp only [Outcome.thrown_with, Option.some.injEq, Prod.mk.injEq] at h
    rw [h.1, h.2]
  | undefined => simp [Outcome.thrown_with] at h

theorem reachable_one_queue : Reachable one_queue :=
  Reachable.call Call.create_queue Reachable.fresh (by decide!)

/-! ## Compaction integrity and non-overlap (claims C1, C2) -/

set_option maxRecDepth 100000 in
theorem run_ok_calls_quota_filled : run_ok calls_quota_filled fresh = some quota_filled := by
  decide!

set_option maxRecDepth 100000 in
theorem enqueue_quota_filled : enqueue_byte quota_filled (some 0) 1 = .ok () quota_raised := by
  decide!

set_option maxRecDepth 100000 in
theorem enqueue_quota_raised : enqueue_byte quota_raised (some 0) 1 = .ok () overflowed := by
  decide!

theorem run_ok_append (as bs : List Call) (s : Arena) :
    run_ok (as ++ bs) s = (run_ok as s).bind (run_ok bs) := by
  induction as generalizing s with
  | nil => simp [run_ok]
  | cons a as ih =>
    simp only [List.cons_append, run_ok]
    cases a.returns s with
    | none => rfl
    | some s1 => exact ih s1

theorem run_ok_calls_overflow : run_ok calls_overflow fresh = some overflowed := by
  have e : calls_overflow
      = calls_quota_filled ++ List.replicate 2 (Call.enqueue_byte (some 0) 1) := by
    unfold calls_overflow calls_quota_filled
    simp only [List.append_assoc]
    rw [← List.replicate_add]
  rw [e, run_ok_append, run_ok_calls_quota_filled]
  show run_ok [Call.enqueue_byte (some 0) 1, Call.enqueue_byte (some 0) 1] quota_filled = _
  simp only [run_ok, Call.returns, enqueue_quota_filled, Outcome.returned,
    enqueue_quota_raised]

set_option maxRecDepth 100000 in
/-- Claim C1 (the code does otherwise). 22 queues are created on the fresh
arena, the queue in each slot `i` from 1 to 21 is given the one-byte sequence
`[100 + i]` and the first queue a sequence of 82 bytes of value 1; every call
returns. The first dequeue on the second queue then returns 1, a byte of the
first queue, and not 101. -/
theorem compaction_integrity_fails :
    run_ok calls_overflow fresh = some overflowed
    ∧ (dequeue_byte overflowed (some 1)).value = some 1 :=
  ⟨run_ok_calls_overflow, by decide!⟩

/-- Claim C2 (the code does otherwise). The arena `overflowed` is reachable, and
in it the first two queues, both valid and not empty, occupy the pool ranges
`[0, 82)` and `[81, 82)`. -/
theorem non_overlap_fails :
    Reachable overflowed ∧ ¬ non_overlap overflowed := by
  refine ⟨reachable_run Reachable.fresh (run_of_run_ok run_ok_calls_overflow), fun h => ?_⟩
  have := h 0 1 (by decide) (by decide) (by decide) (by decide) (by decide)
  revert this
  decide

/-! ## Byte count (claim C3) -/

/-- Claim C3. In every reachable arena `queued_byte::current_count` equals the
sum of `length` over the valid descriptors. -/
theorem byte_count_invariant (s : Arena) (h : Reachable s) :
    s.qb_current_count = live_length_sum s.queues :=
  (reachable_inv h).2.1

theorem byte_count_invariant_witness :
    Reachable one_byte ∧ one_byte.qb_current_count = live_length_sum one_byte.queues :=
  have h : Reachable one_byte :=
    Reachable.call (Call.enqueue_byte (some 0) 255) reachable_one_queue (by decide!)
  ⟨h, byte_count_invariant one_byte h⟩

/-! ## FIFO order and round trip (claims C4, C5) -/

set_option maxRecDepth 100000 in
theorem check_calls_neighbour :
    (run_ok calls_neighbour fresh).map (fun s => decide
      (s.Qat 0 = ⟨0, 82⟩ ∧ s.Qat 1 = ⟨81, 0⟩ ∧ s.current_max_length = 81
      ∧ (run_ok (List.replicate 82 (Call.enqueue_byte (some 1) 2)) s).bind
          (fun s1 => (dequeue_byte s1 (some 1)).value) = some 255)) = some true := by
  decide!

/-- Claim C4 (the code does otherwise). After `calls_neighbour` the arena is
reachable, the quota is 81, the first queue is `[0, 82)` and the second queue
is valid and empty at offset 81. 82 calls `enqueue_byte` of the byte 2 on the
second queue all return, and the first `dequeue_byte` that follows returns
`0xFF`, not 2. -/
theorem fifo_order_fails :
    ∃ s, run_ok calls_neighbour fresh = some s ∧ Reachable s
      ∧ s.Qat 0 = ⟨0, 82⟩ ∧ s.Qat 1 = ⟨81, 0⟩ ∧ s.current_max_length = 81
      ∧ (s.Qat 1).is_valid = true ∧ (s.Qat 1).length = 0
      ∧ (run_ok (List.replicate 82 (Call.enqueue_byte (some 1) 2)) s).bind
          (fun s1 => (dequeue_byte s1 (some 1)).value) = some 255 := by
  obtain ⟨s, hs, hp⟩ := exists_of_map_check check_calls_neighbour
  simp only [decide_eq_true_eq] at hp
  obtain ⟨h0, h1, hc, hd⟩ := hp
  refine ⟨s, hs, reachable_run Reachable.fresh (run_of_run_ok hs), h0, h1, hc, ?_, ?_, hd⟩
  · rw [h1]; decide
  · rw [h1]

/-- Claim C5. In a reachable arena, for a valid queue of length 0 and a byte
`b` (any value below 256, `0xFF` included): if `enqueue_byte` returns, the
next `dequeue_byte` returns `b`, and afterwards the length of the queue and
`queued_byte::current_count` have the values they had before the enqueue. -/
theorem round_trip (s : Arena) (hs : Reachable s) (i : Fin 64) (b : Nat) (hb : b < 256)
    (hv : (s.Qat i).is_valid = true) (hl : (s.Qat i).length = 0)
    (s1 : Arena) (henq : enqueue_byte s (some i) b = .ok () s1) :
    ∃ s2, dequeue_byte s1 (some i) = .ok b s2
      ∧ (s2.Qat i).length = (s.Qat i).length
      ∧ s2.qb_current_count = s.qb_current_count := by
  obtain ⟨⟨-, -, hp⟩, -, -⟩ := reachable_inv hs
  obtain ⟨-, hm, s0, hb0, hqb, hs1⟩ := enqueue_byte_ok henq
  have hre := bound_check_rearranges s i hp
  rw [hb0] at hre
  obtain ⟨h1, h2, -, -, h5⟩ := hre
  obtain ⟨hgl, hgv⟩ := relocated_getD h1 i.val
  have hv0 : (s0.Qat i).is_valid = true := hgv.trans hv
  have hl0 : (s0.Qat i).length = 0 := hgl.trans hl
  have hlt := Qat_lt_of_valid hv0
  rw [hl0, Nat.add_zero] at hqb hs1
  have hoff : (s0.Qat i).start_offset ≠ BAD_QUEUE := ((is_valid_iff _).1 hv0).2
  rw [max_queued_byte_count_eq] at hm
  have hQ1 : s1.Qat i = ⟨(s0.Qat i).start_offset, 1⟩ := by
    rw [hs1]
    simp [Arena.Qat, List.getD_eq_getElem?_getD, hlt, inc16, u16]
  have hv1 : (s1.Qat i).is_valid = true := by
    rw [hQ1, is_valid_iff]
    exact ⟨by simp [BAD_QUEUE], hoff⟩
  have hlt1 : i.val < s1.queues.length := Qat_lt_of_valid hv1
  have hcnt : dec16 s1.qb_current_count = s.qb_current_count := by
    rw [hs1]
    show dec16 (inc16 s0.qb_current_count) = s.qb_current_count
    rw [h5]
    unfold dec16 inc16 u16
    omega
  have hpool : s1.queued_bytes.getD (s1.Qat i).start_offset BAD_VALUE = b := by
    rw [hQ1, hs1]
    show (s0.queued_bytes.set (s0.Qat i).start_offset (b % 256)).getD
      (s0.Qat i).start_offset BAD_VALUE = b
    rw [List.getD_eq_getElem?_getD, List.getElem?_set_self (by rw [h2]; exact hqb)]
    simp [Nat.mod_eq_of_lt hb]
  have hdq := dequeue_byte_single s1 i hv1 (by rw [hQ1]; exact hqb) (by rw [hQ1])
  rw [hpool] at hdq
  refine ⟨_, hdq, ?_, hcnt⟩
  rw [hl]
  simp [Arena.Qat, List.getD_eq_getElem?_getD, hlt1]

theorem round_trip_witness :
    Reachable one_queue ∧ enqueue_byte one_queue (some 0) 255 = .ok () one_byte
    ∧ ∃ s2, dequeue_byte one_byte (some 0) = .ok 255 s2
      ∧ (s2.Qat 0).length = (one_queue.Qat 0).length
      ∧ s2.qb_current_count = one_queue.qb_current_count :=
  ⟨reachable_one_queue, by decide!,
    round_trip one_queue reachable_one_queue 0 255 (by decide) (by decide) (by decide)
      one_byte (by decide!)⟩

/-! ## Failure atomicity (claim C6) -/

/-- What a throw does keep. In a reachable arena, a throw of `create_queue`,
`destroy_queue` or `dequeue_byte` leaves the whole arena as it was; a throw of
`enqueue_byte` leaves every descriptor, `Q::current_count` and
`queued_byte::current_count` as they were, and leaves the pool as it was
unless the throw comes from inside the compaction pass. -/
theorem failure_atomicity_outside_compaction (s : Arena) (hs : Reachable s) :
    (∀ e s1, create_queue s = .thrown e s1 → s1 = s)
    ∧ (∀ q e s1, destroy_queue s q = .thrown e s1 → s1 = s)
    ∧ (∀ q e s1, dequeue_byte s q = .thrown e s1 → s1 = s)
    ∧ (∀ q b e s1, enqueue_byte s q b = .thrown e s1 →
        s1.queues = s.queues ∧ s1.Q_current_count = s.Q_current_count
        ∧ s1.qb_current_count = s.qb_current_count
        ∧ (s1.queued_bytes = s.queued_bytes
          ∨ ∃ s0, s0.queues = s.queues ∧ s0.queued_bytes = s.queued_bytes
              ∧ compaction_pass s0 = .thrown e s1)) := by
  obtain ⟨⟨honce, -, hp⟩, -, -⟩ := reachable_inv hs
  refine ⟨fun e s1 h => create_queue_thrown honce h, fun q e s1 h => destroy_queue_thrown h,
    fun q e s1 h => dequeue_byte_thrown h, fun q b e s1 h => ?_⟩
  rcases enqueue_byte_thrown h with rfl | ⟨i, -, hb⟩
  · exact ⟨rfl, rfl, rfl, Or.inl rfl⟩
  · have hre := bound_check_rearranges s i hp
    rw [hb] at hre
    exact ⟨hre.1, hre.2.2.2.1, hre.2.2.2.2, bound_check_thrown hb⟩

set_option maxRecDepth 100000 in
theorem check_failed_compaction :
    (run_ok calls_before_failed_compaction fresh).map (fun s =>
      decide ((enqueue_byte s (some 26) 2).thrown_with.map
          (fun r => (r.1, r.2.queued_bytes.take 77, r.2.current_max_length))
            = some (Signal.illegal_operation, List.replicate 77 BAD_VALUE, 66)
        ∧ s.queues = table_before_failed_compaction ∧ s.current_max_length = 68
        ∧ s.Q_current_count = 27 ∧ s.qb_current_count = 81
        ∧ s.queued_bytes.take 77 = List.replicate 77 1)) = some true := by
  decide!

/-- The run behind the failure of failure atomicity: after
`calls_before_failed_compaction` the arena holds 27 queues and 81 bytes under
the quota 68, the first queue holding 77 bytes of value 1 at offset 0, and the
call `enqueue_byte(queues[26], 2)` throws illegal-operation with the quota
lowered to 66 and these 77 bytes of the pool `0xFF`. -/
theorem failed_compaction_run :
    ∃ s s1, run_ok calls_before_failed_compaction fresh = some s
      ∧ enqueue_byte s (some 26) 2 = .thrown .illegal_operation s1
      ∧ s1.queued_bytes.take 77 = List.replicate 77 BAD_VALUE ∧ s1.current_max_length = 66
      ∧ s.queues = table_before_failed_compaction ∧ s.current_max_length = 68
      ∧ s.Q_current_count = 27 ∧ s.qb_current_count = 81
      ∧ s.queued_bytes.take 77 = List.replicate 77 1 := by
  obtain ⟨s, hs, hp⟩ := exists_of_map_check check_failed_compaction
  simp only [decide_eq_true_eq] at hp
  obtain ⟨hp, hrest⟩ := hp
  cases hr : (enqueue_byte s (some 26) 2).thrown_with with
  | none => rw [hr] at hp; cases hp
  | some r =>
    obtain ⟨e, s1⟩ := r
    rw [hr] at hp
    simp only [Option.map_some', Option.some.injEq, Prod.mk.injEq] at hp
    obtain ⟨he, h1, h2⟩ := hp
    subst he
    exact ⟨s, s1, hs, thrown_of_thrown_with hr, h1, h2, hrest⟩

set_option maxRecDepth 100000 in
theorem table_before_failed_compaction_disjoint (i j : Fin 64) (hij : i ≠ j)
    (hi : (table_before_failed_compaction.getD i.val ⟨BAD_QUEUE, BAD_QUEUE⟩).is_valid = true)
    (hj : (table_before_failed_compaction.getD j.val ⟨BAD_QUEUE, BAD_QUEUE⟩).is_valid = true)
    (h1 : 1 ≤ (table_before_failed_compaction.getD i.val ⟨BAD_QUEUE, BAD_QUEUE⟩).length)
    (h2 : 1 ≤ (table_before_failed_compaction.getD j.val ⟨BAD_QUEUE, BAD_QUEUE⟩).length) :
    (table_before_failed_compaction.getD i.val ⟨BAD_QUEUE, BAD_QUEUE⟩).start_offset
        + (table_before_failed_compaction.getD i.val ⟨BAD_QUEUE, BAD_QUEUE⟩).length
      ≤ (table_before_failed_compaction.getD j.val ⟨BAD_QUEUE, BAD_QUEUE⟩).start_offset
    ∨ (table_before_failed_compaction.getD j.val ⟨BAD_QUEUE, BAD_QUEUE⟩).start_offset
        + (table_before_failed_compaction.getD j.val ⟨BAD_QUEUE, BAD_QUEUE⟩).length
      ≤ (table_before_failed_compaction.getD i.val ⟨BAD_QUEUE, BAD_QUEUE⟩).start_offset := by
  revert i j
  decide!

set_option maxRecDepth 100000 in
theorem table_before_failed_compaction_in_pool (j : Fin 64)
    (hj : (table_before_failed_compaction.getD j.val ⟨BAD_QUEUE, BAD_QUEUE⟩).is_valid = true) :
    (table_before_failed_compaction.getD j.val ⟨BAD_QUEUE, BAD_QUEUE⟩).start_offset
        + (table_before_failed_compaction.getD j.val ⟨BAD_QUEUE, BAD_QUEUE⟩).length
      ≤ max_queued_byte_count := by
  revert j
  decide!

/-- Claim C6 fails. After `calls_before_failed_compaction` the arena is
reachable and in order: 27 queues hold 81 of the 1792 bytes, the ranges of the
queues that hold bytes are pairwise disjoint, every valid queue has its range
inside the pool, and the first queue is `[0, 77)` with 77 bytes of value 1.
The call `enqueue_byte(queues[26], 2)` then throws illegal-operation from an
assertion inside the compaction pass, that is after the check of line 360 has
passed with the new quota 66; it leaves the descriptors and both counters as
they were, but the 77 bytes of the first queue are `0xFF` in the pool: the
stored bytes are gone, the pool is not left as it was. -/
theorem failure_atomicity_fails :
    ∃ s s1, run_ok calls_before_failed_compaction fresh = some s ∧ Reachable s
      ∧ s.Q_current_count = 27 ∧ s.qb_current_count = 81 ∧ s.current_max_length = 68
      ∧ non_overlap s
      ∧ (∀ j : Fin 64, (s.Qat j).is_valid = true →
          (s.Qat j).start_offset + (s.Qat j).length ≤ max_queued_byte_count)
      ∧ s.Qat 0 = ⟨0, 77⟩ ∧ s.queued_bytes.take 77 = List.replicate 77 1
      ∧ enqueue_byte s (some 26) 2 = .thrown .illegal_operation s1
      ∧ (∃ s0, s0.queues = s.queues ∧ s0.queued_bytes = s.queued_bytes
          ∧ compaction_pass s0 = .thrown .illegal_operation s1)
      ∧ s1.queues = s.queues ∧ s1.Q_current_count = s.Q_current_count
      ∧ s1.qb_current_count = s.qb_current_count
      ∧ s1.current_max_length = 66
      ∧ s1.queued_bytes.take 77 = List.replicate 77 BAD_VALUE
      ∧ s1.queued_bytes ≠ s.queued_bytes := by
  obtain ⟨s, s1, hs, he, h1, hc1, hq, hc, hn, hb, h0⟩ := failed_compaction_run
  have hr : Reachable s := reachable_run Reachable.fresh (run_of_run_ok hs)
  have hne : s1.queued_bytes ≠ s.queued_bytes := by
    intro h
    rw [← h, h1] at h0
    exact absurd h0 (by decide)
  obtain ⟨hk1, hk2, hk3, hk4⟩ := (failure_atomicity_outside_compaction s hr).2.2.2
    (some 26) 2 .illegal_operation s1 he
  refine ⟨s, s1, hs, hr, hn, hb, hc, ?_, ?_, ?_, h0, he, ?_, hk1, hk2, hk3, hc1, h1, hne⟩
  · intro i j hij
    unfold Arena.Qat
    rw [hq]
    exact table_before_failed_compaction_disjoint i j hij
  · intro j
    unfold Arena.Qat
    rw [hq]
    exact table_before_failed_compaction_in_pool j
  · unfold Arena.Qat
    rw [hq]
    rfl
  · rcases hk4 with h | h
    · exact absurd h hne
    · exact h

/-! ## Capacity boundaries (claims C7, C8) -/

/-- Claim C7. When `initializeData` has run and all 64 descriptors are valid,
`create_queue` throws out-of-memory and leaves the whole arena, hence every
descriptor and `Q::current_count`, as it was. -/
theorem create_queue_table_full (s : Arena) (hinit : s.once = true)
    (hfull : ∀ i : Fin 64, (s.Qat i).is_valid = true) :
    create_queue s = .thrown .out_of_memory s := by
  have hnone : Q.create s = none :=
    Q_create_eq_none (fun i => ((is_valid_iff _).1 (hfull i)).2)
  simp [create_queue, initializeData_of_once hinit, hnone]

theorem create_queue_table_full_witness :
    run_ok (List.replicate 64 Call.create_queue) fresh = some full_table
    ∧ create_queue full_table = .thrown .out_of_memory full_table :=
  ⟨by decide!, create_queue_table_full full_table rfl (by decide)⟩

/-- Claim C8. With `queued_byte::current_count` equal to the pool capacity and
a valid handle, `enqueue_byte` throws out-of-memory and leaves the whole arena
as it was. -/
theorem enqueue_byte_pool_full (s : Arena) (i : Fin 64) (b : Nat)
    (hfull : s.qb_current_count = max_queued_byte_count)
    (hvalid : (s.Qat i).is_valid = true) :
    enqueue_byte s (some i) b = .thrown .out_of_memory s := by
  simp [enqueue_byte, hvalid, Q.enqueue_byte, memory_available, hfull]

theorem enqueue_byte_pool_full_witness :
    full_pool.qb_current_count = max_queued_byte_count
    ∧ (full_pool.Qat 0).is_valid = true
    ∧ enqueue_byte full_pool (some 0) 7 = .thrown .out_of_memory full_pool :=
  ⟨rfl, by decide, enqueue_byte_pool_full full_pool 0 7 rfl (by decide)⟩

/-! ## Invalid handles and empty queues (claims C9, C10) -/

/-- Claim C9. Each of `destroy_queue`, `enqueue_byte` and `dequeue_byte` throws
illegal-operation and leaves the whole arena as it was when the handle is null
or its descriptor is not valid. In particular a second `destroy_queue` on a
handle just destroyed throws, and in a reachable arena it still throws after
any calls that returned or threw in between, none of them `create_queue`. -/
theorem invalid_handle_rejected (s : Arena) :
    destroy_queue s none = .thrown .illegal_operation s
    ∧ (∀ b, enqueue_byte s none b = .thrown .illegal_operation s)
    ∧ dequeue_byte s none = .thrown .illegal_operation s
    ∧ (∀ i : Fin 64, (s.Qat i).is_valid = false →
        destroy_queue s (some i) = .thrown .illegal_operation s
        ∧ (∀ b, enqueue_byte s (some i) b = .thrown .illegal_operation s)
        ∧ dequeue_byte s (some i) = .thrown .illegal_operation s)
    ∧ (∀ (i : Fin 64) (s1 : Arena), destroy_queue s (some i) = .ok () s1 →
        destroy_queue s1 (some i) = .thrown .illegal_operation s1)
    ∧ (Reachable s → ∀ (i : Fin 64) (s1 : Arena) (cs : List Call) (s2 : Arena),
        destroy_queue s (some i) = .ok () s1 → Call.create_queue ∉ cs →
        run cs s1 = some s2 →
        destroy_queue s2 (some i) = .thrown .illegal_operation s2) := by
  have hinvalid : ∀ (t : Arena) (i : Fin 64), (t.Qat i).is_valid = false →
      destroy_queue t (some i) = .thrown .illegal_operation t := by
    intro t i hi
    simp [destroy_queue, Q.destroy, hi]
  have hdestroyed : ∀ (i : Fin 64) (s1 : Arena), destroy_queue s (some i) = .ok () s1 →
      (s1.Qat i).is_valid = false := by
    intro i s1 h
    obtain ⟨hv, pool, cnt, -, rfl⟩ := destroy_queue_ok h
    have hlt := Qat_lt_of_valid hv
    simp [Arena.Qat, List.getD_eq_getElem?_getD, hlt, Q.is_valid, Q.length_is_valid]
  refine ⟨by simp [destroy_queue, Q.destroy], fun b => by simp [enqueue_byte],
    by simp [dequeue_byte], ?_, ?_, ?_⟩
  · intro i hi
    exact ⟨hinvalid s i hi, fun b => by simp [enqueue_byte, hi], by simp [dequeue_byte, hi]⟩
  · intro i s1 h
    exact hinvalid s1 i (hdestroyed i s1 h)
  · intro hs i s1 cs s2 h hcs hrun
    have hs1 : Reachable s1 :=
      Reachable.call (Call.destroy_queue (some i)) hs (by simp [Call.after, h, Outcome.arena])
    exact hinvalid s2 i (run_keeps_invalid hs1 hcs hrun (hdestroyed i s1 h))

theorem invalid_handle_rejected_witness :
    (fresh.Qat 0).is_valid = false
    ∧ destroy_queue fresh (some 0) = .thrown .illegal_operation fresh
    ∧ Reachable one_queue
    ∧ destroy_queue one_queue (some 0) = .ok () fresh
    ∧ run [Call.enqueue_byte (some 0) 5, Call.dequeue_byte none] fresh = some fresh
    ∧ destroy_queue fresh (some 0) = .thrown .illegal_operation fresh :=
  ⟨by decide, ((invalid_handle_rejected fresh).2.2.2.1 0 (by decide)).1, reachable_one_queue,
    by decide!, by decide!,
    (invalid_handle_rejected one_queue).2.2.2.2.2 reachable_one_queue 0 fresh
      [Call.enqueue_byte (some 0) 5, Call.dequeue_byte none] fresh (by decide!) (by decide)
      (by decide!)⟩

/-- Claim C10 (the code does otherwise). On the queue just created in the fresh
arena, which is valid and empty, `dequeue_byte` does not throw
illegal-operation: `Q::shift_left_queued_bytes` starts its pointer one past
the end of the empty range and walks out of the pool. -/
theorem dequeue_byte_empty_not_rejected :
    create_queue fresh = .ok 0 one_queue
    ∧ (one_queue.Qat 0).is_valid = true ∧ (one_queue.Qat 0).length = 0
    ∧ dequeue_byte one_queue (some 0) = .undefined := by
  decide!

/-! ## Pool bounds (claim C18) -/

set_option maxRecDepth 100000 in
/-- Claim C18 (the code does otherwise). After 24 calls of `create_queue` on the
fresh arena the queue in slot 23 is valid with `start_offset = 1840` and length
0, past the end of the 1792-byte pool, and `enqueue_byte` on it stores outside
the pool. -/
theorem pool_bounds_fail :
    run_ok (List.replicate 24 Call.create_queue) fresh = some table_24
    ∧ (table_24.Qat 23).is_valid = true
    ∧ (table_24.Qat 23).start_offset + (table_24.Qat 23).length = 1840
    ∧ enqueue_byte table_24 (some 23) 5 = .undefined := by
  decide!

/-! ## Dequeue (claim C12) -/

set_option maxRecDepth 100000 in
/-- Claim C12 (the code does otherwise). In `one_byte_7`, reached by
`create_queue` and `enqueue_byte(q, 7)`, the queue has length 1 and its range
`[0, 1)` lies inside the pool. `dequeue_byte` returns 7 and leaves the byte 7
in the vacated slot 0: the loop of `Q::shift_left_queued_bytes`, which
invalidates the slots it has copied from, does not run for a single byte. -/
theorem dequeue_byte_keeps_last_byte :
    run_ok [Call.create_queue, Call.enqueue_byte (some 0) 7] fresh = some one_byte_7
    ∧ one_byte_7.Qat 0 = ⟨0, 1⟩
    ∧ dequeue_byte one_byte_7 (some 0)
        = .ok 7 { one_queue with
            queued_bytes := fresh.queued_bytes.set 0 7
            last_Q_count := some 1 }
    ∧ (fresh.queued_bytes.set 0 7).getD 0 BAD_VALUE = 7 := by
  decide!

/-! ## The quota assertion (claim C15) -/

set_option maxRecDepth 100000 in
theorem check_quota_check :
    (run_ok calls_quota_check fresh).map (fun s => decide
      (s.current_max_length = 1791 ∧ s.Q_current_count = 37
      ∧ ¬ nothing_to_do s 0
      ∧ memory_used_or_reserved s = 731
      ∧ resize_opt (memory_used_or_reserved s) s.Q_current_count = some 28
      ∧ optimal_queue_max_length s 28 = 1819
      ∧ enqueue_byte s (some 0) 1
          = .thrown .illegal_operation { s with last_Q_count := some 37 })) = some true := by
  decide!

/-- Claim C15 (the code does otherwise). After `calls_quota_check` the quota is
1791 and 37 queues are live. `enqueue_byte` on the first queue reaches the
quota recomputation: the `uShort` sum `memory_used_or_reserved` wraps from
`37 * 1791 = 66267` to 731, `resize_opt` is 28, the new quota is 1819 and
`1819 * 37 > 1792`, so the assertion after the recomputation throws
illegal-operation. -/
theorem quota_assertion_fails :
    ∃ s, run_ok calls_quota_check fresh = some s ∧ Reachable s
      ∧ s.current_max_length = 1791 ∧ s.Q_current_count = 37
      ∧ ¬ nothing_to_do s 0
      ∧ memory_used_or_reserved s = 731
      ∧ resize_opt (memory_used_or_reserved s) s.Q_current_count = some 28
      ∧ optimal_queue_max_length s 28 = 1819
      ∧ ¬ (1819 * 37 ≤ max_queued_byte_count)
      ∧ enqueue_byte s (some 0) 1
          = .thrown .illegal_operation { s with last_Q_count := some 37 } := by
  obtain ⟨s, hs, hp⟩ := exists_of_map_check check_quota_check
  simp only [decide_eq_true_eq] at hp
  obtain ⟨h1, h2, h3, h4, h5, h6, h7⟩ := hp
  exact ⟨s, hs, reachable_run Reachable.fresh (run_of_run_ok hs), h1, h2, h3, h4, h5, h6,
    by decide, h7⟩

/-! ## Destruction (claim C13) -/

/-- Bytes of the pool after the loop of `Q::destroy_queued_bytes`. -/
theorem destroy_loop_bytes (n qb : Nat) (pool : List Nat) (cnt : Nat) (pool1 : List Nat)
    (cnt1 : Nat) (h : destroy_loop n qb pool cnt = some (pool1, cnt1)) (k : Nat) :
    pool1[k]? = if qb ≤ k ∧ k < qb + n then (pool[k]?).map (fun _ => BAD_VALUE)
      else pool[k]? := by
  induction n generalizing qb pool cnt with
  | zero =>
    simp only [destroy_loop, Option.some.injEq, Prod.mk.injEq] at h
    obtain ⟨rfl, -⟩ := h
    have h1 : ¬ (qb ≤ k ∧ k < qb + 0) := by omega
    simp only [h1, if_false]
  | succ m ih =>
    simp only [destroy_loop] at h
    split at h
    · rw [ih _ _ _ h, List.getElem?_set]
      by_cases hk : qb = k
      · subst hk
        simp only [if_true]
        have h1 : ¬ (qb + 1 ≤ qb ∧ qb < qb + 1 + m) := by omega
        have h2 : qb ≤ qb ∧ qb < qb + (m + 1) := by omega
        simp only [h1, h2, if_false, if_true]
        by_cases hl : qb < pool.length
        · simp [hl]
        · simp [hl, List.getElem?_eq_none (Nat.le_of_not_lt hl)]
      · simp only [hk, if_false]
        by_cases h3 : qb + 1 ≤ k ∧ k < qb + 1 + m
        · have h4 : qb ≤ k ∧ k < qb + (m + 1) := by omega
          simp [h3, h4]
        · have h4 : ¬ (qb ≤ k ∧ k < qb + (m + 1)) := by omega
          simp [h3, h4]
    · simp at h

/-- The loop of `Q::destroy_queued_bytes` runs to its end on a range inside the pool. -/
theorem destroy_loop_runs (n qb : Nat) (pool : List Nat) (cnt : Nat)
    (h : qb + n ≤ max_queued_byte_count) :
    ∃ pool1 cnt1, destroy_loop n qb pool cnt = some (pool1, cnt1) := by
  induction n generalizing qb pool cnt with
  | zero => exact ⟨pool, cnt, rfl⟩
  | succ m ih =>
    simp only [destroy_loop]
    have hlt : qb < max_queued_byte_count := by omega
    simp only [hlt, if_true]
    exact ih _ _ _ (by omega)

/-- The counter after the loop of `Q::destroy_queued_bytes`, modulo `2^16`. -/
theorem destroy_loop_count (n qb : Nat) (pool : List Nat) (cnt : Nat) (pool1 : List Nat)
    (cnt1 : Nat) (h : destroy_loop n qb pool cnt = some (pool1, cnt1)) :
    (cnt1 + n) % 65536 = cnt % 65536 := by
  induction n generalizing qb pool cnt with
  | zero =>
    simp only [destroy_loop, Option.some.injEq, Prod.mk.injEq] at h
    rw [h.2]
    rfl
  | succ m ih =>
    simp only [destroy_loop] at h
    split at h
    · have := ih _ _ _ h
      unfold dec16 u16 at this
      omega
    · simp at h

/-- Claim C13. In an arena with the full-size pool, `destroy_queue` on a valid
handle whose range `[start_offset, start_offset + n)` lies inside the pool
returns; afterwards every pool slot of the range holds `0xFF`, every other
pool slot is unchanged, `queued_byte::current_count` is decreased by `n` and
`Q::current_count` by one (in the arithmetic of `uShort`, which is the exact
difference whenever the counter was at least `n`, respectively at least 1),
both fields of the descriptor are `0xFFFF`, and every other descriptor, the
quota and the other statics are unchanged. -/
theorem destroy_queue_postcondition (s : Arena) (i : Fin 64)
    (hp : s.queued_bytes.length = max_queued_byte_count)
    (hv : (s.Qat i).is_valid = true)
    (hr : (s.Qat i).start_offset + (s.Qat i).length ≤ max_queued_byte_count) :
    ∃ s1, destroy_queue s (some i) = .ok () s1
      ∧ (∀ k, (s.Qat i).start_offset ≤ k → k < (s.Qat i).start_offset + (s.Qat i).length →
          s1.queued_bytes[k]? = some BAD_VALUE)
      ∧ (∀ k, (k < (s.Qat i).start_offset
            ∨ (s.Qat i).start_offset + (s.Qat i).length ≤ k) →
          s1.queued_bytes[k]? = s.queued_bytes[k]?)
      ∧ (s1.qb_current_count + (s.Qat i).length) % 65536 = s.qb_current_count % 65536
      ∧ ((s.Qat i).length ≤ s.qb_current_count → s.qb_current_count < 65536 →
          s1.qb_current_count + (s.Qat i).length = s.qb_current_count)
      ∧ (s1.Q_current_count + 1) % 65536 = s.Q_current_count % 65536
      ∧ (1 ≤ s.Q_current_count → s.Q_current_count < 65536 →
          s1.Q_current_count + 1 = s.Q_current_count)
      ∧ s1.Qat i = ⟨BAD_QUEUE, BAD_QUEUE⟩
      ∧ (∀ j : Fin 64, j ≠ i → s1.Qat j = s.Qat j)
      ∧ s1.current_max_length = s.current_max_length
      ∧ s1.last_Q_count = s.last_Q_count ∧ s1.once = s.once := by
  obtain ⟨pool1, cnt1, hloop⟩ := destroy_loop_runs (s.Qat i).length (s.Qat i).start_offset
    s.queued_bytes s.qb_current_count hr
  have hl : (s.Qat i).length_is_valid = true := by
    simp [Q.is_valid] at hv; exact hv.1
  have hlt := Qat_lt_of_valid hv
  have hcnt := (destroy_loop_spec _ _ _ _ _ _ hloop).2
  have hmod := destroy_loop_count _ _ _ _ _ _ hloop
  have hbytes := destroy_loop_bytes _ _ _ _ _ _ hloop
  refine ⟨{ s with
      queues := s.queues.set i.val ⟨BAD_QUEUE, BAD_QUEUE⟩
      queued_bytes := pool1
      qb_current_count := cnt1
      Q_current_count := dec16 s.Q_current_count }, ?_, ?_, ?_, hmod, ?_, ?_, ?_, ?_, ?_,
      rfl, rfl, rfl⟩
  · simp [destroy_queue, Q.destroy, in_valid_range_eq, hv, destroy_queued_bytes, hl, hloop,
      Arena.setQ]
  · intro k hk1 hk2
    show pool1[k]? = some BAD_VALUE
    rw [hbytes k]
    have hkl : k < s.queued_bytes.length := by rw [hp]; omega
    simp [hk1, hk2, List.getElem?_eq_getElem hkl]
  · intro k hk
    show pool1[k]? = s.queued_bytes[k]?
    rw [hbytes k]
    have : ¬ ((s.Qat i).start_offset ≤ k ∧ k < (s.Qat i).start_offset + (s.Qat i).length) := by
      omega
    simp [this]
  · intro hc hc16
    show cnt1 + (s.Qat i).length = s.qb_current_count
    have := hcnt hc (by omega)
    omega
  · show (dec16 s.Q_current_count + 1) % 65536 = s.Q_current_count % 65536
    unfold dec16 u16
    omega
  · intro hq hq16
    show dec16 s.Q_current_count + 1 = s.Q_current_count
    rw [dec16_of_pos (by omega) (by omega)]
    omega
  · simp [Arena.Qat, List.getD_eq_getElem?_getD, hlt]
  · intro j hj
    show (s.queues.set i.val _).getD j.val _ = s.queues.getD j.val _
    exact getD_set_ne _ _ _ _ _ (fun h => hj (Fin.ext h))

theorem destroy_queue_postcondition_witness :
    ∃ s1, destroy_queue one_byte_7 (some 0) = .ok () s1
      ∧ (∀ k, (one_byte_7.Qat 0).start_offset ≤ k →
          k < (one_byte_7.Qat 0).start_offset + (one_byte_7.Qat 0).length →
          s1.queued_bytes[k]? = some BAD_VALUE)
      ∧ (∀ k, (k < (one_byte_7.Qat 0).start_offset
            ∨ (one_byte_7.Qat 0).start_offset + (one_byte_7.Qat 0).length ≤ k) →
          s1.queued_bytes[k]? = one_byte_7.queued_bytes[k]?)
      ∧ (s1.qb_current_count + (one_byte_7.Qat 0).length) % 65536
          = one_byte_7.qb_current_count % 65536
      ∧ ((one_byte_7.Qat 0).length ≤ one_byte_7.qb_current_count →
          one_byte_7.qb_current_count < 65536 →
          s1.qb_current_count + (one_byte_7.Qat 0).length = one_byte_7.qb_current_count)
      ∧ (s1.Q_current_count + 1) % 65536 = one_byte_7.Q_current_count % 65536
      ∧ (1 ≤ one_byte_7.Q_current_count → one_byte_7.Q_current_count < 65536 →
          s1.Q_current_count + 1 = one_byte_7.Q_current_count)
      ∧ s1.Qat 0 = ⟨BAD_QUEUE, BAD_QUEUE⟩
      ∧ (∀ j : Fin 64, j ≠ 0 → s1.Qat j = one_byte_7.Qat j)
      ∧ s1.current_max_length = one_byte_7.current_max_length
      ∧ s1.last_Q_count = one_byte_7.last_Q_count ∧ s1.once = one_byte_7.once :=
  destroy_queue_postcondition one_byte_7 0 (by decide!) (by decide) (by decide)

/-! ## Slices of buffers -/

theorem getElem?_write (dst : List Nat) (off : Nat) (bs : List Nat) (k : Nat) :
    (write dst off bs)[k]?
      = if off ≤ k ∧ k < off + bs.length ∧ k < dst.length then bs[k - off]? else dst[k]? := by
  induction dst generalizing off bs k with
  | nil => simp [write]
  | cons x xs ih =>
    cases off with
    | zero =>
      cases bs with
      | nil => simp [write]
      | cons b bs =>
        cases k with
        | zero => simp [write]
        | succ k => simp [write, ih]
    | succ o =>
      cases k with
      | zero => simp [write]
      | succ k =>
        simp only [write, List.getElem?_cons_succ, ih, List.length_cons, Nat.add_sub_add_right]
        have e : (o + 1 ≤ k + 1 ∧ k + 1 < o + 1 + bs.length ∧ k + 1 < xs.length + 1)
            ↔ (o ≤ k ∧ k < o + bs.length ∧ k < xs.length) := by omega
        rw [if_congr e rfl rfl]

theorem getElem?_write_outside (dst : List Nat) (off : Nat) (bs : List Nat) (k : Nat)
    (h : k < off ∨ off + bs.length ≤ k) : (write dst off bs)[k]? = dst[k]? := by
  rw [getElem?_write, if_neg (by omega)]

theorem getElem?_slice (buf : List Nat) (off n k : Nat) :
    (slice buf off n)[k]? = if k < n then buf[off + k]? else none := by
  unfold slice
  rw [List.getElem?_take]
  split
  · rw [List.getElem?_drop]
  · rfl

theorem slice_length (buf : List Nat) (off n : Nat) (h : off + n ≤ buf.length) :
    (slice buf off n).length = n := by
  unfold slice
  rw [List.length_take, List.length_drop]
  omega

theorem slice_congr (a b : List Nat) (off n : Nat)
    (h : ∀ k, off ≤ k → k < off + n → a[k]? = b[k]?) : slice a off n = slice b off n := by
  apply List.ext_getElem?
  intro k
  rw [getElem?_slice, getElem?_slice]
  split
  · exact h _ (by omega) (by omega)
  · rfl

theorem slice_write_same (dst : List Nat) (off : Nat) (bs : List Nat)
    (h : off + bs.length ≤ dst.length) : slice (write dst off bs) off bs.length = bs := by
  apply List.ext_getElem?
  intro k
  rw [getElem?_slice]
  split
  · rw [getElem?_write, if_pos (by omega)]
    congr 1
    omega
  · rw [List.getElem?_eq_none (by omega)]

theorem slice_write_outside (dst : List Nat) (off : Nat) (bs : List Nat) (a n : Nat)
    (h : n = 0 ∨ bs.length = 0 ∨ a + n ≤ off ∨ off + bs.length ≤ a) :
    slice (write dst off bs) a n = slice dst a n := by
  apply slice_congr
  intro k h1 h2
  exact getElem?_write_outside _ _ _ _ (by omega)

theorem slice_memcpy (dst : List Nat) (doff : Nat) (src : List Nat) (soff n : Nat)
    (hd : doff + n ≤ dst.length) (hs : soff + n ≤ src.length) :
    slice (memcpy dst doff src soff n) doff n = slice src soff n := by
  have hl := slice_length src soff n hs
  have := slice_write_same dst doff (slice src soff n) (by omega)
  rw [hl] at this
  exact this

theorem getElem?_memcpy_outside (dst : List Nat) (doff : Nat) (src : List Nat) (soff n k : Nat)
    (hs : soff + n ≤ src.length) (h : k < doff ∨ doff + n ≤ k) :
    (memcpy dst doff src soff n)[k]? = dst[k]? := by
  have hl := slice_length src soff n hs
  exact getElem?_write_outside dst doff (slice src soff n) k (by omega)

theorem getElem?_memcpy_zero (dst : List Nat) (doff : Nat) (src : List Nat) (soff k : Nat) :
    (memcpy dst doff src soff 0)[k]? = dst[k]? := by
  unfold memcpy
  rw [List.take_zero]
  exact getElem?_write_outside dst doff [] k (by simp; omega)

theorem slice_memset_outside (dst : List Nat) (off v m a n : Nat)
    (h : n = 0 ∨ m = 0 ∨ a + n ≤ off ∨ off + m ≤ a) :
    slice (memset dst off v m) a n = slice dst a n := by
  unfold memset
  exact slice_write_outside dst off _ a n (by rw [List.length_replicate]; exact h)

/-! ## Reserved space below a slot -/

theorem reserved_before_zero (cml : Nat) (qs : List Q) : reserved_before cml qs 0 = 0 := by
  simp [reserved_before]

theorem reserved_before_nil (cml j : Nat) : reserved_before cml [] j = 0 := by
  simp [reserved_before]

theorem reserved_before_cons (cml : Nat) (q : Q) (qs : List Q) (j : Nat) :
    reserved_before cml (q :: qs) (j + 1)
      = (if q.is_valid = true then MAX cml q.length else 0) + reserved_before cml qs j := by
  unfold reserved_before
  rw [List.take_succ_cons]
  by_cases hv : q.is_valid = true
  · simp [List.filter_cons, hv]
  · simp [List.filter_cons, hv]

theorem reserved_before_mono (cml : Nat) (qs : List Q) (j : Nat) :
    reserved_before cml qs j ≤ reserved_before cml qs (j + 1) := by
  induction qs generalizing j with
  | nil => simp [reserved_before_nil]
  | cons q qs ih =>
    cases j with
    | zero => rw [reserved_before_zero]; omega
    | succ k =>
      rw [reserved_before_cons, reserved_before_cons]
      have := ih k
      omega

theorem reserved_before_le (cml : Nat) (qs : List Q) (j : Nat) :
    reserved_before cml qs j ≤ reserved_before cml qs qs.length := by
  induction qs generalizing j with
  | nil => simp [reserved_before_nil]
  | cons q qs ih =>
    cases j with
    | zero => rw [reserved_before_zero]; omega
    | succ k =>
      rw [List.length_cons, reserved_before_cons, reserved_before_cons]
      have := ih k
      omega

/-- Below slot `j`, a valid descriptor's reservation ends where the next slot's begins. -/
theorem reserved_before_succ (cml : Nat) (qs : List Q) (j : Nat)
    (hv : (qs.getD j ⟨BAD_QUEUE, BAD_QUEUE⟩).is_valid = true) :
    reserved_before cml qs (j + 1)
      = reserved_before cml qs j + MAX cml (qs.getD j ⟨BAD_QUEUE, BAD_QUEUE⟩).length := by
  induction qs generalizing j with
  | nil => simp [Q.is_valid, Q.length_is_valid] at hv
  | cons q qs ih =>
    cases j with
    | zero =>
      simp only [List.getD_cons_zero] at hv ⊢
      rw [reserved_before_cons, reserved_before_zero, reserved_before_zero, if_pos hv]
      omega
    | succ k =>
      simp only [List.getD_cons_succ] at hv ⊢
      rw [reserved_before_cons, reserved_before_cons, ih k hv]
      omega

theorem MAX_ge_right (a b : Nat) : b ≤ MAX a b := by
  unfold MAX
  split <;> omega

theorem MAX_ge_left (a b : Nat) : a ≤ MAX a b := by
  unfold MAX
  split <;> omega

theorem data_size_of_le {q : Q} (h : q.length ≤ max_queued_byte_count) :
    q.get_queued_bytes_data_size = q.length := by
  unfold Q.get_queued_bytes_data_size sizeof_queued_byte u16
  rw [max_queued_byte_count_eq] at h
  omega

/-! ## The first loop of the compaction pass, slot by slot -/

/-- One iteration of the first loop on a valid descriptor, when the loop ends normally. -/
theorem copy_out_valid_step {cml : Nat} {q : Q} {qs : List Q} {slot cumul : Nat}
    {offs temp pool o t p : List Nat}
    (hv : q.is_valid = true) (hlen : q.length ≤ max_queued_byte_count)
    (hcml : cml ≤ max_queued_byte_count)
    (h : copy_out cml (q :: qs) slot cumul offs temp pool = .done o t p) :
    cumul < max_queued_byte_count
    ∧ (q.length = 0 ∨ q.start_offset + q.length ≤ max_queued_byte_count)
    ∧ cumul + MAX cml q.length ≤ max_queued_byte_count
    ∧ copy_out cml qs (slot + 1) (cumul + MAX cml q.length) (offs.set slot cumul)
        (memcpy temp cumul pool q.start_offset q.length)
        (memset pool q.start_offset BAD_VALUE q.length) = .done o t p := by
  simp only [copy_out, hv, if_true, data_size_of_le hlen] at h
  split at h
  · simp at h
  · rename_i hcum
    split at h
    · simp at h
    · rename_i hacc
      replace hacc : accessible tempCopy_size cumul q.length = true
          ∧ accessible max_queued_byte_count q.start_offset q.length = true := by
        simpa using hacc
      have hM : MAX cml q.length ≤ max_queued_byte_count := by
        unfold MAX
        split <;> omega
      have hu : u16 (cumul + MAX cml q.length) = cumul + MAX cml q.length := by
        apply u16_of_lt
        rw [max_queued_byte_count_eq] at hM hcum
        omega
      rw [hu] at h
      split at h
      · simp at h
      · rename_i hsum
        refine ⟨by omega, ?_, by omega, h⟩
        have := hacc.2
        simp only [accessible, Bool.or_eq_true, beq_iff_eq, decide_eq_true_eq] at this
        exact this

/-- One iteration of the first loop on a valid descriptor whose checks pass. -/
theorem copy_out_valid_run {cml : Nat} {q : Q} {qs : List Q} {slot cumul : Nat}
    {offs temp pool : List Nat}
    (hv : q.is_valid = true) (hlen : q.length ≤ max_queued_byte_count)
    (hcum : cumul < max_queued_byte_count)
    (hacc : q.length = 0 ∨ q.start_offset + q.length ≤ max_queued_byte_count)
    (hsum : cumul + MAX cml q.length ≤ max_queued_byte_count) :
    copy_out cml (q :: qs) slot cumul offs temp pool
      = copy_out cml qs (slot + 1) (cumul + MAX cml q.length) (offs.set slot cumul)
        (memcpy temp cumul pool q.start_offset q.length)
        (memset pool q.start_offset BAD_VALUE q.length) := by
  have hu : u16 (cumul + MAX cml q.length) = cumul + MAX cml q.length := by
    apply u16_of_lt
    rw [max_queued_byte_count_eq] at hsum
    omega
  have h1 : accessible tempCopy_size cumul q.length = true := by
    simp only [accessible, Bool.or_eq_true, beq_iff_eq, decide_eq_true_eq, tempCopy_size]
    rw [max_queued_byte_count_eq] at hlen hcum
    omega
  have h2 : accessible max_queued_byte_count q.start_offset q.length = true := by
    simp only [accessible, Bool.or_eq_true, beq_iff_eq, decide_eq_true_eq]
    exact hacc
  simp only [copy_out, hv, if_true, data_size_of_le hlen, hu, h1, h2, Bool.and_self,
    Bool.not_true, Bool.false_eq_true, if_false, not_lt, not_le]
  rw [if_neg (by omega), if_neg (by omega)]

theorem copy_out_invalid_step {cml : Nat} {q : Q} {qs : List Q} {slot cumul : Nat}
    {offs temp pool : List Nat} (hv : ¬ q.is_valid = true) :
    copy_out cml (q :: qs) slot cumul offs temp pool
      = copy_out cml qs (slot + 1) cumul offs temp pool := by
  simp [copy_out, hv]

/-- What the first loop leaves when it ends normally: the offset recorded for
each valid slot is the exact sum of the reservations below it, the total stays
inside the pool, every non-empty valid queue lay inside the pool, and the part
of `tempCopy` below the running offset is untouched. -/
theorem copy_out_spec (cml : Nat) (hcml : cml ≤ max_queued_byte_count) (qs : List Q)
    (slot cumul : Nat) (offs temp pool o t p : List Nat)
    (hlen : ∀ q ∈ qs, q.is_valid = true → q.length ≤ max_queued_byte_count)
    (hp : pool.length = max_queued_byte_count)
    (hc : cumul ≤ max_queued_byte_count) (hso : slot + qs.length ≤ offs.length)
    (h : copy_out cml qs slot cumul offs temp pool = .done o t p) :
    cumul + reserved_before cml qs qs.length ≤ max_queued_byte_count
    ∧ (∀ j, j < qs.length → (qs.getD j ⟨BAD_QUEUE, BAD_QUEUE⟩).is_valid = true →
        o.getD (slot + j) 0 = cumul + reserved_before cml qs j
        ∧ ((qs.getD j ⟨BAD_QUEUE, BAD_QUEUE⟩).length = 0
          ∨ (qs.getD j ⟨BAD_QUEUE, BAD_QUEUE⟩).start_offset
              + (qs.getD j ⟨BAD_QUEUE, BAD_QUEUE⟩).length ≤ max_queued_byte_count))
    ∧ (∀ k, k < cumul → t[k]? = temp[k]?) := by
  induction qs generalizing slot cumul offs temp pool with
  | nil =>
    simp only [copy_out, CopyOut.done.injEq] at h
    obtain ⟨rfl, rfl, rfl⟩ := h
    simp [reserved_before_nil, hc]
  | cons q qs ih =>
    have hlen1 : ∀ q1 ∈ qs, q1.is_valid = true → q1.length ≤ max_queued_byte_count :=
      fun q1 hq1 => hlen q1 (List.mem_cons_of_mem _ hq1)
    by_cases hv : q.is_valid = true
    · have hq := hlen q (List.mem_cons_self _ _) hv
      obtain ⟨h1, h2, h3, h4⟩ := copy_out_valid_step hv hq hcml h
      have hp1 : (memset pool q.start_offset BAD_VALUE q.length).length
          = max_queued_byte_count := by
        rw [memset, write_length, hp]
      obtain ⟨i1, i2, i3⟩ := ih _ _ _ _ _ hlen1 hp1 h3
        (by rw [List.length_set]; simp only [List.length_cons] at hso; omega) h4
      have hoff := (copy_out_offsets cml qs (slot + 1) _ _ _ _ _ _ _ h4).1 slot (by omega)
      refine ⟨?_, fun j hj hjv => ?_, fun k hk => ?_⟩
      · rw [List.length_cons, reserved_before_cons, if_pos hv]
        omega
      · cases j with
        | zero =>
          simp only [List.getD_cons_zero, Nat.add_zero, reserved_before_zero]
          refine ⟨?_, h2⟩
          rw [hoff]
          have hs : slot < offs.length := by
            simp only [List.length_cons] at hso
            omega
          simp [List.getD_eq_getElem?_getD, List.getElem?_set, hs]
        | succ j1 =>
          simp only [List.getD_cons_succ] at hjv ⊢
          have := i2 j1 (by simpa using hj) hjv
          rw [reserved_before_cons, if_pos hv, show slot + (j1 + 1) = slot + 1 + j1 by omega]
          refine ⟨by rw [this.1]; omega, this.2⟩
      · rw [i3 k (by omega)]
        by_cases h0 : q.length = 0
        · rw [h0]
          exact getElem?_memcpy_zero _ _ _ _ _
        · exact getElem?_memcpy_outside _ _ _ _ _ _ (by omega) (Or.inl hk)
    · rw [copy_out_invalid_step hv] at h
      obtain ⟨i1, i2, i3⟩ := ih _ _ _ _ _ hlen1 hp hc
        (by simp only [List.length_cons] at hso; omega) h
      refine ⟨?_, fun j hj hjv => ?_, i3⟩
      · rw [List.length_cons, reserved_before_cons, if_neg hv]
        omega
      · cases j with
        | zero => exact absurd (by simpa using hjv) hv
        | succ j1 =>
          simp only [List.getD_cons_succ] at hjv ⊢
          have := i2 j1 (by simpa using hj) hjv
          rw [reserved_before_cons, if_neg hv, show slot + (j1 + 1) = slot + 1 + j1 by omega]
          refine ⟨by rw [this.1]; omega, this.2⟩

theorem slice_zero (buf : List Nat) (off : Nat) : slice buf off 0 = [] := by
  simp [slice]

theorem getD_mem_of_lt (qs : List Q) (j : Nat) (d : Q) (h : j < qs.length) :
    qs.getD j d ∈ qs := by
  rw [List.getD_eq_getElem _ _ h]
  exact List.getElem_mem _

/-- The first loop copies the bytes of every valid queue to its new offset in
`tempCopy`, provided the queues designate disjoint ranges of the pool. -/
theorem copy_out_content (cml : Nat) (hcml : cml ≤ max_queued_byte_count) (qs : List Q)
    (slot cumul : Nat) (offs temp pool o t p : List Nat)
    (hlen : ∀ q ∈ qs, q.is_valid = true → q.length ≤ max_queued_byte_count)
    (hp : pool.length = max_queued_byte_count) (ht : temp.length = tempCopy_size)
    (hc : cumul ≤ max_queued_byte_count) (hso : slot + qs.length ≤ offs.length)
    (hdis : qs.Pairwise Q.disjoint)
    (h : copy_out cml qs slot cumul offs temp pool = .done o t p) :
    ∀ j, j < qs.length → (qs.getD j ⟨BAD_QUEUE, BAD_QUEUE⟩).is_valid = true →
      slice t (cumul + reserved_before cml qs j) (qs.getD j ⟨BAD_QUEUE, BAD_QUEUE⟩).length
        = (qs.getD j ⟨BAD_QUEUE, BAD_QUEUE⟩).bytes pool := by
  induction qs generalizing slot cumul offs temp pool with
  | nil => intro j hj; simp at hj
  | cons q qs ih =>
    have hlen1 : ∀ q1 ∈ qs, q1.is_valid = true → q1.length ≤ max_queued_byte_count :=
      fun q1 hq1 => hlen q1 (List.mem_cons_of_mem _ hq1)
    rw [List.pairwise_cons] at hdis
    have hso1 : slot + 1 + qs.length ≤ offs.length := by
      simp only [List.length_cons] at hso
      omega
    by_cases hv : q.is_valid = true
    · have hq := hlen q (List.mem_cons_self _ _) hv
      obtain ⟨h1, h2, h3, h4⟩ := copy_out_valid_step hv hq hcml h
      have hp1 : (memset pool q.start_offset BAD_VALUE q.length).length
          = max_queued_byte_count := by
        rw [memset, write_length, hp]
      have ht1 : (memcpy temp cumul pool q.start_offset q.length).length = tempCopy_size := by
        rw [memcpy, write_length, ht]
      have hso2 : slot + 1 + qs.length ≤ (offs.set slot cumul).length := by
        rw [List.length_set]; exact hso1
      have hframe := (copy_out_spec cml hcml qs _ _ _ _ _ _ _ _ hlen1 hp1 h3 hso2 h4).2.2
      have hih := ih _ _ _ _ _ hlen1 hp1 ht1 h3 hso2 hdis.2 h4
      intro j hj hjv
      cases j with
      | zero =>
        simp only [List.getD_cons_zero, reserved_before_zero, Nat.add_zero, Q.bytes]
        by_cases h0 : q.length = 0
        · rw [h0, slice_zero, slice_zero]
        · have hin : q.start_offset + q.length ≤ max_queued_byte_count := by omega
          have hM := MAX_ge_right cml q.length
          rw [slice_congr t _ cumul q.length (fun k _ hk2 => hframe k (by omega))]
          apply slice_memcpy
          · rw [ht]
            simp only [tempCopy_size]
            rw [max_queued_byte_count_eq] at h3
            omega
          · rw [hp]; exact hin
      | succ j1 =>
        simp only [List.getD_cons_succ] at hjv ⊢
        have hj1 : j1 < qs.length := by simpa using hj
        have := hih j1 hj1 hjv
        rw [reserved_before_cons, if_pos hv,
          show cumul + (MAX cml q.length + reserved_before cml qs j1)
            = cumul + MAX cml q.length + reserved_before cml qs j1 by omega, this]
        simp only [Q.bytes]
        apply slice_memset_outside
        have hd := hdis.1 _ (getD_mem_of_lt qs j1 ⟨BAD_QUEUE, BAD_QUEUE⟩ hj1) hv hjv
        by_cases ha : (qs.getD j1 ⟨BAD_QUEUE, BAD_QUEUE⟩).length = 0
        · exact Or.inl ha
        · by_cases hb : q.length = 0
          · exact Or.inr (Or.inl hb)
          · have := hd (by omega) (by omega)
            omega
    · rw [copy_out_invalid_step hv] at h
      have hih := ih _ _ _ _ _ hlen1 hp ht hc hso1 hdis.2 h
      intro j hj hjv
      cases j with
      | zero => exact absurd (by simpa using hjv) hv
      | succ j1 =>
        simp only [List.getD_cons_succ] at hjv ⊢
        have := hih j1 (by simpa using hj) hjv
        rw [reserved_before_cons, if_neg hv, Nat.zero_add]
        exact this

/-- The first loop ends normally when every non-empty valid queue lies inside
the pool and the reservations fit. -/
theorem copy_out_runs (cml : Nat) (hcml1 : 1 ≤ cml) (qs : List Q)
    (slot cumul : Nat) (offs temp pool : List Nat)
    (hlen : ∀ q ∈ qs, q.is_valid = true → q.length ≤ max_queued_byte_count)
    (hacc : ∀ q ∈ qs, q.is_valid = true →
      q.length = 0 ∨ q.start_offset + q.length ≤ max_queued_byte_count)
    (htot : cumul + reserved_before cml qs qs.length ≤ max_queued_byte_count) :
    ∃ o t p, copy_out cml qs slot cumul offs temp pool = .done o t p := by
  induction qs generalizing slot cumul offs temp pool with
  | nil => exact ⟨_, _, _, rfl⟩
  | cons q qs ih =>
    have hlen1 : ∀ q1 ∈ qs, q1.is_valid = true → q1.length ≤ max_queued_byte_count :=
      fun q1 hq1 => hlen q1 (List.mem_cons_of_mem _ hq1)
    have hacc1 : ∀ q1 ∈ qs, q1.is_valid = true →
        q1.length = 0 ∨ q1.start_offset + q1.length ≤ max_queued_byte_count :=
      fun q1 hq1 => hacc q1 (List.mem_cons_of_mem _ hq1)
    rw [List.length_cons, reserved_before_cons] at htot
    by_cases hv : q.is_valid = true
    · rw [if_pos hv] at htot
      have hM := MAX_ge_left cml q.length
      rw [copy_out_valid_run hv (hlen q (List.mem_cons_self _ _) hv) (by omega)
        (hacc q (List.mem_cons_self _ _) hv) (by omega)]
      exact ih _ _ _ _ _ hlen1 hacc1 (by omega)
    · rw [if_neg hv] at htot
      rw [copy_out_invalid_step hv]
      exact ih _ _ _ _ _ hlen1 hacc1 (by omega)

/-! ## The second loop of the compaction pass, slot by slot -/

/-- On offsets that are the exact sums of the reservations, the second loop
ends normally: every valid descriptor gets its offset, the others are kept,
and the bytes at each new offset are those of `tempCopy`. -/
theorem copy_back_spec (cml : Nat) (offs temp : List Nat) (qs : List Q) (slot cumul : Nat)
    (pool : List Nat)
    (hlen : ∀ q ∈ qs, q.is_valid = true → q.length ≤ max_queued_byte_count)
    (ht : temp.length = tempCopy_size) (hp : pool.length = max_queued_byte_count)
    (hoffs : ∀ j, j < qs.length → (qs.getD j ⟨BAD_QUEUE, BAD_QUEUE⟩).is_valid = true →
      offs.getD (slot + j) 0 = cumul + reserved_before cml qs j)
    (htot : cumul + reserved_before cml qs qs.length ≤ max_queued_byte_count) :
    ∃ qs1 pool1, copy_back offs temp qs slot pool = .done qs1 pool1
      ∧ qs1.length = qs.length ∧ pool1.length = max_queued_byte_count
      ∧ (∀ j, qs1.getD j ⟨BAD_QUEUE, BAD_QUEUE⟩
          = if (qs.getD j ⟨BAD_QUEUE, BAD_QUEUE⟩).is_valid = true then
              ⟨cumul + reserved_before cml qs j, (qs.getD j ⟨BAD_QUEUE, BAD_QUEUE⟩).length⟩
            else qs.getD j ⟨BAD_QUEUE, BAD_QUEUE⟩)
      ∧ (∀ k, k < cumul → pool1[k]? = pool[k]?)
      ∧ (∀ j, j < qs.length → (qs.getD j ⟨BAD_QUEUE, BAD_QUEUE⟩).is_valid = true →
          slice pool1 (cumul + reserved_before cml qs j)
              (qs.getD j ⟨BAD_QUEUE, BAD_QUEUE⟩).length
            = slice temp (cumul + reserved_before cml qs j)
              (qs.getD j ⟨BAD_QUEUE, BAD_QUEUE⟩).length) := by
  induction qs generalizing slot cumul pool with
  | nil =>
    refine ⟨[], pool, rfl, rfl, hp, fun j => ?_, fun k _ => rfl, fun j hj => ?_⟩
    · simp [Q.is_valid, Q.length_is_valid]
    · simp at hj
  | cons q qs ih =>
    have hlen1 : ∀ q1 ∈ qs, q1.is_valid = true → q1.length ≤ max_queued_byte_count :=
      fun q1 hq1 => hlen q1 (List.mem_cons_of_mem _ hq1)
    rw [List.length_cons, reserved_before_cons] at htot
    by_cases hv : q.is_valid = true
    · rw [if_pos hv] at htot
      have hq := hlen q (List.mem_cons_self _ _) hv
      have hM := MAX_ge_right cml q.length
      have h0 := hoffs 0 (by simp) (by simpa using hv)
      simp only [Nat.add_zero, reserved_before_zero] at h0
      have htail : ∀ j, j < qs.length → (qs.getD j ⟨BAD_QUEUE, BAD_QUEUE⟩).is_valid = true →
          offs.getD (slot + 1 + j) 0 = cumul + MAX cml q.length + reserved_before cml qs j := by
        intro j hj hjv
        have := hoffs (j + 1) (by simpa using hj) (by simpa using hjv)
        rw [reserved_before_cons, if_pos hv] at this
        rw [show slot + 1 + j = slot + (j + 1) by omega, this]
        omega
      have hp1 : (memcpy pool cumul temp cumul q.length).length = max_queued_byte_count := by
        rw [memcpy, write_length, hp]
      obtain ⟨qs1, pool1, e1, e2, e3, e4, e5, e6⟩ :=
        ih (slot + 1) (cumul + MAX cml q.length) (memcpy pool cumul temp cumul q.length)
          hlen1 hp1 htail (by omega)
      have hds : Q.get_queued_bytes_data_size ⟨cumul, q.length⟩ = q.length :=
        data_size_of_le (q := ⟨cumul, q.length⟩) hq
      have hne : cumul ≠ BAD_QUEUE := by
        rw [max_queued_byte_count_eq] at htot
        simp only [BAD_QUEUE]
        omega
      have ha1 : accessible max_queued_byte_count cumul q.length = true := by
        simp only [accessible, Bool.or_eq_true, beq_iff_eq, decide_eq_true_eq]
        omega
      have ha2 : accessible tempCopy_size cumul q.length = true := by
        simp only [accessible, Bool.or_eq_true, beq_iff_eq, decide_eq_true_eq, tempCopy_size]
        rw [max_queued_byte_count_eq] at htot
        omega
      have e : copy_back offs temp (q :: qs) slot pool
          = .done (⟨cumul, q.length⟩ :: qs1) pool1 := by
        simp only [copy_back, hv, if_true, h0, hne, if_false, hds, ha1, ha2, Bool.and_self,
          Bool.not_true, Bool.false_eq_true, e1, CopyBack.cons]
      refine ⟨_, _, e, by simp [e2], e3, fun j => ?_, fun k hk => ?_, fun j hj hjv => ?_⟩
      · cases j with
        | zero => simp [hv, reserved_before_zero]
        | succ j1 =>
          simp only [List.getD_cons_succ, e4 j1, reserved_before_cons, if_pos hv]
          split
          · congr 1; omega
          · rfl
      · rw [e5 k (by omega)]
        by_cases hz : q.length = 0
        · rw [hz]; exact getElem?_memcpy_zero _ _ _ _ _
        · exact getElem?_memcpy_outside _ _ _ _ _ _
            (by rw [ht]; simp only [tempCopy_size]; rw [max_queued_byte_count_eq] at htot; omega)
            (Or.inl hk)
      · cases j with
        | zero =>
          simp only [List.getD_cons_zero, reserved_before_zero, Nat.add_zero]
          rw [slice_congr pool1 _ cumul q.length (fun k _ hk2 => e5 k (by omega))]
          apply slice_memcpy
          · rw [hp]; omega
          · rw [ht]; simp only [tempCopy_size]; rw [max_queued_byte_count_eq] at htot; omega
        | succ j1 =>
          simp only [List.getD_cons_succ] at hjv ⊢
          have := e6 j1 (by simpa using hj) hjv
          rw [reserved_before_cons, if_pos hv,
            show cumul + (MAX cml q.length + reserved_before cml qs j1)
              = cumul + MAX cml q.length + reserved_before cml qs j1 by omega]
          exact this
    · rw [if_neg hv, Nat.zero_add] at htot
      have htail : ∀ j, j < qs.length → (qs.getD j ⟨BAD_QUEUE, BAD_QUEUE⟩).is_valid = true →
          offs.getD (slot + 1 + j) 0 = cumul + reserved_before cml qs j := by
        intro j hj hjv
        have := hoffs (j + 1) (by simpa using hj) (by simpa using hjv)
        rw [reserved_before_cons, if_neg hv] at this
        rw [show slot + 1 + j = slot + (j + 1) by omega, this]
        omega
      obtain ⟨qs1, pool1, e1, e2, e3, e4, e5, e6⟩ :=
        ih (slot + 1) cumul pool hlen1 hp htail htot
      have e : copy_back offs temp (q :: qs) slot pool = .done (q :: qs1) pool1 := by
        simp [copy_back, hv, e1, CopyBack.cons]
      refine ⟨_, _, e, by simp [e2], e3, fun j => ?_, e5, fun j hj hjv => ?_⟩
      · cases j with
        | zero => simp [hv]
        | succ j1 =>
          simp only [List.getD_cons_succ, e4 j1, reserved_before_cons, if_neg hv, Nat.zero_add]
      · cases j with
        | zero => exact absurd (by simpa using hjv) hv
        | succ j1 =>
          simp only [List.getD_cons_succ] at hjv ⊢
          have := e6 j1 (by simpa using hj) hjv
          rw [reserved_before_cons, if_neg hv, Nat.zero_add]
          exact this

/-! ## The compaction pass as a whole -/

theorem compaction_pass_quota {s s1 : Arena} (h : (compaction_pass s).arena = some s1) :
    s1.current_max_length = s.current_max_length ∧ s1.last_Q_count = s.last_Q_count := by
  unfold compaction_pass at h
  dsimp only at h
  cases hco : copy_out s.current_max_length s.queues 0 0 (BAD_QUEUE :: List.replicate 63 0)
      (List.replicate tempCopy_size BAD_VALUE) s.queued_bytes with
  | undefined => rw [hco] at h; simp [Outcome.arena] at h
  | failed pool =>
    simp only [hco, Outcome.arena, Option.some.injEq] at h
    subst h
    exact ⟨rfl, rfl⟩
  | done o t p =>
    simp only [hco] at h
    cases hcb : copy_back o t s.queues 0 p with
    | undefined => simp [hcb, Outcome.arena] at h
    | failed qs pool =>
      simp only [hcb, Outcome.arena, Option.some.injEq] at h
      subst h
      exact ⟨rfl, rfl⟩
    | done qs pool =>
      simp only [hcb, Outcome.arena, Option.some.injEq] at h
      subst h
      exact ⟨rfl, rfl⟩

/-- What a compaction pass that ran to completion did. The new offset of each
valid descriptor is the exact sum of the reservations below its slot; the
other descriptors, the quota and the counters are kept; and when the queues
designated disjoint ranges, each one has its bytes at its new offset. -/
theorem compaction_pass_spec {s s1 : Arena}
    (hq : s.queues.length = max_count) (hp : s.queued_bytes.length = max_queued_byte_count)
    (hcml : s.current_max_length ≤ max_queued_byte_count)
    (hlen : ∀ q ∈ s.queues, q.is_valid = true → q.length ≤ max_queued_byte_count)
    (h : compaction_pass s = .ok () s1) :
    s1.queues.length = max_count ∧ s1.queued_bytes.length = max_queued_byte_count
    ∧ s1.once = s.once ∧ s1.Q_current_count = s.Q_current_count
    ∧ s1.qb_current_count = s.qb_current_count
    ∧ s1.current_max_length = s.current_max_length ∧ s1.last_Q_count = s.last_Q_count
    ∧ reserved_before s.current_max_length s.queues s.queues.length ≤ max_queued_byte_count
    ∧ (∀ j, s1.queues.getD j ⟨BAD_QUEUE, BAD_QUEUE⟩
        = if (s.queues.getD j ⟨BAD_QUEUE, BAD_QUEUE⟩).is_valid = true then
            ⟨reserved_before s.current_max_length s.queues j,
              (s.queues.getD j ⟨BAD_QUEUE, BAD_QUEUE⟩).length⟩
          else s.queues.getD j ⟨BAD_QUEUE, BAD_QUEUE⟩)
    ∧ (∀ j, (s.queues.getD j ⟨BAD_QUEUE, BAD_QUEUE⟩).is_valid = true →
        (s.queues.getD j ⟨BAD_QUEUE, BAD_QUEUE⟩).length = 0
        ∨ (s.queues.getD j ⟨BAD_QUEUE, BAD_QUEUE⟩).start_offset
            + (s.queues.getD j ⟨BAD_QUEUE, BAD_QUEUE⟩).length ≤ max_queued_byte_count)
    ∧ (s.queues.Pairwise Q.disjoint →
        ∀ j, (s.queues.getD j ⟨BAD_QUEUE, BAD_QUEUE⟩).is_valid = true →
          slice s1.queued_bytes (reserved_before s.current_max_length s.queues j)
              (s.queues.getD j ⟨BAD_QUEUE, BAD_QUEUE⟩).length
            = (s.queues.getD j ⟨BAD_QUEUE, BAD_QUEUE⟩).bytes s.queued_bytes) := by
  have hjlt : ∀ j, (s.queues.getD j ⟨BAD_QUEUE, BAD_QUEUE⟩).is_valid = true →
      j < s.queues.length := by
    intro j hv
    by_contra hlt
    rw [List.getD_eq_default _ _ (by omega)] at hv
    simp [Q.is_valid, Q.length_is_valid] at hv
  unfold compaction_pass at h
  dsimp only at h
  have ht : (List.replicate tempCopy_size BAD_VALUE).length = tempCopy_size :=
    List.length_replicate _ _
  have hso : 0 + s.queues.length ≤ (BAD_QUEUE :: List.replicate 63 0).length := by
    rw [hq, List.length_cons, List.length_replicate]
    simp [max_count]
  cases hco : copy_out s.current_max_length s.queues 0 0 (BAD_QUEUE :: List.replicate 63 0)
      (List.replicate tempCopy_size BAD_VALUE) s.queued_bytes with
  | undefined => rw [hco] at h; cases h
  | failed pool => rw [hco] at h; cases h
  | done o t p =>
    simp only [hco] at h
    obtain ⟨a1, a2, -⟩ := copy_out_spec s.current_max_length hcml s.queues 0 0 _ _ _ _ _ _
      hlen hp (Nat.zero_le _) hso hco
    have hsz := copy_out_sized s.current_max_length s.queues 0 0
      (BAD_QUEUE :: List.replicate 63 0) _ _ ht hp
    rw [hco] at hsz
    obtain ⟨qs1, pool1, e1, e2, e3, e4, -, e6⟩ :=
      copy_back_spec s.current_max_length o t s.queues 0 0 p hlen hsz.1 hsz.2
        (fun j hj hjv => (a2 j hj hjv).1) a1
    simp only [e1, Outcome.ok.injEq, true_and] at h
    subst h
    simp only [Nat.zero_add] at a1 a2 e4 e6
    refine ⟨by rw [e2, hq], e3, rfl, rfl, rfl, rfl, rfl, a1, e4,
      fun j hjv => (a2 j (hjlt j hjv) hjv).2, fun hdis j hjv => ?_⟩
    have hc := copy_out_content s.current_max_length hcml s.queues 0 0 _ _ _ _ _ _
      hlen hp ht (Nat.zero_le _) hso hdis hco j (hjlt j hjv) hjv
    simp only [Nat.zero_add] at hc
    show slice pool1 _ _ = _
    rw [e6 j (hjlt j hjv) hjv, hc]

/-- The compaction pass runs to completion when the new quota is positive,
every non-empty valid queue lies inside the pool and the reservations fit. -/
theorem compaction_pass_runs (s : Arena)
    (hq : s.queues.length = max_count) (hp : s.queued_bytes.length = max_queued_byte_count)
    (hcml1 : 1 ≤ s.current_max_length) (hcml : s.current_max_length ≤ max_queued_byte_count)
    (hlen : ∀ q ∈ s.queues, q.is_valid = true → q.length ≤ max_queued_byte_count)
    (hacc : ∀ q ∈ s.queues, q.is_valid = true →
      q.length = 0 ∨ q.start_offset + q.length ≤ max_queued_byte_count)
    (htot : reserved_before s.current_max_length s.queues s.queues.length
      ≤ max_queued_byte_count) :
    ∃ s1, compaction_pass s = .ok () s1 := by
  have ht : (List.replicate tempCopy_size BAD_VALUE).length = tempCopy_size :=
    List.length_replicate _ _
  have hso : 0 + s.queues.length ≤ (BAD_QUEUE :: List.replicate 63 0).length := by
    rw [hq, List.length_cons, List.length_replicate]
    simp [max_count]
  obtain ⟨o, t, p, hco⟩ := copy_out_runs s.current_max_length hcml1 s.queues 0 0
    (BAD_QUEUE :: List.replicate 63 0) (List.replicate tempCopy_size BAD_VALUE) s.queued_bytes
    hlen hacc (by omega)
  obtain ⟨a1, a2, -⟩ := copy_out_spec s.current_max_length hcml s.queues 0 0 _ _ _ _ _ _
    hlen hp (Nat.zero_le _) hso hco
  have hsz := copy_out_sized s.current_max_length s.queues 0 0
    (BAD_QUEUE :: List.replicate 63 0) _ _ ht hp
  rw [hco] at hsz
  obtain ⟨qs1, pool1, e1, -⟩ :=
    copy_back_spec s.current_max_length o t s.queues 0 0 p hlen hsz.1 hsz.2
      (fun j hj hjv => (a2 j hj hjv).1) a1
  refine ⟨{ s with queues := qs1, queued_bytes := pool1 }, ?_⟩
  unfold compaction_pass
  simp only [hco, e1]

/-! ## The rebalancing routine, case by case -/

/-- The routine returns at once when there is nothing to do. -/
theorem bound_check_nothing_to_do {s : Arena} {i : Fin 64} (hnd : nothing_to_do s i)
    (h1 : s.qb_current_count + 1 ≤ max_queued_byte_count)
    (h2 : s.qb_current_count = memory_used s) :
    bound_check_and_memory_rearrange s i
      = .ok () { s with last_Q_count := some s.Q_current_count } := by
  have h0 : s.current_max_length ≠ 0 := by
    have := hnd.1
    omega
  unfold nothing_to_do at hnd
  unfold bound_check_and_memory_rearrange
  simp only [h1, eq_true h2, h0, hnd, not_true_eq_false, if_false, if_true, and_self,
    not_false_eq_true]

/-- Otherwise it computes the new quota and enters the compaction pass. -/
theorem bound_check_compacts {s : Arena} {i : Fin 64} {r : Int} (hnd : ¬ nothing_to_do s i)
    (h1 : s.qb_current_count + 1 ≤ max_queued_byte_count)
    (h2 : s.qb_current_count = memory_used s) (h0 : s.current_max_length ≠ 0)
    (hr : resize_opt (memory_used_or_reserved s) s.Q_current_count = some r)
    (ho : optimal_queue_max_length s r * s.Q_current_count ≤ max_queued_byte_count) :
    bound_check_and_memory_rearrange s i
      = compaction_pass { s with
          last_Q_count := some s.Q_current_count
          current_max_length := optimal_queue_max_length s r } := by
  unfold nothing_to_do at hnd
  unfold optimal_queue_max_length at ho
  unfold bound_check_and_memory_rearrange
  simp only [h1, eq_true h2, h0, hnd, not_true_eq_false, if_false, hr, ho,
    optimal_queue_max_length]

/-- A return of the routine that was not the immediate one came out of the
compaction pass, entered with the new quota. -/
theorem bound_check_ok_compacted {s s1 : Arena} {i : Fin 64} (hnd : ¬ nothing_to_do s i)
    (h : bound_check_and_memory_rearrange s i = .ok () s1) :
    ∃ r, resize_opt (memory_used_or_reserved s) s.Q_current_count = some r
      ∧ optimal_queue_max_length s r * s.Q_current_count ≤ max_queued_byte_count
      ∧ s.Q_current_count ≠ 0
      ∧ compaction_pass { s with
          last_Q_count := some s.Q_current_count
          current_max_length := optimal_queue_max_length s r } = .ok () s1 := by
  unfold nothing_to_do at hnd
  unfold bound_check_and_memory_rearrange at h
  simp only at h
  split at h
  · simp at h
  · split at h
    · simp at h
    · split at h
      · simp at h
      · cases hr : resize_opt (memory_used_or_reserved s) s.Q_current_count with
        | none => simp [hr] at h
        | some r =>
          simp only [hr] at h
          split at h
          · simp at h
          · rename_i ho
            refine ⟨r, rfl, by simpa [optimal_queue_max_length] using ho, ?_, h⟩
            intro hz
            simp [resize_opt, hz] at hr

/-- Whatever the routine does, the quota it leaves is the old one or one that
fits the pool for the present number of queues. -/
theorem bound_check_quota {s s1 : Arena} {i : Fin 64}
    (h : (bound_check_and_memory_rearrange s i).arena = some s1) :
    s1.current_max_length = s.current_max_length
    ∨ (s1.current_max_length * s.Q_current_count ≤ max_queued_byte_count
        ∧ s.Q_current_count ≠ 0) := by
  unfold bound_check_and_memory_rearrange at h
  simp only at h
  split at h
  · simp only [Outcome.arena, Option.some.injEq] at h; exact Or.inl (by rw [← h])
  · split at h
    · simp only [Outcome.arena, Option.some.injEq] at h; exact Or.inl (by rw [← h])
    · split at h
      · simp [Outcome.arena] at h
      · split at h
        · simp only [Outcome.arena, Option.some.injEq] at h; exact Or.inl (by rw [← h])
        · cases hr : resize_opt (memory_used_or_reserved s) s.Q_current_count with
          | none => simp [hr, Outcome.arena] at h
          | some r =>
            simp only [hr] at h
            have hz : s.Q_current_count ≠ 0 := by
              intro hz
              simp [resize_opt, hz] at hr
            split at h
            · simp only [Outcome.arena, Option.some.injEq] at h; exact Or.inl (by rw [← h])
            · rename_i ho
              have := (compaction_pass_quota h).1
              exact Or.inr ⟨by rw [this]; simpa using ho, hz⟩

/-! ## Slot search of `Q::create` -/

/-- The slot found by `Q::create` is the lowest one whose `start_offset` is `BAD_QUEUE`. -/
theorem Q_create_lowest {s : Arena} {i : Fin 64} (h : Q.create s = some i) :
    ∀ j : Fin 64, j < i → (s.Qat j).start_offset ≠ BAD_QUEUE := by
  unfold Q.create at h
  rw [List.find?_eq_some] at h
  obtain ⟨-, as, bs, heq, hall⟩ := h
  intro j hj
  have hpw := List.pairwise_lt_finRange 64
  rw [heq, List.pairwise_append] at hpw
  have hmem : j ∈ as ++ i :: bs := heq ▸ List.mem_finRange j
  rw [List.mem_append, List.mem_cons] at hmem
  rcases hmem with hm | hm | hm
  · simpa using hall j hm
  · exact absurd hm (Fin.ne_of_lt hj)
  · have := (List.pairwise_cons.mp hpw.2.1).1 j hm
    exact absurd hj (Fin.lt_asymm this)

/-- The search of `Q::create` succeeds as soon as some slot has `start_offset` `BAD_QUEUE`. -/
theorem Q_create_exists {s : Arena} {j : Fin 64} (h : (s.Qat j).start_offset = BAD_QUEUE) :
    ∃ i, Q.create s = some i := by
  cases hc : Q.create s with
  | some i => exact ⟨i, rfl⟩
  | none =>
    unfold Q.create at hc
    rw [List.find?_eq_none] at hc
    have := hc j (List.mem_finRange j)
    simp [h] at this

/-- What a returning `create_queue` did. -/
theorem create_queue_ok {s s1 : Arena} {i : Fin 64} (honce : s.once = true)
    (h : create_queue s = .ok i s1) :
    Q.create s = some i
    ∧ s1 = { s with
        queues := s.queues.set i.val ⟨u16 (i.val * s.current_max_length), 0⟩
        Q_current_count := inc16 s.Q_current_count } := by
  unfold create_queue at h
  simp only [initializeData_of_once honce, in_valid_range_eq] at h
  cases hc : Q.create s with
  | none => simp [hc] at h
  | some k =>
    simp only [hc, Bool.not_true, Bool.false_eq_true, if_false, Outcome.ok.injEq] at h
    obtain ⟨rfl, rfl⟩ := h
    exact ⟨rfl, rfl⟩

/-! ## The second invariant -/

theorem getD_set_same (qs : List Q) (i : Nat) (q d : Q) (h : i < qs.length) :
    (qs.set i q).getD i d = q := by
  simp [List.getD_eq_getElem?_getD, h]

theorem getD_set_cases (qs : List Q) (i j : Nat) (q d : Q) :
    (qs.set i q).getD j d = q ∨ (qs.set i q).getD j d = qs.getD j d := by
  by_cases hji : j = i
  · subst hji
    by_cases hlt : j < qs.length
    · exact Or.inl (getD_set_same qs j q d hlt)
    · rw [List.set_eq_of_length_le (by omega)]
      exact Or.inr rfl
  · exact Or.inr (getD_set_ne qs j i q d hji)

/-- In an arena that satisfies the invariant no valid queue is longer than the pool. -/
theorem lens_le_of_inv {s : Arena} (hinv : s.inv) :
    ∀ q ∈ s.queues, q.is_valid = true → q.length ≤ max_queued_byte_count := by
  intro q hq hv
  obtain ⟨n, hn, rfl⟩ := List.mem_iff_getElem.mp hq
  have := live_length_le_sum s.queues n
  rw [List.getD_eq_getElem _ _ hn, live_length_of_valid hv] at this
  have h1 := hinv.2.1
  have h2 := hinv.2.2
  omega

theorem Qat_le_of_inv {s : Arena} (hinv : s.inv) (i : Fin 64)
    (hv : (s.Qat i).is_valid = true) : (s.Qat i).length ≤ max_queued_byte_count := by
  have := live_length_le_sum s.queues i.val
  have hl : (s.queues.getD i.val ⟨BAD_QUEUE, BAD_QUEUE⟩).live_length = (s.Qat i).length :=
    live_length_of_valid hv
  have h1 := hinv.2.1
  have h2 := hinv.2.2
  omega

/-- A return of the routine with nothing to do only records the queue count. -/
theorem bound_check_ok_noop {s s1 : Arena} {i : Fin 64} (hnd : nothing_to_do s i)
    (h : bound_check_and_memory_rearrange s i = .ok () s1) :
    s1 = { s with last_Q_count := some s.Q_current_count } := by
  unfold nothing_to_do at hnd
  unfold bound_check_and_memory_rearrange at h
  simp only at h
  split at h
  · simp at h
  · split at h
    · simp at h
    · split at h
      · simp at h
      · simp only [hnd, not_true_eq_false, not_false_eq_true, and_self, if_true,
          Outcome.ok.injEq, true_and] at h
        exact h.symm

theorem quota_le_of_mul_le {a n : Nat} (h : a * n ≤ max_queued_byte_count) (hn : n ≠ 0) :
    a ≤ max_queued_byte_count :=
  Nat.le_trans (Nat.le_mul_of_pos_right a (Nat.pos_of_ne_zero hn)) h

/-- What the routine leaves of the table when it returns: the valid
descriptors keep their lengths and get offsets inside the pool, the others
are kept as they are. -/
theorem bound_check_ok_table {s s1 : Arena} {i : Fin 64} (hinv : s.inv)
    (h : bound_check_and_memory_rearrange s i = .ok () s1) :
    ∀ j, s1.queues.getD j ⟨BAD_QUEUE, BAD_QUEUE⟩ = s.queues.getD j ⟨BAD_QUEUE, BAD_QUEUE⟩
      ∨ ((s.queues.getD j ⟨BAD_QUEUE, BAD_QUEUE⟩).is_valid = true
        ∧ (s1.queues.getD j ⟨BAD_QUEUE, BAD_QUEUE⟩).length
            = (s.queues.getD j ⟨BAD_QUEUE, BAD_QUEUE⟩).length
        ∧ (s1.queues.getD j ⟨BAD_QUEUE, BAD_QUEUE⟩).start_offset ≤ max_queued_byte_count) := by
  intro j
  by_cases hnd : nothing_to_do s i
  · rw [bound_check_ok_noop hnd h]
    exact Or.inl rfl
  · obtain ⟨r, -, ho, hz, hc⟩ := bound_check_ok_compacted hnd h
    obtain ⟨-, -, -, -, -, -, -, htot, htab, -⟩ :=
      compaction_pass_spec
        (s := { s with
          last_Q_count := some s.Q_current_count
          current_max_length := optimal_queue_max_length s r })
        hinv.1.2.1 hinv.1.2.2 (quota_le_of_mul_le ho hz) (lens_le_of_inv hinv) hc
    rw [htab j]
    by_cases hv : (s.queues.getD j ⟨BAD_QUEUE, BAD_QUEUE⟩).is_valid = true
    · rw [if_pos hv]
      refine Or.inr ⟨hv, rfl, ?_⟩
      exact Nat.le_trans (reserved_before_le _ _ _) htot
    · rw [if_neg hv]
      exact Or.inl rfl

theorem tidy_fresh : fresh.tidy := by
  refine ⟨by decide, fun j _ => ?_⟩
  have : ∀ q ∈ fresh.queues, q.start_offset = BAD_QUEUE := by
    intro q hq
    simp only [fresh, initializeData, startup, Bool.false_eq_true, if_false] at hq
    rw [List.eq_of_mem_replicate hq]
  by_cases hj : j < fresh.queues.length
  · rw [List.getD_eq_getElem _ _ hj]
    exact this _ (List.getElem_mem _)
  · rw [List.getD_eq_default _ _ (by omega)]

theorem tidy_set {s : Arena} (ht : s.tidy) (i : Nat) (q : Q)
    (hq : q.length = BAD_QUEUE → q.start_offset = BAD_QUEUE) :
    ∀ j : Nat, ((s.queues.set i q).getD j ⟨BAD_QUEUE, BAD_QUEUE⟩).length = BAD_QUEUE →
      ((s.queues.set i q).getD j ⟨BAD_QUEUE, BAD_QUEUE⟩).start_offset = BAD_QUEUE := by
  intro j
  rcases getD_set_cases s.queues i j q ⟨BAD_QUEUE, BAD_QUEUE⟩ with e | e
  · rw [e]; exact hq
  · rw [e]; exact ht.2 j

theorem after_tidy {c : Call} {s s1 : Arena} (hinv : s.inv) (ht : s.tidy)
    (h : c.after s = some s1) : s1.tidy := by
  cases c with
  | create_queue =>
    simp only [Call.after] at h
    cases hr : create_queue s with
    | undefined => simp [hr, Outcome.arena] at h
    | thrown e s2 =>
      simp only [hr, Outcome.arena, Option.some.injEq] at h
      rw [← h, create_queue_thrown hinv.1.1 hr]; exact ht
    | ok i s2 =>
      simp only [hr, Outcome.arena, Option.some.injEq] at h
      subst h
      obtain ⟨-, rfl⟩ := create_queue_ok hinv.1.1 hr
      exact ⟨ht.1, tidy_set ht _ _ (fun h0 => by simp [BAD_QUEUE] at h0)⟩
  | destroy_queue q =>
    simp only [Call.after] at h
    cases hr : destroy_queue s q with
    | undefined => simp [hr, Outcome.arena] at h
    | thrown e s2 =>
      simp only [hr, Outcome.arena, Option.some.injEq] at h
      rw [← h, destroy_queue_thrown hr]; exact ht
    | ok u s2 =>
      simp only [hr, Outcome.arena, Option.some.injEq] at h
      subst h
      cases q with
      | none => simp [destroy_queue, Q.destroy] at hr
      | some i =>
        obtain ⟨-, pool, cnt, -, rfl⟩ := destroy_queue_ok hr
        exact ⟨ht.1, tidy_set ht _ _ (fun _ => rfl)⟩
  | dequeue_byte q =>
    simp only [Call.after] at h
    cases hr : dequeue_byte s q with
    | undefined => simp [hr, Outcome.arena] at h
    | thrown e s2 =>
      simp only [hr, Outcome.arena, Option.some.injEq] at h
      rw [← h, dequeue_byte_thrown hr]; exact ht
    | ok b s2 =>
      simp only [hr, Outcome.arena, Option.some.injEq] at h
      subst h
      cases q with
      | none => simp [dequeue_byte] at hr
      | some i =>
        obtain ⟨hv, -, hl0, -, pool, -, rfl⟩ := dequeue_byte_ok hr
        have hle := Qat_le_of_inv hinv i hv
        rw [max_queued_byte_count_eq] at hle
        refine ⟨ht.1, tidy_set ht _ _ (fun h0 => ?_)⟩
        have hdl : dec16 (s.Qat i).length = (s.Qat i).length - 1 :=
          dec16_of_pos (by omega) (by omega)
        simp only [hdl, BAD_QUEUE] at h0
        omega
  | enqueue_byte q b =>
    simp only [Call.after] at h
    cases hr : enqueue_byte s q b with
    | undefined => simp [hr, Outcome.arena] at h
    | thrown e s2 =>
      simp only [hr, Outcome.arena, Option.some.injEq] at h
      subst h
      rcases enqueue_byte_thrown hr with rfl | ⟨i, -, hb⟩
      · exact ht
      · have hre := bound_check_rearranges s i hinv.1.2.2
        rw [hb] at hre
        have hquota := @bound_check_quota s s2 i (by rw [hb]; rfl)
        refine ⟨?_, by rw [hre.1]; exact ht.2⟩
        rcases hquota with e | ⟨e1, e2⟩
        · rw [e]; exact ht.1
        · exact quota_le_of_mul_le e1 e2
    | ok u s2 =>
      simp only [hr, Outcome.arena, Option.some.injEq] at h
      subst h
      cases q with
      | none => simp [enqueue_byte] at hr
      | some i =>
        obtain ⟨hv, -, s0, hb, hroom, rfl⟩ := enqueue_byte_ok hr
        have hquota := @bound_check_quota s s0 i (by rw [hb]; rfl)
        have htab := bound_check_ok_table hinv hb
        have ht0 : s0.tidy := by
          refine ⟨?_, fun j hj => ?_⟩
          · rcases hquota with e | ⟨e1, e2⟩
            · rw [e]; exact ht.1
            · exact quota_le_of_mul_le e1 e2
          · rcases htab j with e | ⟨e1, e2, -⟩
            · rw [e] at hj ⊢; exact ht.2 j hj
            · rw [e2] at hj
              rw [is_valid_iff] at e1
              exact absurd hj e1.1
        refine ⟨ht0.1, tidy_set ht0 _ _ (fun h0 => ?_)⟩
        rw [max_queued_byte_count_eq] at hroom
        have hil : inc16 (s0.Qat i).length = (s0.Qat i).length + 1 := inc16_of_lt (by omega)
        simp only [hil, BAD_QUEUE] at h0
        omega

/-- Every reachable arena satisfies the second invariant. -/
theorem reachable_tidy {s : Arena} (h : Reachable s) : s.tidy := by
  induction h with
  | fresh => exact tidy_fresh
  | call c hs hstep ih => exact after_tidy (reachable_inv hs) ih hstep

/-- In a reachable arena a descriptor is valid exactly when its `start_offset`
is not `BAD_QUEUE`. -/
theorem valid_iff_offset {s : Arena} (h : Reachable s) (j : Fin 64) :
    (s.Qat j).is_valid = true ↔ (s.Qat j).start_offset ≠ BAD_QUEUE := by
  rw [is_valid_iff]
  constructor
  · exact fun hv => hv.2
  · exact fun hs => ⟨fun hl => hs ((reachable_tidy h).2 j.val hl), hs⟩

/-! ## Compaction (claims C16, C17) -/

theorem Qat_valid_lt {s : Arena} {j : Nat}
    (hv : (s.queues.getD j ⟨BAD_QUEUE, BAD_QUEUE⟩).is_valid = true) : j < s.queues.length := by
  by_contra hlt
  rw [List.getD_eq_default _ _ (by omega)] at hv
  simp [Q.is_valid, Q.length_is_valid] at hv

theorem pairwise_of_non_overlap {s : Arena} (hq : s.queues.length = max_count)
    (h : non_overlap s) : s.queues.Pairwise Q.disjoint := by
  rw [List.pairwise_iff_getElem]
  intro a b ha hb hab
  have ha64 : a < 64 := by rw [hq] at ha; exact ha
  have hb64 : b < 64 := by rw [hq] at hb; exact hb
  have := h ⟨a, ha64⟩ ⟨b, hb64⟩ (by simp; omega)
  simp only [Arena.Qat, List.getD_eq_getElem _ _ ha, List.getD_eq_getElem _ _ hb] at this
  exact this

theorem resize_opt_range {u c : Nat} {r : Int} (h : resize_opt u c = some r) :
    -32768 ≤ r ∧ r ≤ 32767 := by
  unfold resize_opt at h
  split at h
  · simp at h
  · dsimp only at h
    split at h
    · rename_i hr
      simp only [Option.some.injEq] at h
      rw [← h]
      exact hr
    · simp at h

/-- Claim C16. A rebalance that returns, on an arena of the initialised shape
in which every valid queue lies inside the pool and the non-empty valid queues
are pairwise disjoint, leaves every valid queue valid with its length, and the
bytes the new descriptor designates in the new pool are those the old
descriptor designated in the old pool. When there was something to do the
return comes out of the compaction pass run to completion. -/
theorem compaction_preserves_contents (s : Arena) (i : Fin 64) (s1 : Arena)
    (hwf : s.wf)
    (hin : ∀ j : Fin 64, (s.Qat j).is_valid = true →
      (s.Qat j).start_offset + (s.Qat j).length ≤ max_queued_byte_count)
    (hdis : non_overlap s)
    (h : bound_check_and_memory_rearrange s i = .ok () s1) :
    ∀ j : Fin 64, (s.Qat j).is_valid = true →
      (s1.Qat j).is_valid = true ∧ (s1.Qat j).length = (s.Qat j).length
      ∧ (s1.Qat j).bytes s1.queued_bytes = (s.Qat j).bytes s.queued_bytes := by
  intro j hv
  by_cases hnd : nothing_to_do s i
  · rw [bound_check_ok_noop hnd h]
    exact ⟨hv, rfl, rfl⟩
  · obtain ⟨r, -, ho, hz, hc⟩ := bound_check_ok_compacted hnd h
    have hlen : ∀ q ∈ s.queues, q.is_valid = true → q.length ≤ max_queued_byte_count := by
      intro q hq hqv
      obtain ⟨n, hn, rfl⟩ := List.mem_iff_getElem.mp hq
      have hn64 : n < 64 := by rw [hwf.2.1] at hn; exact hn
      have hg : s.Qat ⟨n, hn64⟩ = s.queues[n] := List.getD_eq_getElem _ _ hn
      have := hin ⟨n, hn64⟩ (by rw [hg]; exact hqv)
      rw [hg] at this
      omega
    obtain ⟨-, -, -, -, -, -, -, htot, htab, -, hbytes⟩ :=
      compaction_pass_spec
        (s := { s with
          last_Q_count := some s.Q_current_count
          current_max_length := optimal_queue_max_length s r })
        hwf.2.1 hwf.2.2 (quota_le_of_mul_le ho hz) hlen hc
    dsimp only at htot htab hbytes
    have hv1 : (s.queues.getD j.val ⟨BAD_QUEUE, BAD_QUEUE⟩).is_valid = true := hv
    have hb := hbytes (pairwise_of_non_overlap hwf.2.1 hdis) j.val hv
    have ht := htab j.val
    rw [if_pos hv1] at ht
    have hle := Nat.le_trans (reserved_before_le (optimal_queue_max_length s r) s.queues j.val)
      htot
    have e : s1.Qat j = ⟨reserved_before (optimal_queue_max_length s r) s.queues j.val,
        (s.Qat j).length⟩ := ht
    rw [e]
    refine ⟨?_, rfl, hb⟩
    rw [is_valid_iff] at hv ⊢
    refine ⟨hv.1, ?_⟩
    show reserved_before (optimal_queue_max_length s r) s.queues j.val ≠ BAD_QUEUE
    rw [max_queued_byte_count_eq] at hle
    simp only [BAD_QUEUE]
    omega

theorem reachable_quota_reached : Reachable quota_reached :=
  reachable_run Reachable.fresh
    (run_of_run_ok (show run_ok calls_quota_reached fresh = some quota_reached by decide!))

set_option maxRecDepth 100000 in
theorem compaction_preserves_contents_witness :
    ¬ nothing_to_do quota_reached 0
    ∧ ∀ j : Fin 64, (quota_reached.Qat j).is_valid = true →
      (compacted.Qat j).is_valid = true
      ∧ (compacted.Qat j).length = (quota_reached.Qat j).length
      ∧ (compacted.Qat j).bytes compacted.queued_bytes
          = (quota_reached.Qat j).bytes quota_reached.queued_bytes :=
  ⟨by decide,
    compaction_preserves_contents quota_reached 0 compacted ⟨rfl, by decide!, by decide!⟩
      (by decide!) (by unfold non_overlap; decide!) (by decide!)⟩

/-- Claim C17. After a rebalance of a reachable arena that had something to do
and returned (its compaction pass ran to completion), the quota is the old
quota plus the floor of `(1792 - (used_or_reserved + 1)) / queue_count`, with
`used_or_reserved` the value of `memory_used_or_reserved`, and every valid
queue keeps its length and starts at the sum of `MAX(new quota, length)` over
the valid queues in the slots below its own. -/
theorem compaction_layout (s : Arena) (hs : Reachable s) (i : Fin 64) (s1 : Arena)
    (hnd : ¬ nothing_to_do s i)
    (h : bound_check_and_memory_rearrange s i = .ok () s1) :
    (s1.current_max_length : Int)
      = (s.current_max_length : Int)
        + Int.fdiv ((max_queued_byte_count : Int) - ((memory_used_or_reserved s : Int) + 1))
            (s.Q_current_count : Int)
    ∧ ∀ j : Fin 64, (s.Qat j).is_valid = true →
        (s1.Qat j).is_valid = true ∧ (s1.Qat j).length = (s.Qat j).length
        ∧ (s1.Qat j).start_offset = reserved_before s1.current_max_length s.queues j.val := by
  have hinv := reachable_inv hs
  have htidy := reachable_tidy hs
  obtain ⟨r, hr, ho, hz, hc⟩ := bound_check_ok_compacted hnd h
  have hole := quota_le_of_mul_le ho hz
  obtain ⟨-, -, -, -, -, hquota, -, htot, htab, -⟩ :=
    compaction_pass_spec
      (s := { s with
        last_Q_count := some s.Q_current_count
        current_max_length := optimal_queue_max_length s r })
      hinv.1.2.1 hinv.1.2.2 hole (lens_le_of_inv hinv) hc
  dsimp only at htot htab
  have hq1 : s1.current_max_length = optimal_queue_max_length s r := hquota
  refine ⟨?_, fun j hv => ?_⟩
  · rw [← resize_opt_floor hr, hq1]
    have hrange := resize_opt_range hr
    have hcml := htidy.1
    rw [max_queued_byte_count_eq] at hole hcml
    unfold optimal_queue_max_length at hole ⊢
    omega
  · have hv1 : (s.queues.getD j.val ⟨BAD_QUEUE, BAD_QUEUE⟩).is_valid = true := hv
    have ht := htab j.val
    rw [if_pos hv1] at ht
    have hle := Nat.le_trans (reserved_before_le (optimal_queue_max_length s r) s.queues j.val)
      htot
    have e : s1.Qat j = ⟨reserved_before (optimal_queue_max_length s r) s.queues j.val,
        (s.Qat j).length⟩ := ht
    rw [e, hq1]
    refine ⟨?_, rfl, rfl⟩
    rw [is_valid_iff] at hv ⊢
    refine ⟨hv.1, ?_⟩
    show reserved_before (optimal_queue_max_length s r) s.queues j.val ≠ BAD_QUEUE
    rw [max_queued_byte_count_eq] at hle
    simp only [BAD_QUEUE]
    omega

set_option maxRecDepth 100000 in
theorem compaction_layout_witness :
    Reachable quota_reached ∧ ¬ nothing_to_do quota_reached 0
    ∧ bound_check_and_memory_rearrange quota_reached 0 = .ok () compacted
    ∧ (compacted.current_max_length : Int)
      = (quota_reached.current_max_length : Int)
        + Int.fdiv ((max_queued_byte_count : Int)
            - ((memory_used_or_reserved quota_reached : Int) + 1))
            (quota_reached.Q_current_count : Int)
    ∧ ∀ j : Fin 64, (quota_reached.Qat j).is_valid = true →
        (compacted.Qat j).is_valid = true
        ∧ (compacted.Qat j).length = (quota_reached.Qat j).length
        ∧ (compacted.Qat j).start_offset
            = reserved_before compacted.current_max_length quota_reached.queues j.val :=
  ⟨reachable_quota_reached, by decide, by decide!,
    compaction_layout quota_reached reachable_quota_reached 0 compacted (by decide)
      (by decide!)⟩

/-! ## Creation (claim C11) -/

/-- Claim C11 (the code does otherwise). After one queue, 81 bytes into it
(the quota becomes 1791) and 36 more queues, the arena has free slots and
`create_queue` returns slot 37, whose `start_offset` is set to 731 and not to
`37 * 1791 = 66267`: the product is stored in a `uShort`. -/
theorem create_queue_offset_wraps :
    ∃ s, run_ok calls_quota_check fresh = some s ∧ Reachable s
      ∧ (∃ j : Fin 64, (s.Qat j).is_valid = false)
      ∧ ∃ s1, create_queue s = .ok 37 s1
        ∧ (s1.Qat 37).start_offset = 731
        ∧ 37 * s.current_max_length = 66267 := by
  have h : (run_ok calls_quota_check fresh).map (fun s =>
      decide ((s.Qat 63).is_valid = false
        ∧ (create_queue s).value = some 37
        ∧ ((create_queue s).returned.map (fun s1 => (s1.Qat 37).start_offset)) = some 731
        ∧ 37 * s.current_max_length = 66267)) = some true := by
    decide!
  obtain ⟨s, hs, hc⟩ := exists_of_map_check h
  simp only [decide_eq_true_eq] at hc
  obtain ⟨h1, h2, h3, h4⟩ := hc
  refine ⟨s, hs, reachable_run Reachable.fresh (run_of_run_ok hs), ⟨63, h1⟩, ?_⟩
  cases hr : create_queue s with
  | undefined => simp [hr, Outcome.value] at h2
  | thrown e s2 => simp [hr, Outcome.value] at h2
  | ok i s1 =>
    simp only [hr, Outcome.value, Option.some.injEq] at h2
    simp only [hr, Outcome.returned, Option.map_some', Option.some.injEq] at h3
    subst h2
    exact ⟨s1, rfl, h3, h4⟩

/-- Claim C11 (amended). In a reachable arena with a slot that is not valid,
`create_queue` returns the lowest such slot, sets its `start_offset` to
`slot * current_max_length` reduced modulo `2^16` and its `length` to 0, adds
one to `Q::current_count` modulo `2^16`, and changes nothing else. -/
theorem create_queue_postcondition (s : Arena) (hs : Reachable s)
    (hfree : ∃ j : Fin 64, (s.Qat j).is_valid = false) :
    ∃ i s1, create_queue s = .ok i s1
      ∧ (s.Qat i).is_valid = false
      ∧ (∀ j : Fin 64, j < i → (s.Qat j).is_valid = true)
      ∧ s1.Qat i = ⟨(i.val * s.current_max_length) % 65536, 0⟩
      ∧ s1.Q_current_count = (s.Q_current_count + 1) % 65536
      ∧ (∀ j : Fin 64, j ≠ i → s1.Qat j = s.Qat j)
      ∧ s1.queued_bytes = s.queued_bytes
      ∧ s1.qb_current_count = s.qb_current_count
      ∧ s1.current_max_length = s.current_max_length := by
  have hinv := reachable_inv hs
  obtain ⟨j, hj⟩ := hfree
  have hjo : (s.Qat j).start_offset = BAD_QUEUE := by
    by_contra hne
    rw [(valid_iff_offset hs j).mpr hne] at hj
    exact absurd hj (by simp)
  obtain ⟨i, hi⟩ := Q_create_exists hjo
  have hio := Q_create_some hi
  have hlow := Q_create_lowest hi
  have hi64 : i.val < s.queues.length := by
    rw [hinv.1.2.1]
    exact i.isLt
  refine ⟨i, { s with
      queues := s.queues.set i.val ⟨u16 (i.val * s.current_max_length), 0⟩
      Q_current_count := inc16 s.Q_current_count }, ?_, ?_, ?_, ?_, rfl, ?_, rfl, rfl, rfl⟩
  · unfold create_queue
    simp only [initializeData_of_once hinv.1.1, hi, in_valid_range_eq, Bool.not_true,
      Bool.false_eq_true, if_false, Arena.setQ, get_start_offset]
  · cases hv : (s.Qat i).is_valid with
    | false => rfl
    | true => exact absurd hio ((valid_iff_offset hs i).mp hv)
  · exact fun k hk => (valid_iff_offset hs k).mpr (hlow k hk)
  · exact getD_set_same s.queues i.val _ _ hi64
  · intro k hk
    exact getD_set_ne s.queues k.val i.val _ _ (fun e => hk (Fin.ext e))

theorem create_queue_postcondition_witness :
    Reachable one_queue ∧ (one_queue.Qat 1).is_valid = false
    ∧ ∃ i s1, create_queue one_queue = .ok i s1
      ∧ (one_queue.Qat i).is_valid = false
      ∧ (∀ j : Fin 64, j < i → (one_queue.Qat j).is_valid = true)
      ∧ s1.Qat i = ⟨(i.val * one_queue.current_max_length) % 65536, 0⟩
      ∧ s1.Q_current_count = (one_queue.Q_current_count + 1) % 65536
      ∧ (∀ j : Fin 64, j ≠ i → s1.Qat j = one_queue.Qat j)
      ∧ s1.queued_bytes = one_queue.queued_bytes
      ∧ s1.qb_current_count = one_queue.qb_current_count
      ∧ s1.current_max_length = one_queue.current_max_length :=
  ⟨reachable_one_queue, by decide,
    create_queue_postcondition one_queue reachable_one_queue ⟨1, by decide⟩⟩

/-! ## The two sums of the rebalancing routine -/

theorem MAX_comm (a b : Nat) : MAX a b = MAX b a := by
  unfold MAX
  split <;> split <;> omega

theorem foldl_memory_used (qs : List Q) (acc : Nat) (hacc : acc < 65536) :
    qs.foldl (fun sum q => if q.is_valid then u16 (sum + q.length) else sum) acc
      = (acc + live_length_sum qs) % 65536 := by
  induction qs generalizing acc with
  | nil => simp [live_length_sum, Nat.mod_eq_of_lt hacc]
  | cons q qs ih =>
    rw [List.foldl_cons, live_length_sum_cons]
    by_cases hv : q.is_valid = true
    · have hu : u16 (acc + q.length) < 65536 := Nat.mod_lt _ (by decide)
      rw [if_pos hv, ih _ hu, live_length_of_valid hv]
      unfold u16
      omega
    · rw [if_neg hv, ih _ hacc]
      simp [Q.live_length, hv]

/-- Function `memory_used` returns the sum of the live lengths modulo `2^16`. -/
theorem memory_used_eq (s : Arena) : memory_used s = live_length_sum s.queues % 65536 := by
  unfold memory_used
  rw [foldl_memory_used _ _ (by decide), Nat.zero_add]

theorem memory_used_of_inv {s : Arena} (hinv : s.inv) : memory_used s = s.qb_current_count := by
  have h1 := hinv.2.1
  have h2 := hinv.2.2
  rw [max_queued_byte_count_eq] at h2
  rw [memory_used_eq, ← h1]
  omega

theorem reserved_before_length_cons (cml : Nat) (q : Q) (qs : List Q) :
    reserved_before cml (q :: qs) (q :: qs).length
      = (if q.is_valid = true then MAX cml q.length else 0)
        + reserved_before cml qs qs.length := by
  rw [List.length_cons, reserved_before_cons]

theorem foldl_memory_used_or_reserved (cml : Nat) (qs : List Q) (acc : Nat)
    (hacc : acc < 65536) :
    qs.foldl (fun sum q => if q.is_valid then u16 (sum + MAX q.length cml) else sum) acc
      = (acc + reserved_before cml qs qs.length) % 65536 := by
  induction qs generalizing acc with
  | nil => simp [reserved_before_nil, Nat.mod_eq_of_lt hacc]
  | cons q qs ih =>
    rw [List.foldl_cons, reserved_before_length_cons]
    by_cases hv : q.is_valid = true
    · have hu : u16 (acc + MAX q.length cml) < 65536 := Nat.mod_lt _ (by decide)
      rw [if_pos hv, if_pos hv, ih _ hu, MAX_comm]
      unfold u16
      omega
    · rw [if_neg hv, if_neg hv, ih _ hacc, Nat.zero_add]

/-- Function `memory_used_or_reserved` returns the sum of the reservations
modulo `2^16`. -/
theorem memory_used_or_reserved_eq (s : Arena) :
    memory_used_or_reserved s
      = reserved_before s.current_max_length s.queues s.queues.length % 65536 := by
  unfold memory_used_or_reserved
  rw [foldl_memory_used_or_reserved _ _ _ (by decide), Nat.zero_add]

theorem reserved_before_succ_invalid (cml : Nat) (qs : List Q) (j : Nat)
    (hv : ¬ (qs.getD j ⟨BAD_QUEUE, BAD_QUEUE⟩).is_valid = true) :
    reserved_before cml qs (j + 1) = reserved_before cml qs j := by
  induction qs generalizing j with
  | nil => rw [reserved_before_nil, reserved_before_nil]
  | cons q qs ih =>
    cases j with
    | zero =>
      simp only [List.getD_cons_zero] at hv
      rw [reserved_before_cons, reserved_before_zero, reserved_before_zero, if_neg hv]
    | succ k =>
      simp only [List.getD_cons_succ] at hv
      rw [reserved_before_cons, reserved_before_cons, ih k hv]

/-- With `n` valid descriptors in the slots below `n`, none of them longer
than the quota, and no other valid descriptor, the reservations below slot
`j` amount to `min j n` quotas. -/
theorem reserved_before_uniform (cml n : Nat) (qs : List Q)
    (hlow : ∀ j, j < n → (qs.getD j ⟨BAD_QUEUE, BAD_QUEUE⟩).is_valid = true
      ∧ (qs.getD j ⟨BAD_QUEUE, BAD_QUEUE⟩).length ≤ cml)
    (hhigh : ∀ j, n ≤ j → ¬ (qs.getD j ⟨BAD_QUEUE, BAD_QUEUE⟩).is_valid = true) (j : Nat) :
    reserved_before cml qs j = min j n * cml := by
  induction j with
  | zero => simp [reserved_before_zero]
  | succ k ih =>
    by_cases hk : k < n
    · obtain ⟨hv, hl⟩ := hlow k hk
      rw [reserved_before_succ cml qs k hv, ih]
      have hM : MAX cml (qs.getD k ⟨BAD_QUEUE, BAD_QUEUE⟩).length = cml := by
        unfold MAX
        split <;> omega
      rw [hM, Nat.min_eq_left (by omega), Nat.min_eq_left (by omega), Nat.succ_mul]
    · rw [reserved_before_succ_invalid cml qs k (hhigh k (by omega)), ih,
        Nat.min_eq_right (by omega), Nat.min_eq_right (by omega)]

/-! ## Stores into the pool -/

theorem slice_set_outside (pool : List Nat) (p b off n : Nat) (h : p < off ∨ off + n ≤ p) :
    slice (pool.set p b) off n = slice pool off n := by
  apply slice_congr
  intro k h1 h2
  rw [List.getElem?_set_ne (by omega)]

theorem slice_set_append (pool : List Nat) (b off n : Nat) (h : off + n < pool.length) :
    slice (pool.set (off + n) b) off (n + 1) = slice pool off n ++ [b] := by
  apply List.ext_getElem?
  intro k
  rw [getElem?_slice]
  by_cases hk : k < n
  · rw [if_pos (by omega), List.getElem?_set_ne (by omega),
      List.getElem?_append_left (by rw [slice_length _ _ _ (by omega)]; exact hk),
      getElem?_slice, if_pos hk]
  · by_cases hkn : k = n
    · subst hkn
      rw [if_pos (by omega), List.getElem?_set_eq_of_lt _ h,
        List.getElem?_append_right (by rw [slice_length _ _ _ (by omega)]),
        slice_length _ _ _ (by omega)]
      simp
    · rw [if_neg (by omega), List.getElem?_eq_none]
      rw [List.length_append, slice_length _ _ _ (by omega)]
      simp
      omega

/-! ## The shift of `Q::shift_left_queued_bytes` -/

/-- The loop of `Q::shift_left_queued_bytes`, run `n` times from target `t`
inside the pool: it ends, the bytes at `t .. t + n - 1` are those that were
one place to the right, and the bytes outside `t .. t + n` are kept. -/
theorem shift_left_loop_spec (n t : Nat) (pool : List Nat)
    (hp : pool.length = max_queued_byte_count) (hin : t + n < max_queued_byte_count) :
    ∃ pool1, shift_left_loop n t (t + 1) pool = some pool1
      ∧ pool1.length = max_queued_byte_count
      ∧ (∀ k, t ≤ k → k < t + n → pool1[k]? = pool[k + 1]?)
      ∧ (∀ k, (k < t ∨ t + n < k) → pool1[k]? = pool[k]?) := by
  induction n generalizing t pool with
  | zero =>
    exact ⟨pool, rfl, hp, fun k h1 h2 => absurd h2 (by omega), fun k _ => rfl⟩
  | succ m ih =>
    have hlt : t + 1 < max_queued_byte_count := by omega
    have hp1 : ((pool.set t (pool.getD (t + 1) BAD_VALUE)).set (t + 1) BAD_VALUE).length
        = max_queued_byte_count := by
      rw [List.length_set, List.length_set, hp]
    obtain ⟨pool1, e1, e2, e3, e4⟩ := ih (t + 1) _ hp1 (by omega)
    refine ⟨pool1, ?_, e2, fun k h1 h2 => ?_, fun k hk => ?_⟩
    · simp only [shift_left_loop, hlt, if_true]
      exact e1
    · by_cases hkt : k = t
      · subst hkt
        rw [e4 k (Or.inl (by omega)), List.getElem?_set_ne (by omega),
          List.getElem?_set_eq_of_lt _ (by omega), List.getD_eq_getElem?_getD]
        have : k + 1 < pool.length := by omega
        rw [List.getElem?_eq_getElem this]
        rfl
      · rw [e3 k (by omega) (by omega), List.getElem?_set_ne (by omega),
          List.getElem?_set_ne (by omega)]
    · rw [e4 k (by omega), List.getElem?_set_ne (by omega), List.getElem?_set_ne (by omega)]

/-! ## The uniform layout -/

theorem slot_le {a b c : Nat} (h : a < b) : a * c + c ≤ b * c := by
  rw [← Nat.succ_mul]
  exact Nat.mul_le_mul_right c h

/-- A returning `enqueue_byte`, from the return of the rebalancing routine. -/
theorem enqueue_byte_run {s s0 : Arena} {i : Fin 64} (b : Nat)
    (hv : (s.Qat i).is_valid = true) (hm : s.qb_current_count < max_queued_byte_count)
    (hb : bound_check_and_memory_rearrange s i = .ok () s0)
    (hroom : (s0.Qat i).start_offset + (s0.Qat i).length < max_queued_byte_count) :
    enqueue_byte s (some i) b
      = .ok () { s0 with
          queues := s0.queues.set i.val
            { start_offset := (s0.Qat i).start_offset, length := inc16 (s0.Qat i).length }
          queued_bytes :=
            s0.queued_bytes.set ((s0.Qat i).start_offset + (s0.Qat i).length) (b % 256)
          qb_current_count := inc16 s0.qb_current_count } := by
  unfold enqueue_byte
  simp only [hv, Bool.not_true, Bool.false_eq_true, if_false, Q.enqueue_byte,
    memory_available, hm, decide_True, hb, hroom, not_true_eq_false]
  simp [Arena.setQ, Arena.Qat]

/-- Appending one byte to queue `i` of a uniform layout that has room for it. -/
theorem store_uniform {n c : Nat} {s0 : Arena} {content : Fin 64 → List Nat} {i : Fin 64}
    (b : Nat) (hU : uniform_layout n c s0 content) (hnc : n * c ≤ max_queued_byte_count)
    (hi : i.val < n) (hlen : (content i).length + 1 ≤ c) :
    (s0.Qat i).start_offset + (s0.Qat i).length < max_queued_byte_count
    ∧ uniform_layout n c
        { s0 with
          queues := s0.queues.set i.val
            { start_offset := (s0.Qat i).start_offset, length := inc16 (s0.Qat i).length }
          queued_bytes :=
            s0.queued_bytes.set ((s0.Qat i).start_offset + (s0.Qat i).length) (b % 256)
          qb_current_count := inc16 s0.qb_current_count }
        (Function.update content i (content i ++ [b % 256])) := by
  obtain ⟨hwf, hcnt, hcml, hlast, hlow, hhigh⟩ := hU
  obtain ⟨hqi, hli, hsi⟩ := hlow i hi
  have hslot : i.val * c + c ≤ n * c := slot_le hi
  rw [hqi]
  dsimp only
  rw [max_queued_byte_count_eq] at hnc
  have hpos : i.val * c + (content i).length < max_queued_byte_count := by
    rw [max_queued_byte_count_eq]
    omega
  refine ⟨hpos, ⟨hwf.1, ?_, ?_⟩, hcnt, hcml, hlast, fun j hj => ?_, fun j hj => ?_⟩
  · show (s0.queues.set _ _).length = max_count
    rw [List.length_set]
    exact hwf.2.1
  · show (s0.queued_bytes.set _ _).length = max_queued_byte_count
    rw [List.length_set]
    exact hwf.2.2
  · by_cases hji : j = i
    · subst hji
      rw [Function.update_same]
      refine ⟨?_, ?_, ?_⟩
      · show (s0.queues.set j.val _).getD j.val _ = _
        rw [getD_set_same _ _ _ _ (by rw [hwf.2.1]; exact j.isLt), inc16_of_lt (by omega)]
        simp
      · simp only [List.length_append, List.length_singleton]
        omega
      · show slice (s0.queued_bytes.set _ _) _ _ = _
        rw [List.length_append, List.length_singleton,
          slice_set_append _ _ _ _ (by rw [hwf.2.2]; exact hpos), hsi]
    · rw [Function.update_noteq hji]
      obtain ⟨hqj, hlj, hsj⟩ := hlow j hj
      have hne : j.val ≠ i.val := fun e => hji (Fin.ext e)
      refine ⟨?_, hlj, ?_⟩
      · show (s0.queues.set i.val _).getD j.val _ = _
        rw [getD_set_ne _ _ _ _ _ hne]
        exact hqj
      · show slice (s0.queued_bytes.set _ _) _ _ = _
        rw [slice_set_outside _ _ _ _ _ ?_]
        · exact hsj
        · rcases Nat.lt_or_gt_of_ne hne with h | h
          · have := slot_le (c := c) h
            right
            omega
          · have := slot_le (c := c) h
            left
            omega
  · show (s0.queues.set i.val _).getD j.val _ = _
    rw [getD_set_ne _ _ _ _ _ (by omega)]
    exact hhigh j hj

theorem uniform_low {n c : Nat} {s : Arena} {content : Fin 64 → List Nat}
    (hU : uniform_layout n c s content) (hn : n ≤ 64) (hnc : n * c ≤ max_queued_byte_count)
    (j : Nat) (hj : j < n) :
    ∃ l, l ≤ c ∧ s.queues.getD j ⟨BAD_QUEUE, BAD_QUEUE⟩ = ⟨j * c, l⟩
      ∧ Q.is_valid ⟨j * c, l⟩ = true ∧ j * c + c ≤ max_queued_byte_count := by
  obtain ⟨-, -, -, -, hlow, -⟩ := hU
  obtain ⟨h1, h2, -⟩ := hlow ⟨j, by omega⟩ hj
  have hslot : j * c + c ≤ n * c := slot_le hj
  refine ⟨_, h2, h1, ?_, by omega⟩
  rw [is_valid_iff]
  rw [max_queued_byte_count_eq] at hnc
  simp only [BAD_QUEUE]
  constructor <;> omega

theorem uniform_high {n c : Nat} {s : Arena} {content : Fin 64 → List Nat}
    (hU : uniform_layout n c s content) (j : Nat) (hj : n ≤ j) :
    s.queues.getD j ⟨BAD_QUEUE, BAD_QUEUE⟩ = ⟨BAD_QUEUE, BAD_QUEUE⟩ := by
  obtain ⟨hwf, -, -, -, -, hhigh⟩ := hU
  by_cases h64 : j < 64
  · exact hhigh ⟨j, h64⟩ hj
  · rw [List.getD_eq_default _ _ (by rw [hwf.2.1]; simp only [max_count]; omega)]

theorem uniform_reserved {n c c1 : Nat} {s : Arena} {content : Fin 64 → List Nat}
    (hU : uniform_layout n c s content) (hn : n ≤ 64) (hnc : n * c ≤ max_queued_byte_count)
    (hc1 : c ≤ c1) (j : Nat) :
    reserved_before c1 s.queues j = min j n * c1 := by
  apply reserved_before_uniform
  · intro k hk
    obtain ⟨l, h1, h2, h3, -⟩ := uniform_low hU hn hnc k hk
    rw [h2]
    exact ⟨h3, by show l ≤ c1; omega⟩
  · intro k hk
    rw [uniform_high hU k hk]
    simp [Q.is_valid, Q.length_is_valid]

theorem uniform_non_overlap {n c : Nat} {s : Arena} {content : Fin 64 → List Nat}
    (hU : uniform_layout n c s content) : non_overlap s := by
  obtain ⟨-, -, -, -, hlow, hhigh⟩ := hU
  have hlt : ∀ j : Fin 64, (s.Qat j).is_valid = true → j.val < n := by
    intro j hv
    by_contra hge
    rw [hhigh j (by omega)] at hv
    simp [Q.is_valid, Q.length_is_valid] at hv
  intro a b hab hva hvb _ _
  obtain ⟨ha1, ha2, -⟩ := hlow a (hlt a hva)
  obtain ⟨hb1, hb2, -⟩ := hlow b (hlt b hvb)
  rw [ha1, hb1]
  dsimp only
  have hne : a.val ≠ b.val := fun e => hab (Fin.ext e)
  rcases Nat.lt_or_gt_of_ne hne with h | h
  · have := slot_le (c := c) h
    left
    omega
  · have := slot_le (c := c) h
    right
    omega

theorem resize_opt_uniform (n : Nat) (h1 : 1 ≤ n) (h22 : n ≤ 22) :
    resize_opt (n * 80) n = some (((1791 / n : Nat) : Int) - 80) := by
  interval_cases n <;> rfl

theorem quota_uniform (n : Nat) (h1 : 1 ≤ n) (h22 : n ≤ 22) :
    81 ≤ 1791 / n ∧ n * (1791 / n) ≤ 1791 := by
  interval_cases n <;> decide

/-- The rebalancing routine on a uniform layout, before a byte is appended to
queue `i`, which stays within `1791 / n` bytes: it returns and leaves a
uniform layout with the same contents, under the quota 80 or `1791 / n`,
with room for the byte. -/
theorem bound_check_uniform {n c : Nat} {s : Arena} {content : Fin 64 → List Nat}
    {i : Fin 64} (h1 : 1 ≤ n) (h22 : n ≤ 22) (hc : c = 80 ∨ c = 1791 / n)
    (hU : uniform_layout n c s content) (hinv : s.inv)
    (hqb : s.qb_current_count + 1 ≤ max_queued_byte_count)
    (hi : i.val < n) (hlen : (content i).length + 1 ≤ 1791 / n) :
    ∃ s0 c1, bound_check_and_memory_rearrange s i = .ok () s0
      ∧ (c1 = 80 ∨ c1 = 1791 / n) ∧ uniform_layout n c1 s0 content
      ∧ (content i).length + 1 ≤ c1 ∧ s0.qb_current_count = s.qb_current_count := by
  obtain ⟨hm81, hnm⟩ := quota_uniform n h1 h22
  have hnc : n * c ≤ max_queued_byte_count := by
    rw [max_queued_byte_count_eq]
    rcases hc with rfl | rfl <;> omega
  have hU0 := hU
  obtain ⟨hwf, hcnt, hcml, hlast, hlow, hhigh⟩ := hU
  obtain ⟨hqi, hli, -⟩ := hlow i hi
  have hmu := memory_used_of_inv hinv
  by_cases hroom : (content i).length + 1 ≤ c
  · -- nothing to do
    have hnd : nothing_to_do s i := by
      unfold nothing_to_do
      rw [hqi, hmu, hcml, hcnt]
      refine ⟨hroom, ?_, ?_⟩
      · rw [u16_of_lt (by rw [max_queued_byte_count_eq] at hqb; omega)]
        exact hqb
      · rcases hlast with e | e <;> simp [e]
    refine ⟨_, c, bound_check_nothing_to_do hnd hqb hmu.symm, hc, ?_, hroom, rfl⟩
    exact ⟨hwf, hcnt, hcml, Or.inr (by rw [hcnt]), hlow, hhigh⟩
  · -- the quota is raised from 80 to 1791 / n
    have hc80 : c = 80 := by
      rcases hc with e | e
      · exact e
      · exact absurd (e ▸ hlen) hroom
    subst hc80
    have hnd : ¬ nothing_to_do s i := by
      unfold nothing_to_do
      rw [hqi, hcml]
      exact fun h => hroom h.1
    have huor : memory_used_or_reserved s = n * 80 := by
      rw [memory_used_or_reserved_eq, hcml, uniform_reserved hU0 (by omega) hnc (le_refl _),
        hwf.2.1]
      simp only [max_count]
      rw [Nat.min_eq_right (by omega)]
      rw [max_queued_byte_count_eq] at hnc
      omega
    have hr : resize_opt (memory_used_or_reserved s) s.Q_current_count
        = some (((1791 / n : Nat) : Int) - 80) := by
      rw [huor, hcnt]
      exact resize_opt_uniform n h1 h22
    have hopt : optimal_queue_max_length s (((1791 / n : Nat) : Int) - 80) = 1791 / n := by
      unfold optimal_queue_max_length
      rw [hcml]
      have := Nat.div_le_self 1791 n
      omega
    have hcomp := bound_check_compacts hnd hqb hmu.symm (by rw [hcml]; decide) hr
      (by rw [hopt, hcnt, max_queued_byte_count_eq]; rw [Nat.mul_comm]; omega)
    rw [hopt] at hcomp
    have hres : ∀ j, reserved_before (1791 / n) s.queues j = min j n * (1791 / n) :=
      uniform_reserved hU0 (by omega) hnc (by omega)
    have hacc : ∀ q ∈ s.queues, q.is_valid = true →
        q.length = 0 ∨ q.start_offset + q.length ≤ max_queued_byte_count := by
      intro q hq hv
      obtain ⟨k, hk, rfl⟩ := List.mem_iff_getElem.mp hq
      rw [← List.getD_eq_getElem _ ⟨BAD_QUEUE, BAD_QUEUE⟩ hk] at hv ⊢
      by_cases hkn : k < n
      · obtain ⟨l, e1, e2, -, e4⟩ := uniform_low hU0 (by omega) hnc k hkn
        rw [e2]
        right
        show k * 80 + l ≤ max_queued_byte_count
        omega
      · rw [uniform_high hU0 k (by omega)] at hv
        simp [Q.is_valid, Q.length_is_valid] at hv
    have hmle : 1791 / n ≤ max_queued_byte_count := by
      rw [max_queued_byte_count_eq]
      have := Nat.div_le_self 1791 n
      omega
    obtain ⟨s0, hs0⟩ := compaction_pass_runs
      { s with last_Q_count := some s.Q_current_count, current_max_length := 1791 / n }
      hwf.2.1 hwf.2.2 (by show 1 ≤ 1791 / n; omega) hmle (lens_le_of_inv hinv) hacc
      (by
        show reserved_before (1791 / n) s.queues s.queues.length ≤ max_queued_byte_count
        rw [hres, hwf.2.1, max_queued_byte_count_eq]
        simp only [max_count]
        rw [Nat.min_eq_right (by omega)]
        omega)
    obtain ⟨g1, g2, g3, g4, g5, g6, g7, -, gtab, -, gbytes⟩ :=
      compaction_pass_spec
        (s := { s with last_Q_count := some s.Q_current_count, current_max_length := 1791 / n })
        hwf.2.1 hwf.2.2 hmle (lens_le_of_inv hinv) hs0
    dsimp only at g3 g4 g5 g6 g7 gtab gbytes
    refine ⟨s0, 1791 / n, by rw [hcomp, hs0], Or.inr rfl, ?_, hlen, g5⟩
    refine ⟨⟨g3.trans hwf.1, g1, g2⟩, g4.trans hcnt, g6, Or.inr (by rw [g7, hcnt]),
      fun j hj => ?_, fun j hj => ?_⟩
    · obtain ⟨hqj, hlj, hsj⟩ := hlow j hj
      have hvj : (s.queues.getD j.val ⟨BAD_QUEUE, BAD_QUEUE⟩).is_valid = true := by
        obtain ⟨l, -, e2, e3, -⟩ := uniform_low hU0 (by omega) hnc j.val hj
        rw [e2]
        exact e3
      have hgj : s.queues.getD j.val ⟨BAD_QUEUE, BAD_QUEUE⟩
          = ⟨j.val * 80, (content j).length⟩ := hqj
      have ht := gtab j.val
      rw [if_pos hvj, hres, Nat.min_eq_left (by omega), hgj] at ht
      have hb := gbytes (pairwise_of_non_overlap hwf.2.1 (uniform_non_overlap hU0)) j.val hvj
      rw [hres, Nat.min_eq_left (by omega), hgj] at hb
      exact ⟨ht, by omega, hb.trans hsj⟩
    · have hvj : ¬ (s.queues.getD j.val ⟨BAD_QUEUE, BAD_QUEUE⟩).is_valid = true := by
        rw [uniform_high hU0 j.val hj]
        simp [Q.is_valid, Q.length_is_valid]
      have ht := gtab j.val
      rw [if_neg hvj] at ht
      exact ht.trans (hhigh j hj)

/-- Appending one byte to queue `i` of a uniform layout, the queue staying
within `1791 / n` bytes: `enqueue_byte` returns and the layout stays uniform. -/
theorem enqueue_uniform {n c : Nat} {s : Arena} {content : Fin 64 → List Nat}
    {i : Fin 64} (b : Nat) (h1 : 1 ≤ n) (h22 : n ≤ 22) (hc : c = 80 ∨ c = 1791 / n)
    (hU : uniform_layout n c s content) (hinv : s.inv)
    (hqb : s.qb_current_count + 1 ≤ max_queued_byte_count)
    (hi : i.val < n) (hlen : (content i).length + 1 ≤ 1791 / n) :
    ∃ s1 c1, enqueue_byte s (some i) b = .ok () s1
      ∧ (c1 = 80 ∨ c1 = 1791 / n)
      ∧ uniform_layout n c1 s1 (Function.update content i (content i ++ [b % 256]))
      ∧ s1.inv ∧ s1.qb_current_count = s.qb_current_count + 1 := by
  obtain ⟨hm81, hnm⟩ := quota_uniform n h1 h22
  have hnc : n * c ≤ max_queued_byte_count := by
    rw [max_queued_byte_count_eq]
    rcases hc with rfl | rfl <;> omega
  obtain ⟨s0, c1, hb, hc1, hU1, hroom, hq⟩ :=
    bound_check_uniform h1 h22 hc hU hinv hqb hi hlen
  have hnc1 : n * c1 ≤ max_queued_byte_count := by
    rw [max_queued_byte_count_eq]
    rcases hc1 with rfl | rfl <;> omega
  obtain ⟨hpos, hU2⟩ := store_uniform b hU1 hnc1 hi hroom
  have hv : (s.Qat i).is_valid = true := by
    obtain ⟨l, -, e2, e3, -⟩ := uniform_low hU (by omega) hnc i.val hi
    show (s.queues.getD i.val ⟨BAD_QUEUE, BAD_QUEUE⟩).is_valid = true
    rw [e2]
    exact e3
  have hrun := enqueue_byte_run b hv (by omega) hb hpos
  refine ⟨_, c1, hrun, hc1, hU2, enqueue_byte_inv hinv (by rw [hrun]; rfl), ?_⟩
  show inc16 s0.qb_current_count = s.qb_current_count + 1
  rw [hq, inc16_of_lt (by rw [max_queued_byte_count_eq] at hqb; omega)]

/-- A returning `dequeue_byte`, from the result of the shift. -/
theorem dequeue_byte_run {s : Arena} {i : Fin 64} {pool1 : List Nat}
    (hv : (s.Qat i).is_valid = true)
    (hs : (s.Qat i).start_offset < max_queued_byte_count) (hl : (s.Qat i).length ≠ 0)
    (hloop : shift_left_loop ((s.Qat i).length - 1) (s.Qat i).start_offset
      ((s.Qat i).start_offset + 1) s.queued_bytes = some pool1) :
    dequeue_byte s (some i)
      = .ok (s.queued_bytes.getD (s.Qat i).start_offset BAD_VALUE)
          { s with
            queues := s.queues.set i.val
              { start_offset := (s.Qat i).start_offset, length := dec16 (s.Qat i).length }
            queued_bytes := pool1
            qb_current_count := dec16 s.qb_current_count } := by
  unfold dequeue_byte
  simp only [hv, Bool.not_true, Bool.false_eq_true, if_false, Q.dequeue_byte, hs,
    not_true_eq_false, shift_left_queued_bytes, hl, hloop]
  simp [Arena.setQ, Arena.Qat]

/-- Removing the head of queue `i` of a uniform layout: `dequeue_byte` returns
it and the layout stays uniform. -/
theorem dequeue_uniform {n c : Nat} {s : Arena} {content : Fin 64 → List Nat}
    {i : Fin 64} {b : Nat} {rest : List Nat}
    (hU : uniform_layout n c s content) (hnc : n * c ≤ max_queued_byte_count)
    (hi : i.val < n) (hcont : content i = b :: rest) :
    ∃ s1, dequeue_byte s (some i) = .ok b s1
      ∧ uniform_layout n c s1 (Function.update content i rest) := by
  have hU0 := hU
  obtain ⟨hwf, hcnt, hcml, hlast, hlow, hhigh⟩ := hU
  obtain ⟨hqi, hli, hsi⟩ := hlow i hi
  rw [hcont] at hqi hli hsi
  simp only [List.length_cons] at hqi hli hsi
  have hslot : i.val * c + c ≤ n * c := slot_le hi
  have hv : (s.Qat i).is_valid = true := by
    rw [hqi, is_valid_iff]
    rw [max_queued_byte_count_eq] at hnc
    simp only [BAD_QUEUE]
    constructor <;> omega
  obtain ⟨pool1, e1, e2, e3, e4⟩ := shift_left_loop_spec rest.length (i.val * c)
    s.queued_bytes hwf.2.2 (by omega)
  have hb : s.queued_bytes.getD (i.val * c) BAD_VALUE = b := by
    have := getElem?_slice s.queued_bytes (i.val * c) (rest.length + 1) 0
    rw [hsi, if_pos (by omega)] at this
    simp only [List.getElem?_cons_zero, Nat.add_zero] at this
    rw [List.getD_eq_getElem?_getD, ← this]
    rfl
  have hrun := @dequeue_byte_run s i pool1 hv
    (by rw [hqi]; show i.val * c < max_queued_byte_count; omega)
    (by rw [hqi]; show rest.length + 1 ≠ 0; omega)
    (by rw [hqi]; exact e1)
  rw [hqi] at hrun
  dsimp only at hrun
  rw [hb, dec16_of_pos (by omega) (by rw [max_queued_byte_count_eq] at hnc; omega)]
    at hrun
  refine ⟨_, hrun, ⟨hwf.1, ?_, e2⟩, hcnt, hcml, hlast, fun j hj => ?_, fun j hj => ?_⟩
  · show (s.queues.set _ _).length = max_count
    rw [List.length_set]
    exact hwf.2.1
  · by_cases hji : j = i
    · subst hji
      rw [Function.update_same]
      refine ⟨?_, by omega, ?_⟩
      · show (s.queues.set j.val _).getD j.val _ = _
        rw [getD_set_same _ _ _ _ (by rw [hwf.2.1]; exact j.isLt)]
        simp
      · show slice pool1 _ _ = _
        apply List.ext_getElem?
        intro k
        rw [getElem?_slice]
        have h2 := getElem?_slice s.queued_bytes (j.val * c) (rest.length + 1) (k + 1)
        rw [hsi, List.getElem?_cons_succ] at h2
        rw [h2]
        by_cases hk : k < rest.length
        · rw [if_pos hk, if_pos (by omega), e3 _ (by omega) (by omega)]
          rfl
        · rw [if_neg hk, if_neg (by omega)]
    · rw [Function.update_noteq hji]
      obtain ⟨hqj, hlj, hsj⟩ := hlow j hj
      have hne : j.val ≠ i.val := fun e => hji (Fin.ext e)
      refine ⟨?_, hlj, ?_⟩
      · show (s.queues.set i.val _).getD j.val _ = _
        rw [getD_set_ne _ _ _ _ _ hne]
        exact hqj
      · show slice pool1 _ _ = _
        refine (slice_congr _ _ _ _ ?_).trans hsj
        intro k hk1 hk2
        apply e4
        rcases Nat.lt_or_gt_of_ne hne with h | h
        · have := slot_le (c := c) h
          left
          omega
        · have := slot_le (c := c) h
          right
          omega
  · show (s.queues.set i.val _).getD j.val _ = _
    rw [getD_set_ne _ _ _ _ _ (by omega)]
    exact hhigh j hj

/-- A returning `create_queue`, from the slot found. -/
theorem create_queue_run {s : Arena} {i : Fin 64} (honce : s.once = true)
    (h : Q.create s = some i) :
    create_queue s = .ok i { s with
        queues := s.queues.set i.val ⟨u16 (i.val * s.current_max_length), 0⟩
        Q_current_count := inc16 s.Q_current_count } := by
  unfold create_queue
  simp only [initializeData_of_once honce, h, in_valid_range_eq, Bool.not_true,
    Bool.false_eq_true, if_false, Arena.setQ, get_start_offset]

/-- The first `n` calls of `create_queue` on the fresh arena return the slots
`0` to `n - 1` and leave a uniform layout of empty queues. -/
theorem create_uniform (n : Nat) (hn : n ≤ 64) :
    ∃ s0, run_ok (List.replicate n Call.create_queue) fresh = some s0
      ∧ uniform_layout n 80 s0 (fun _ => []) ∧ s0.inv
      ∧ s0.qb_current_count = 0 ∧ s0.last_Q_count = none := by
  induction n with
  | zero =>
    refine ⟨fresh, rfl, ⟨inv_fresh.1, rfl, rfl, Or.inl rfl, fun j hj => absurd hj (by omega),
      fun j _ => ?_⟩, inv_fresh, rfl, rfl⟩
    revert j
    decide
  | succ k ih =>
    obtain ⟨s, hrun, hU, hinv, hqb, hlast⟩ := ih (by omega)
    have hU0 := hU
    obtain ⟨hwf, hcnt, hcml, -, hlow, hhigh⟩ := hU
    have hk64 : k < 64 := by omega
    obtain ⟨i, hi⟩ := Q_create_exists (s := s) (j := ⟨k, hk64⟩)
      (by rw [hhigh ⟨k, hk64⟩ (le_refl _)])
    have hik : i = ⟨k, hk64⟩ := by
      apply Fin.ext
      show i.val = k
      have h1 := Q_create_some hi
      have h2 := Q_create_lowest hi ⟨k, hk64⟩
      by_contra hne
      rcases Nat.lt_or_gt_of_ne hne with h | h
      · rw [(hlow i h).1] at h1
        simp only [BAD_QUEUE] at h1
        omega
      · exact h2 h (by rw [hhigh ⟨k, hk64⟩ (le_refl _)])
    subst hik
    have hcreate := create_queue_run hinv.1.1 hi
    rw [hcml, hcnt, inc16_of_lt (by omega), u16_of_lt (by show k * 80 < 65536; omega)]
      at hcreate
    refine ⟨{ s with
        queues := s.queues.set k ⟨k * 80, 0⟩
        Q_current_count := k + 1
        current_max_length := 80 }, ?_,
      ⟨⟨hwf.1, ?_, hwf.2.2⟩, rfl, rfl, Or.inl hlast, fun j hj => ?_, fun j hj => ?_⟩,
      create_queue_inv hinv (by rw [hcreate]; rfl), hqb, hlast⟩
    · rw [List.replicate_succ', run_ok_append, hrun]
      show run_ok [Call.create_queue] s = _
      simp only [run_ok, Call.returns, hcreate, Outcome.returned]
    · show (s.queues.set _ _).length = max_count
      rw [List.length_set]
      exact hwf.2.1
    · by_cases hjk : j.val = k
      · refine ⟨?_, by simp, by simp [slice]⟩
        show (s.queues.set k _).getD j.val _ = _
        rw [hjk, getD_set_same _ _ _ _ (by rw [hwf.2.1]; exact hk64)]
        simp
      · obtain ⟨hqj, hlj, hsj⟩ := hlow j (by omega)
        refine ⟨?_, hlj, hsj⟩
        show (s.queues.set k _).getD j.val _ = _
        rw [getD_set_ne _ _ _ _ _ hjk]
        exact hqj
    · show (s.queues.set k _).getD j.val _ = _
      rw [getD_set_ne _ _ _ _ _ (by omega)]
      exact hhigh j (by omega)

/-! ## Bounded multi-queue integrity (claim C20) -/

/-- A list of calls on the queues below `n`, at most `m` of them on each queue,
has at most `n * m` calls. -/
theorem length_le_of_filter_le (n m : Nat) (es : List (Fin 64 × Nat))
    (hes : ∀ e ∈ es, e.1.val < n)
    (hb : ∀ q : Fin 64, (es.filter (fun e => e.1 = q)).length ≤ m) : es.length ≤ n * m := by
  induction n generalizing es with
  | zero =>
    cases es with
    | nil => simp
    | cons e es => exact absurd (hes e (List.mem_cons_self _ _)) (by omega)
  | succ k ih =>
    rw [List.length_eq_length_filter_add (fun e => decide (e.1.val = k))]
    have hA : (es.filter (fun e => decide (e.1.val = k))).length ≤ m := by
      by_cases hk : k < 64
      · have h := hb ⟨k, hk⟩
        have e : (fun e : Fin 64 × Nat => decide (e.1.val = k))
            = (fun e => decide (e.1 = ⟨k, hk⟩)) := by
          funext e
          simp [Fin.ext_iff]
        rw [e]
        exact h
      · have : es.filter (fun e => decide (e.1.val = k)) = [] := by
          rw [List.filter_eq_nil_iff]
          intro e _
          have := e.1.isLt
          simp only [decide_eq_true_eq]
          omega
        rw [this]
        exact Nat.zero_le _
    have hB := ih (es.filter (fun e => !decide (e.1.val = k)))
      (by
        intro e he
        rw [List.mem_filter] at he
        have := hes e he.1
        have h2 := he.2
        simp only [Bool.not_eq_true', decide_eq_false_iff_not] at h2
        omega)
      (by
        intro q
        rw [List.filter_filter]
        have e : (fun a : Fin 64 × Nat => decide (a.1 = q) && !decide (a.1.val = k))
            = (fun a => (!decide (a.1.val = k)) && decide (a.1 = q)) := by
          funext a
          exact Bool.and_comm _ _
        rw [e, ← List.filter_filter]
        exact Nat.le_trans (List.length_filter_le _ _) (hb q))
    rw [Nat.succ_mul]
    omega

theorem enqueued_nil (q : Fin 64) : enqueued q [] = [] := rfl

theorem enqueued_cons_same (e : Fin 64 × Nat) (es : List (Fin 64 × Nat)) :
    enqueued e.1 (e :: es) = (e.2 % 256) :: enqueued e.1 es := by
  simp [enqueued, List.filter_cons]

theorem enqueued_cons_ne (q : Fin 64) (e : Fin 64 × Nat) (es : List (Fin 64 × Nat))
    (h : e.1 ≠ q) : enqueued q (e :: es) = enqueued q es := by
  simp [enqueued, List.filter_cons, h]

theorem enqueued_length (q : Fin 64) (es : List (Fin 64 × Nat)) :
    (enqueued q es).length = (es.filter (fun e => e.1 = q)).length := by
  simp [enqueued]

theorem filter_cons_same_length (e : Fin 64 × Nat) (es : List (Fin 64 × Nat)) :
    ((e :: es).filter (fun a => a.1 = e.1)).length
      = (es.filter (fun a => a.1 = e.1)).length + 1 := by
  simp [List.filter_cons]

theorem filter_cons_ne_length (q : Fin 64) (e : Fin 64 × Nat) (es : List (Fin 64 × Nat))
    (h : e.1 ≠ q) :
    ((e :: es).filter (fun a => a.1 = q)).length = (es.filter (fun a => a.1 = q)).length := by
  simp [List.filter_cons, h]

/-- A list of `enqueue_byte` calls on a uniform layout, each queue staying
within `1791 / n` bytes: every call returns, and each queue ends with its
former bytes followed by those enqueued into it. -/
theorem enqueue_all_uniform {n : Nat} (h1 : 1 ≤ n) (h22 : n ≤ 22)
    (es : List (Fin 64 × Nat)) (c : Nat) (s : Arena) (content : Fin 64 → List Nat)
    (hc : c = 80 ∨ c = 1791 / n) (hU : uniform_layout n c s content) (hinv : s.inv)
    (hqb : s.qb_current_count + es.length ≤ 1791)
    (hes : ∀ e ∈ es, e.1.val < n)
    (hb : ∀ q : Fin 64,
      (content q).length + (es.filter (fun e => e.1 = q)).length ≤ 1791 / n) :
    ∃ s1 c1, run_ok (enqueue_calls es) s = some s1 ∧ (c1 = 80 ∨ c1 = 1791 / n)
      ∧ uniform_layout n c1 s1 (fun q => content q ++ enqueued q es) := by
  induction es generalizing c s content with
  | nil =>
    refine ⟨s, c, rfl, hc, ?_⟩
    have e : (fun q => content q ++ enqueued q []) = content := by
      funext q
      rw [enqueued_nil, List.append_nil]
    rw [e]
    exact hU
  | cons e es ih =>
    have hbe := hb e.1
    rw [filter_cons_same_length] at hbe
    simp only [List.length_cons] at hqb
    obtain ⟨s1, c1, hrun, hc1, hU1, hinv1, hq1⟩ :=
      enqueue_uniform e.2 h1 h22 hc hU hinv
        (by rw [max_queued_byte_count_eq]; omega)
        (hes e (List.mem_cons_self _ _)) (by omega)
    obtain ⟨s2, c2, hrun2, hc2, hU2⟩ := ih c1 s1 _ hc1 hU1 hinv1 (by omega)
      (fun a ha => hes a (List.mem_cons_of_mem _ ha))
      (by
        intro q
        by_cases hq : q = e.1
        · subst hq
          rw [Function.update_same, List.length_append, List.length_singleton]
          omega
        · rw [Function.update_noteq hq]
          have := hb q
          rw [filter_cons_ne_length q e es (fun h => hq h.symm)] at this
          exact this)
    refine ⟨s2, c2, ?_, hc2, ?_⟩
    · simp only [enqueue_calls, List.map_cons, run_ok, Call.returns, hrun, Outcome.returned]
      exact hrun2
    · have e2 : (fun q => Function.update content e.1 (content e.1 ++ [e.2 % 256]) q
            ++ enqueued q es) = (fun q => content q ++ enqueued q (e :: es)) := by
        funext q
        by_cases hq : q = e.1
        · subst hq
          rw [Function.update_same, enqueued_cons_same, List.append_assoc]
          rfl
        · rw [Function.update_noteq hq, enqueued_cons_ne q e es (fun h => hq h.symm)]
      rw [← e2]
      exact hU2

theorem dequeued_nil (q : Fin 64) : dequeued q [] = [] := rfl

theorem dequeued_cons_same (q : Fin 64) (b : Nat) (rs : List (Fin 64 × Nat)) :
    dequeued q ((q, b) :: rs) = b :: dequeued q rs := by
  simp [dequeued, List.filter_cons]

theorem dequeued_cons_ne (q d : Fin 64) (b : Nat) (rs : List (Fin 64 × Nat)) (h : d ≠ q) :
    dequeued q ((d, b) :: rs) = dequeued q rs := by
  simp [dequeued, List.filter_cons, h]

/-- A list of `dequeue_byte` calls on a uniform layout, no queue being asked
for more bytes than it holds: every call returns, and the bytes returned for
each queue are the first bytes it held, in order. -/
theorem dequeue_all_uniform {n c : Nat} (hnc : n * c ≤ max_queued_byte_count)
    (ds : List (Fin 64)) (s : Arena) (content : Fin 64 → List Nat)
    (hU : uniform_layout n c s content) (hds : ∀ q ∈ ds, q.val < n)
    (hcount : ∀ q : Fin 64, ds.count q ≤ (content q).length) :
    ∃ rs s2, dequeue_all ds s = some (rs, s2)
      ∧ ∀ q : Fin 64, dequeued q rs = (content q).take (ds.count q) := by
  induction ds generalizing s content with
  | nil =>
    refine ⟨[], s, rfl, fun q => ?_⟩
    rw [dequeued_nil, List.count_nil, List.take_zero]
  | cons d ds ih =>
    have hd := hcount d
    rw [List.count_cons_self] at hd
    cases hcont : content d with
    | nil =>
      rw [hcont] at hd
      simp at hd
    | cons b rest =>
      rw [hcont] at hd
      simp only [List.length_cons] at hd
      obtain ⟨s1, hrun, hU1⟩ := dequeue_uniform hU hnc (hds d (List.mem_cons_self _ _)) hcont
      obtain ⟨rs, s2, hrun2, hres⟩ := ih s1 _ hU1
        (fun q hq => hds q (List.mem_cons_of_mem _ hq))
        (by
          intro q
          by_cases hq : q = d
          · subst hq
            rw [Function.update_same]
            omega
          · rw [Function.update_noteq hq]
            have := hcount q
            rw [List.count_cons_of_ne hq] at this
            exact this)
      refine ⟨(d, b) :: rs, s2, ?_, fun q => ?_⟩
      · simp only [dequeue_all, hrun, hrun2, Option.map_some']
      · by_cases hq : q = d
        · subst hq
          rw [dequeued_cons_same, hres, Function.update_same, List.count_cons_self, hcont,
            List.take_succ_cons]
        · rw [dequeued_cons_ne q d b rs (fun h => hq h.symm), hres, Function.update_noteq hq,
            List.count_cons_of_ne hq]

/-- Claim C20. For `1 ≤ n ≤ 22`: the `n` calls of `create_queue` on the fresh
arena return and make exactly the slots below `n` valid; then any list `es`
of `enqueue_byte` calls on these queues, with at most `1791 / n` calls on
each queue, returns call by call; then any list `ds` of `dequeue_byte` calls
that asks no queue for more bytes than were enqueued into it returns call by
call, and the bytes returned for each queue are the first bytes enqueued into
it, in the order of their enqueueing (all of them when the queue is dequeued
until it is empty). A byte `b` is passed as an `unsigned char`, `b % 256`. -/
theorem bounded_multi_queue_integrity (n : Nat) (h1 : 1 ≤ n) (h22 : n ≤ 22)
    (es : List (Fin 64 × Nat)) (ds : List (Fin 64))
    (hes : ∀ e ∈ es, e.1.val < n)
    (hbound : ∀ q : Fin 64, (es.filter (fun e => e.1 = q)).length ≤ 1791 / n)
    (hds : ∀ q : Fin 64, ds.count q ≤ (es.filter (fun e => e.1 = q)).length) :
    ∃ s0 s1 rs s2,
      run_ok (List.replicate n Call.create_queue) fresh = some s0
      ∧ (∀ q : Fin 64, (s0.Qat q).is_valid = true ↔ q.val < n)
      ∧ run_ok (enqueue_calls es) s0 = some s1
      ∧ dequeue_all ds s1 = some (rs, s2)
      ∧ ∀ q : Fin 64, dequeued q rs = (enqueued q es).take (ds.count q) := by
  obtain ⟨hm81, hnm⟩ := quota_uniform n h1 h22
  obtain ⟨s0, hrun0, hU0, hinv0, hqb0, -⟩ := create_uniform n (by omega)
  have hlen := length_le_of_filter_le n (1791 / n) es hes hbound
  obtain ⟨s1, c1, hrun1, hc1, hU1⟩ := enqueue_all_uniform h1 h22 es 80 s0 (fun _ => [])
    (Or.inl rfl) hU0 hinv0 (by omega) hes (by
      intro q
      simpa using hbound q)
  have hnc1 : n * c1 ≤ max_queued_byte_count := by
    rw [max_queued_byte_count_eq]
    rcases hc1 with rfl | rfl <;> omega
  have hdsn : ∀ q ∈ ds, q.val < n := by
    intro q hq
    have hpos : 0 < (es.filter (fun e => e.1 = q)).length :=
      Nat.lt_of_lt_of_le (List.count_pos_iff.mpr hq) (hds q)
    obtain ⟨e, he⟩ := List.exists_mem_of_length_pos hpos
    rw [List.mem_filter] at he
    have := hes e he.1
    have h2 : e.1 = q := by simpa using he.2
    rw [← h2]
    exact this
  obtain ⟨rs, s2, hrun2, hres⟩ := dequeue_all_uniform hnc1 ds s1 _ hU1 hdsn (by
    intro q
    rw [List.nil_append, enqueued_length]
    exact hds q)
  refine ⟨s0, s1, rs, s2, hrun0, fun q => ?_, hrun1, hrun2, fun q => ?_⟩
  · obtain ⟨-, -, -, -, hlow, hhigh⟩ := hU0
    constructor
    · intro hv
      by_contra hge
      rw [hhigh q (by omega)] at hv
      simp [Q.is_valid, Q.length_is_valid] at hv
    · intro hq
      rw [(hlow q hq).1, is_valid_iff]
      simp only [List.length_nil, BAD_QUEUE]
      constructor <;> omega
  · rw [hres q, List.nil_append]

theorem bounded_multi_queue_integrity_witness :
    ∃ s0 s1 rs s2,
      run_ok (List.replicate 2 Call.create_queue) fresh = some s0
      ∧ (∀ q : Fin 64, (s0.Qat q).is_valid = true ↔ q.val < 2)
      ∧ run_ok (enqueue_calls [(0, 5), (1, 6), (0, 7)]) s0 = some s1
      ∧ dequeue_all [1, 0, 0] s1 = some (rs, s2)
      ∧ ∀ q : Fin 64, dequeued q rs
          = (enqueued q [(0, 5), (1, 6), (0, 7)]).take (List.count q [1, 0, 0]) :=
  bounded_multi_queue_integrity 2 (by decide) (by decide) [(0, 5), (1, 6), (0, 7)] [1, 0, 0]
    (by decide) (by decide) (by decide)

/-! ## The compaction pass on offsets inside the pool -/

/-- The first loop ends normally when every non-empty valid queue lies inside
the pool, every valid queue gets an offset inside the pool and the
reservations fit. -/
theorem copy_out_runs_of_starts (cml : Nat) (qs : List Q)
    (slot cumul : Nat) (offs temp pool : List Nat)
    (hlen : ∀ q ∈ qs, q.is_valid = true → q.length ≤ max_queued_byte_count)
    (hacc : ∀ q ∈ qs, q.is_valid = true →
      q.length = 0 ∨ q.start_offset + q.length ≤ max_queued_byte_count)
    (hstart : ∀ j, j < qs.length → (qs.getD j ⟨BAD_QUEUE, BAD_QUEUE⟩).is_valid = true →
      cumul + reserved_before cml qs j < max_queued_byte_count)
    (htot : cumul + reserved_before cml qs qs.length ≤ max_queued_byte_count) :
    ∃ o t p, copy_out cml qs slot cumul offs temp pool = .done o t p := by
  induction qs generalizing slot cumul offs temp pool with
  | nil => exact ⟨_, _, _, rfl⟩
  | cons q qs ih =>
    have hlen1 : ∀ q1 ∈ qs, q1.is_valid = true → q1.length ≤ max_queued_byte_count :=
      fun q1 hq1 => hlen q1 (List.mem_cons_of_mem _ hq1)
    have hacc1 : ∀ q1 ∈ qs, q1.is_valid = true →
        q1.length = 0 ∨ q1.start_offset + q1.length ≤ max_queued_byte_count :=
      fun q1 hq1 => hacc q1 (List.mem_cons_of_mem _ hq1)
    rw [List.length_cons, reserved_before_cons] at htot
    by_cases hv : q.is_valid = true
    · rw [if_pos hv] at htot
      have h0 := hstart 0 (by simp) (by simpa using hv)
      rw [reserved_before_zero] at h0
      rw [copy_out_valid_run hv (hlen q (List.mem_cons_self _ _) hv) (by omega)
        (hacc q (List.mem_cons_self _ _) hv) (by omega)]
      refine ih _ _ _ _ _ hlen1 hacc1 (fun j hj hjv => ?_) (by omega)
      have := hstart (j + 1) (by simpa using hj) (by simpa using hjv)
      rw [reserved_before_cons, if_pos hv] at this
      omega
    · rw [if_neg hv] at htot
      rw [copy_out_invalid_step hv]
      refine ih _ _ _ _ _ hlen1 hacc1 (fun j hj hjv => ?_) (by omega)
      have := hstart (j + 1) (by simpa using hj) (by simpa using hjv)
      rw [reserved_before_cons, if_neg hv] at this
      omega

/-- The compaction pass runs to completion when every non-empty valid queue
lies inside the pool, every valid queue gets an offset inside the pool and the
reservations fit. -/
theorem compaction_pass_runs_of_starts (s : Arena)
    (hq : s.queues.length = max_count) (hp : s.queued_bytes.length = max_queued_byte_count)
    (hcml : s.current_max_length ≤ max_queued_byte_count)
    (hlen : ∀ q ∈ s.queues, q.is_valid = true → q.length ≤ max_queued_byte_count)
    (hacc : ∀ q ∈ s.queues, q.is_valid = true →
      q.length = 0 ∨ q.start_offset + q.length ≤ max_queued_byte_count)
    (hstart : ∀ j, (s.queues.getD j ⟨BAD_QUEUE, BAD_QUEUE⟩).is_valid = true →
      reserved_before s.current_max_length s.queues j < max_queued_byte_count)
    (htot : reserved_before s.current_max_length s.queues s.queues.length
      ≤ max_queued_byte_count) :
    ∃ s1, compaction_pass s = .ok () s1 := by
  have ht : (List.replicate tempCopy_size BAD_VALUE).length = tempCopy_size :=
    List.length_replicate _ _
  have hso : 0 + s.queues.length ≤ (BAD_QUEUE :: List.replicate 63 0).length := by
    rw [hq, List.length_cons, List.length_replicate]
    simp [max_count]
  obtain ⟨o, t, p, hco⟩ := copy_out_runs_of_starts s.current_max_length s.queues 0 0
    (BAD_QUEUE :: List.replicate 63 0) (List.replicate tempCopy_size BAD_VALUE) s.queued_bytes
    hlen hacc (fun j _ hjv => by rw [Nat.zero_add]; exact hstart j hjv) (by omega)
  obtain ⟨a1, a2, -⟩ := copy_out_spec s.current_max_length hcml s.queues 0 0 _ _ _ _ _ _
    hlen hp (Nat.zero_le _) hso hco
  have hsz := copy_out_sized s.current_max_length s.queues 0 0
    (BAD_QUEUE :: List.replicate 63 0) _ _ ht hp
  rw [hco] at hsz
  obtain ⟨qs1, pool1, e1, -⟩ :=
    copy_back_spec s.current_max_length o t s.queues 0 0 p hlen hsz.1 hsz.2
      (fun j hj hjv => (a2 j hj hjv).1) a1
  refine ⟨{ s with queues := qs1, queued_bytes := pool1 }, ?_⟩
  unfold compaction_pass
  simp only [hco, e1]

/-! ## One long queue and empty ones -/

theorem MAX_zero (c : Nat) : MAX c 0 = c := by
  unfold MAX
  split <;> omega

theorem head_slot (m L c : Nat) (s : Arena) (hL : head_layout m L c s) (hm : m ≤ 64)
    (hlen : L ≤ max_queued_byte_count) (j : Nat) :
    (j = 0 → s.queues.getD j ⟨BAD_QUEUE, BAD_QUEUE⟩ = ⟨0, L⟩ ∧ Q.is_valid ⟨0, L⟩ = true)
    ∧ (1 ≤ j → j < m → (s.queues.getD j ⟨BAD_QUEUE, BAD_QUEUE⟩).is_valid = true
        ∧ (s.queues.getD j ⟨BAD_QUEUE, BAD_QUEUE⟩).length = 0)
    ∧ (m ≤ j → 1 ≤ j → s.queues.getD j ⟨BAD_QUEUE, BAD_QUEUE⟩ = ⟨BAD_QUEUE, BAD_QUEUE⟩) := by
  obtain ⟨hwf, -, -, -, h0, hlow, hhigh⟩ := hL
  refine ⟨fun hj => ?_, fun hj1 hjm => ?_, fun hj _ => ?_⟩
  · subst hj
    refine ⟨h0, ?_⟩
    rw [is_valid_iff]
    rw [max_queued_byte_count_eq] at hlen
    simp only [BAD_QUEUE]
    constructor <;> omega
  · exact hlow ⟨j, by omega⟩ hj1 hjm
  · by_cases h64 : j < 64
    · exact hhigh ⟨j, h64⟩ hj
    · rw [List.getD_eq_default _ _ (by rw [hwf.2.1]; simp only [max_count]; omega)]

/-- The reservations below slot `j` in a `head_layout`, for any quota `c1`. -/
theorem head_reserved (m L c c1 : Nat) (s : Arena) (hL : head_layout m L c s) (h1 : 1 ≤ m)
    (hm : m ≤ 64) (hlen : L ≤ max_queued_byte_count) (j : Nat) :
    reserved_before c1 s.queues j
      = if j = 0 then 0 else MAX c1 L + (min j m - 1) * c1 := by
  induction j with
  | zero => simp [reserved_before_zero]
  | succ k ih =>
    obtain ⟨s0, s1, s2⟩ := head_slot m L c s hL hm hlen k
    rw [if_neg (by omega)]
    by_cases hk0 : k = 0
    · obtain ⟨e1, e2⟩ := s0 hk0
      rw [reserved_before_succ c1 s.queues k (by rw [e1]; exact e2), ih, if_pos hk0, e1]
      subst hk0
      rw [Nat.min_eq_left (by omega)]
      simp
    · rw [if_neg hk0] at ih
      by_cases hkm : k < m
      · obtain ⟨e1, e2⟩ := s1 (by omega) hkm
        rw [reserved_before_succ c1 s.queues k e1, ih, e2, MAX_zero,
          Nat.min_eq_left (by omega), Nat.min_eq_left (by omega)]
        have : k + 1 - 1 = (k - 1) + 1 := by omega
        rw [this, Nat.succ_mul]
        omega
      · have e := s2 (by omega) (by omega)
        rw [reserved_before_succ_invalid c1 s.queues k
          (by rw [e]; simp [Q.is_valid, Q.length_is_valid]), ih,
          Nat.min_eq_right (by omega), Nat.min_eq_right (by omega)]

/-- The rebalancing routine before a byte is appended to queue 0 of a
`head_layout`: when `head_quota` gives a quota, the routine returns and leaves
a `head_layout` under that quota. -/
theorem head_bound_check {m L c c1 : Nat} {s : Arena} (h1 : 1 ≤ m) (hm : m ≤ 64)
    (hL : head_layout m L c s) (hinv : s.inv)
    (hq : head_quota m L c s.last_Q_count = some c1) :
    ∃ s0, bound_check_and_memory_rearrange s 0 = .ok () s0
      ∧ head_layout m L c1 s0 ∧ s0.last_Q_count = some m
      ∧ L + 1 ≤ max_queued_byte_count := by
  have hL0 := hL
  obtain ⟨hwf, hcnt, hqb, hcml, h0, hlow, hhigh⟩ := hL
  unfold head_quota at hq
  by_cases hL1 : L + 1 ≤ max_queued_byte_count
  swap
  · simp [hL1] at hq
  by_cases hc0 : c = 0
  · simp [hL1, hc0] at hq
  simp only [hL1, not_true_eq_false, if_false, hc0] at hq
  have hLle : L ≤ max_queued_byte_count := by omega
  have hmu : memory_used s = L := (memory_used_of_inv hinv).trans hqb
  have hqb1 : s.qb_current_count + 1 ≤ max_queued_byte_count := by rw [hqb]; exact hL1
  have hmu2 : s.qb_current_count = memory_used s := by rw [hqb, hmu]
  by_cases hnd : L + 1 ≤ c
      ∧ ¬ (((s.last_Q_count.getD m) != m) = true ∧ m > u16 (max_queued_byte_count / c))
  · rw [if_pos hnd] at hq
    simp only [Option.some.injEq] at hq
    subst hq
    have hnd1 : nothing_to_do s 0 := by
      unfold nothing_to_do
      rw [h0, hmu, hcml, hcnt]
      refine ⟨hnd.1, ?_, hnd.2⟩
      rw [u16_of_lt (by rw [max_queued_byte_count_eq] at hL1; omega)]
      exact hL1
    refine ⟨_, bound_check_nothing_to_do hnd1 hqb1 hmu2,
      ⟨hwf, hcnt, hqb, hcml, h0, hlow, hhigh⟩, by rw [hcnt], hL1⟩
  · rw [if_neg hnd] at hq
    have hnd1 : ¬ nothing_to_do s 0 := by
      unfold nothing_to_do
      rw [h0, hmu, hcml, hcnt]
      exact fun h => hnd ⟨h.1, h.2.2⟩
    have huor : memory_used_or_reserved s = u16 (MAX c L + (m - 1) * c) := by
      rw [memory_used_or_reserved_eq, hcml, head_reserved m L c c s hL0 h1 hm hLle, hwf.2.1]
      simp only [max_count]
      rw [if_neg (by decide), Nat.min_eq_right hm]
      rfl
    cases hr : resize_opt (u16 (MAX c L + (m - 1) * c)) m with
    | none => simp [hr] at hq
    | some r =>
      simp only [hr] at hq
      split at hq
      swap
      · simp at hq
      rename_i hcond
      simp only [Option.some.injEq] at hq
      obtain ⟨hc1, hc2, hc3⟩ := hcond
      rw [hq] at hc1 hc2 hc3
      have hopt : optimal_queue_max_length s r = c1 := by
        unfold optimal_queue_max_length
        rw [hcml]
        exact hq
      have hcomp := bound_check_compacts hnd1 hqb1 hmu2 (by rw [hcml]; exact hc0)
        (by rw [huor, hcnt]; exact hr) (by rw [hopt, hcnt]; exact hc1)
      rw [hopt] at hcomp
      have hc1le : c1 ≤ max_queued_byte_count := quota_le_of_mul_le hc1 (by omega)
      have hres := head_reserved m L c c1 s hL0 h1 hm hLle
      have hslot := head_slot m L c s hL0 hm hLle
      have hjm : ∀ j, (s.queues.getD j ⟨BAD_QUEUE, BAD_QUEUE⟩).is_valid = true → j < m := by
        intro j hv
        by_contra hge
        by_cases hj0 : j = 0
        · omega
        · rw [(hslot j).2.2 (by omega) (by omega)] at hv
          simp [Q.is_valid, Q.length_is_valid] at hv
      have hacc : ∀ q ∈ s.queues, q.is_valid = true →
          q.length = 0 ∨ q.start_offset + q.length ≤ max_queued_byte_count := by
        intro q hq hv
        obtain ⟨k, hk, rfl⟩ := List.mem_iff_getElem.mp hq
        rw [← List.getD_eq_getElem _ ⟨BAD_QUEUE, BAD_QUEUE⟩ hk] at hv ⊢
        by_cases hk0 : k = 0
        · rw [((hslot k).1 hk0).1]
          right
          show 0 + L ≤ max_queued_byte_count
          omega
        · exact Or.inl ((hslot k).2.1 (by omega) (hjm k hv)).2
      have htot : reserved_before c1 s.queues s.queues.length ≤ max_queued_byte_count := by
        rw [hres, hwf.2.1]
        simp only [max_count]
        rw [if_neg (by decide), Nat.min_eq_right hm]
        exact hc2
      have hstart : ∀ j, (s.queues.getD j ⟨BAD_QUEUE, BAD_QUEUE⟩).is_valid = true →
          reserved_before c1 s.queues j < max_queued_byte_count := by
        intro j hv
        rw [hres]
        by_cases hj0 : j = 0
        · rw [if_pos hj0, max_queued_byte_count_eq]
          decide
        · have hjlt := hjm j hv
          rw [if_neg hj0, Nat.min_eq_left (by omega)]
          have h3 := hc3 (by omega)
          have : (j - 1) * c1 ≤ (m - 2) * c1 := Nat.mul_le_mul_right c1 (by omega)
          omega
      obtain ⟨s0, hs0⟩ := compaction_pass_runs_of_starts
        { s with last_Q_count := some s.Q_current_count, current_max_length := c1 }
        hwf.2.1 hwf.2.2 hc1le (lens_le_of_inv hinv) hacc hstart htot
      obtain ⟨g1, g2, g3, g4, g5, g6, g7, -, gtab, -⟩ :=
        compaction_pass_spec
          (s := { s with last_Q_count := some s.Q_current_count, current_max_length := c1 })
          hwf.2.1 hwf.2.2 hc1le (lens_le_of_inv hinv) hs0
      dsimp only at g3 g4 g5 g6 g7 gtab
      refine ⟨s0, by rw [hcomp, hs0], ⟨⟨g3.trans hwf.1, g1, g2⟩, g4.trans hcnt, g5.trans hqb,
        g6, ?_, fun j hj1 hjm1 => ?_, fun j hj => ?_⟩, by rw [g7, hcnt], hL1⟩
      · have ht := gtab 0
        obtain ⟨e1, e2⟩ := (hslot 0).1 rfl
        rw [e1, if_pos e2, reserved_before_zero] at ht
        exact ht
      · obtain ⟨e1, e2⟩ := (hslot j.val).2.1 hj1 hjm1
        have ht := gtab j.val
        rw [if_pos e1, e2] at ht
        have hle := Nat.le_trans (reserved_before_le c1 s.queues j.val) htot
        have e : s0.Qat j = ⟨reserved_before c1 s.queues j.val, 0⟩ := ht
        rw [e]
        refine ⟨?_, rfl⟩
        rw [is_valid_iff]
        rw [max_queued_byte_count_eq] at hle
        simp only [BAD_QUEUE]
        constructor <;> omega
      · have e := (hslot j.val).2.2 hj (by omega)
        have ht := gtab j.val
        rw [e, if_neg (by simp [Q.is_valid, Q.length_is_valid])] at ht
        exact ht

/-- Appending one byte to queue 0 of a `head_layout` that has room for it. -/
theorem head_store {m L c : Nat} {s0 : Arena} (b : Nat) (hL : head_layout m L c s0)
    (hL1 : L + 1 ≤ max_queued_byte_count) :
    (s0.Qat 0).start_offset + (s0.Qat 0).length < max_queued_byte_count
    ∧ head_layout m (L + 1) c
        { s0 with
          queues := s0.queues.set (0 : Fin 64).val
            { start_offset := (s0.Qat 0).start_offset, length := inc16 (s0.Qat 0).length }
          queued_bytes :=
            s0.queued_bytes.set ((s0.Qat 0).start_offset + (s0.Qat 0).length) (b % 256)
          qb_current_count := inc16 s0.qb_current_count } := by
  obtain ⟨hwf, hcnt, hqb, hcml, h0, hlow, hhigh⟩ := hL
  rw [h0]
  dsimp only
  rw [max_queued_byte_count_eq] at hL1
  refine ⟨by rw [max_queued_byte_count_eq]; omega, ⟨hwf.1, ?_, ?_⟩, hcnt, ?_, hcml, ?_,
    fun j hj1 hjm => ?_, fun j hj => ?_⟩
  · show (s0.queues.set _ _).length = max_count
    rw [List.length_set]
    exact hwf.2.1
  · show (s0.queued_bytes.set _ _).length = max_queued_byte_count
    rw [List.length_set]
    exact hwf.2.2
  · show inc16 s0.qb_current_count = L + 1
    rw [hqb, inc16_of_lt (by omega)]
  · show (s0.queues.set 0 _).getD 0 _ = _
    rw [getD_set_same _ _ _ _ (by rw [hwf.2.1]; decide), inc16_of_lt (by omega)]
  · have e : (Arena.Qat { s0 with
          queues := s0.queues.set (0 : Fin 64).val ⟨0, inc16 L⟩
          queued_bytes := s0.queued_bytes.set (0 + L) (b % 256)
          qb_current_count := inc16 s0.qb_current_count } j) = s0.Qat j :=
      getD_set_ne s0.queues j.val 0 _ _ (by omega)
    rw [e]
    exact hlow j hj1 hjm
  · by_cases hj0 : j.val = 0
    · have h00 := hhigh 0 (by
        show m ≤ 0
        omega)
      rw [h0] at h00
      simp [BAD_QUEUE] at h00
    · have e : (Arena.Qat { s0 with
            queues := s0.queues.set (0 : Fin 64).val ⟨0, inc16 L⟩
            queued_bytes := s0.queued_bytes.set (0 + L) (b % 256)
            qb_current_count := inc16 s0.qb_current_count } j) = s0.Qat j :=
        getD_set_ne s0.queues j.val 0 _ _ hj0
      rw [e]
      exact hhigh j hj

/-- One `enqueue_byte` on queue 0 of a `head_layout`, by the numbers. -/
theorem head_enqueue {m L c c1 : Nat} {s : Arena} (b : Nat) (h1 : 1 ≤ m) (hm : m ≤ 64)
    (hL : head_layout m L c s) (hinv : s.inv)
    (hq : head_quota m L c s.last_Q_count = some c1) :
    ∃ s1, enqueue_byte s (some 0) b = .ok () s1
      ∧ head_layout m (L + 1) c1 s1 ∧ s1.inv ∧ s1.last_Q_count = some m := by
  obtain ⟨s0, hb, hL0, hlast, hL1⟩ := head_bound_check h1 hm hL hinv hq
  obtain ⟨hroom, hL2⟩ := head_store b hL0 hL1
  have hv : (s.Qat 0).is_valid = true := by
    rw [hL.2.2.2.2.1, is_valid_iff]
    rw [max_queued_byte_count_eq] at hL1
    simp only [BAD_QUEUE]
    constructor <;> omega
  have hrun := enqueue_byte_run b hv (by rw [hL.2.2.1]; omega) hb hroom
  exact ⟨_, hrun, hL2, enqueue_byte_inv hinv (by rw [hrun]; rfl), hlast⟩

/-- A run of `enqueue_byte` calls on queue 0 of a `head_layout`, by the numbers. -/
theorem head_enqueue_run {m : Nat} (b : Nat) (h1 : 1 ≤ m) (hm : m ≤ 64) (k : Nat)
    (L c : Nat) (s : Arena) (L1 c1 : Nat) (hL : head_layout m L c s) (hinv : s.inv)
    (hk : 1 ≤ k) (hrun : head_run m k L c s.last_Q_count = some (L1, c1)) :
    ∃ s1, run_ok (List.replicate k (Call.enqueue_byte (some 0) b)) s = some s1
      ∧ head_layout m L1 c1 s1 ∧ s1.inv ∧ s1.last_Q_count = some m := by
  induction k generalizing L c s with
  | zero => omega
  | succ n ih =>
    simp only [head_run] at hrun
    cases hq : head_quota m L c s.last_Q_count with
    | none => simp [hq] at hrun
    | some c2 =>
      simp only [hq] at hrun
      obtain ⟨s1, hs1, hL1, hinv1, hlast1⟩ := head_enqueue b h1 hm hL hinv hq
      have hstep : run_ok (List.replicate (n + 1) (Call.enqueue_byte (some 0) b)) s
          = run_ok (List.replicate n (Call.enqueue_byte (some 0) b)) s1 := by
        simp only [List.replicate_succ, run_ok, Call.returns, hs1, Outcome.returned]
      rw [hstep]
      by_cases hn : n = 0
      · subst hn
        simp only [head_run, Option.some.injEq, Prod.mk.injEq] at hrun
        obtain ⟨rfl, rfl⟩ := hrun
        exact ⟨s1, rfl, hL1, hinv1, hlast1⟩
      · rw [← hlast1] at hrun
        exact ih (L + 1) c2 s1 hL1 hinv1 (by omega) hrun

/-- The slot found by `Q::create`, from the table. -/
theorem Q_create_eq {s : Arena} {k : Fin 64}
    (hlow : ∀ j : Fin 64, j < k → (s.Qat j).start_offset ≠ BAD_QUEUE)
    (hk : (s.Qat k).start_offset = BAD_QUEUE) : Q.create s = some k := by
  obtain ⟨i, hi⟩ := Q_create_exists hk
  have h1 := Q_create_some hi
  have h2 := Q_create_lowest hi
  have : i = k := by
    by_contra hne
    rcases Fin.lt_or_lt_of_ne hne with h | h
    · exact hlow i h h1
    · exact h2 k h hk
  rw [hi, this]

theorem head_of_uniform {n : Nat} {s : Arena} (h1 : 1 ≤ n) (hn : n ≤ 64)
    (hU : uniform_layout n 80 s (fun _ => [])) (hqb : s.qb_current_count = 0) :
    head_layout n 0 80 s := by
  obtain ⟨hwf, hcnt, hcml, -, hlow, hhigh⟩ := hU
  refine ⟨hwf, hcnt, hqb, hcml, ?_, fun j hj1 hjn => ?_, hhigh⟩
  · have := (hlow 0 (by show 0 < n; omega)).1
    simpa using this
  · have := (hlow j hjn).1
    rw [this]
    refine ⟨?_, rfl⟩
    rw [is_valid_iff]
    have hj := j.isLt
    simp only [List.length_nil, BAD_QUEUE]
    constructor <;> omega

/-- The start offsets of the valid slots of a `head_layout` are not `BAD_QUEUE`. -/
theorem head_offsets {m L c : Nat} {s : Arena} (hL : head_layout m L c s)
    (j : Fin 64) (hj : j.val < m) : (s.Qat j).start_offset ≠ BAD_QUEUE := by
  obtain ⟨-, -, -, -, h0, hlow, -⟩ := hL
  by_cases hj0 : j.val = 0
  · have : j = 0 := Fin.ext hj0
    rw [this, h0]
    show (0 : Nat) ≠ BAD_QUEUE
    decide
  · exact ((is_valid_iff _).mp (hlow j (by omega) hj).1).2

/-- One `create_queue` on a `head_layout` with a free slot whose speculative
offset is not `BAD_QUEUE`. -/
theorem head_create {m L c : Nat} {s : Arena} (h1 : 1 ≤ m) (hm : m < 64)
    (hL : head_layout m L c s) (hinv : s.inv) (hoff : u16 (m * c) ≠ BAD_QUEUE) :
    ∃ s1, create_queue s = .ok ⟨m, hm⟩ s1 ∧ head_layout (m + 1) L c s1 ∧ s1.inv
      ∧ s1.last_Q_count = s.last_Q_count := by
  have hL0 := hL
  obtain ⟨hwf, hcnt, hqb, hcml, h0, hlow, hhigh⟩ := hL
  have hi : Q.create s = some ⟨m, hm⟩ :=
    Q_create_eq (fun j hj => head_offsets hL0 j hj) (by rw [hhigh ⟨m, hm⟩ (le_refl _)])
  have hcreate := create_queue_run hinv.1.1 hi
  refine ⟨_, hcreate, ⟨⟨hwf.1, ?_, hwf.2.2⟩, ?_, hqb, hcml, ?_, fun j hj1 hjm => ?_,
    fun j hj => ?_⟩, create_queue_inv hinv (by rw [hcreate]; rfl), rfl⟩
  · show (s.queues.set _ _).length = max_count
    rw [List.length_set]
    exact hwf.2.1
  · show inc16 s.Q_current_count = m + 1
    rw [hcnt, inc16_of_lt (by omega)]
  · show (s.queues.set m _).getD 0 _ = _
    rw [getD_set_ne _ _ _ _ _ (by omega)]
    exact h0
  · by_cases hjm2 : j.val = m
    · have e : (s.queues.set m ⟨u16 (m * s.current_max_length), 0⟩).getD j.val
          ⟨BAD_QUEUE, BAD_QUEUE⟩ = ⟨u16 (m * s.current_max_length), 0⟩ := by
        rw [hjm2]
        exact getD_set_same _ _ _ _ (by rw [hwf.2.1]; exact hm)
      show ((s.queues.set m _).getD j.val _).is_valid = true
        ∧ ((s.queues.set m _).getD j.val _).length = 0
      rw [e, hcml]
      refine ⟨?_, rfl⟩
      rw [is_valid_iff]
      exact ⟨by show (0 : Nat) ≠ BAD_QUEUE; decide, hoff⟩
    · have e : (s.queues.set m ⟨u16 (m * s.current_max_length), 0⟩).getD j.val
          ⟨BAD_QUEUE, BAD_QUEUE⟩ = s.Qat j := getD_set_ne _ _ _ _ _ hjm2
      show ((s.queues.set m _).getD j.val _).is_valid = true
        ∧ ((s.queues.set m _).getD j.val _).length = 0
      rw [e]
      exact hlow j hj1 (by omega)
  · show (s.queues.set m _).getD j.val _ = _
    rw [getD_set_ne _ _ _ _ _ (by omega)]
    exact hhigh j (by omega)

/-- A run of `create_queue` calls on a `head_layout`. -/
theorem head_create_run {L c : Nat} (k : Nat) (m : Nat) (s : Arena) (h1 : 1 ≤ m)
    (hm : m + k ≤ 64) (hL : head_layout m L c s) (hinv : s.inv)
    (hoff : ∀ j, m ≤ j → j < m + k → u16 (j * c) ≠ BAD_QUEUE) :
    ∃ s1, run_ok (List.replicate k Call.create_queue) s = some s1
      ∧ head_layout (m + k) L c s1 ∧ s1.inv ∧ s1.last_Q_count = s.last_Q_count := by
  induction k generalizing m s with
  | zero => exact ⟨s, rfl, hL, hinv, rfl⟩
  | succ n ih =>
    obtain ⟨s1, hs1, hL1, hinv1, hlast1⟩ := head_create h1 (by omega) hL hinv
      (hoff m (le_refl _) (by omega))
    obtain ⟨s2, hs2, hL2, hinv2, hlast2⟩ := ih (m + 1) s1 (by omega) (by omega) hL1 hinv1
      (fun j hj1 hj2 => hoff j (by omega) (by omega))
    refine ⟨s2, ?_, by rw [show m + (n + 1) = m + 1 + n by omega]; exact hL2, hinv2,
      hlast2.trans hlast1⟩
    simp only [List.replicate_succ, run_ok, Call.returns, hs1, Outcome.returned]
    exact hs2

/-- The call `destroy_queue` on the last, empty queue of a `head_layout`. -/
theorem head_destroy {m L c : Nat} {s : Arena} (h1 : 1 ≤ m) (hm : m < 64)
    (hL : head_layout (m + 1) L c s) (hinv : s.inv) :
    ∃ s1, destroy_queue s (some ⟨m, hm⟩) = .ok () s1 ∧ head_layout m L c s1 ∧ s1.inv
      ∧ s1.last_Q_count = s.last_Q_count := by
  obtain ⟨hwf, hcnt, hqb, hcml, h0, hlow, hhigh⟩ := hL
  obtain ⟨hv, hl⟩ := hlow ⟨m, hm⟩ h1 (by show m < m + 1; omega)
  have hlv : (s.Qat ⟨m, hm⟩).length_is_valid = true := by
    simp [Q.is_valid] at hv
    exact hv.1
  have hrun : destroy_queue s (some ⟨m, hm⟩)
      = .ok () { s with
          queues := s.queues.set m ⟨BAD_QUEUE, BAD_QUEUE⟩
          Q_current_count := dec16 s.Q_current_count } := by
    simp [destroy_queue, Q.destroy, in_valid_range_eq, hv, destroy_queued_bytes, hlv, hl,
      destroy_loop, Arena.setQ]
  refine ⟨_, hrun, ⟨⟨hwf.1, ?_, hwf.2.2⟩, ?_, hqb, hcml, ?_, fun j hj1 hjm => ?_,
    fun j hj => ?_⟩, destroy_queue_inv hinv (by rw [hrun]; rfl), rfl⟩
  · show (s.queues.set _ _).length = max_count
    rw [List.length_set]
    exact hwf.2.1
  · show dec16 s.Q_current_count = m
    rw [hcnt, dec16_of_pos (by omega) (by omega)]
    omega
  · show (s.queues.set m _).getD 0 _ = _
    rw [getD_set_ne _ _ _ _ _ (by omega)]
    exact h0
  · have e : (s.queues.set m ⟨BAD_QUEUE, BAD_QUEUE⟩).getD j.val ⟨BAD_QUEUE, BAD_QUEUE⟩
        = s.Qat j := getD_set_ne _ _ _ _ _ (by omega)
    show ((s.queues.set m _).getD j.val _).is_valid = true
      ∧ ((s.queues.set m _).getD j.val _).length = 0
    rw [e]
    exact hlow j hj1 (by omega)
  · show (s.queues.set m _).getD j.val _ = _
    by_cases hjm : j.val = m
    · rw [hjm, getD_set_same _ _ _ _ (by rw [hwf.2.1]; exact hm)]
    · rw [getD_set_ne _ _ _ _ _ hjm]
      exact hhigh j (by omega)

/-- With a quota of 0 the rebalancing routine divides by zero. -/
theorem bound_check_zero_quota {s : Arena} (i : Fin 64)
    (h1 : s.qb_current_count + 1 ≤ max_queued_byte_count)
    (h2 : s.qb_current_count = memory_used s) (h0 : s.current_max_length = 0) :
    bound_check_and_memory_rearrange s i = .undefined := by
  unfold bound_check_and_memory_rearrange
  simp only [h1, eq_true h2, h0, not_true_eq_false, if_false, if_true]

theorem enqueue_byte_undefined {s : Arena} {i : Fin 64} (b : Nat)
    (hv : (s.Qat i).is_valid = true) (hm : s.qb_current_count < max_queued_byte_count)
    (hb : bound_check_and_memory_rearrange s i = .undefined) :
    enqueue_byte s (some i) b = .undefined := by
  unfold enqueue_byte
  simp only [hv, Bool.not_true, Bool.false_eq_true, if_false, Q.enqueue_byte,
    memory_available, hm, decide_True, hb]

/-- The valid slots of a `head_layout` are the slots below `m`. -/
theorem head_valid {m L c : Nat} {s : Arena} (hL : head_layout m L c s)
    (hlen : L ≤ max_queued_byte_count) (j : Fin 64) :
    (s.Qat j).is_valid = decide (j.val < m) := by
  obtain ⟨-, -, -, -, h0, hlow, hhigh⟩ := hL
  by_cases hjm : j.val < m
  · rw [decide_eq_true hjm]
    by_cases hj0 : j.val = 0
    · have : j = 0 := Fin.ext hj0
      rw [this, h0, is_valid_iff]
      rw [max_queued_byte_count_eq] at hlen
      simp only [BAD_QUEUE]
      constructor <;> omega
    · exact (hlow j (by omega) hjm).1
  · rw [decide_eq_false hjm, hhigh j (by omega)]
    rfl

/-- What a returning `create_queue` does to the table and the queue count. -/
theorem create_queue_table {s : Arena} {k : Fin 64} (hinv : s.inv)
    (hi : Q.create s = some k) :
    ∃ s1, create_queue s = .ok k s1
      ∧ s1.Qat k = ⟨u16 (k.val * s.current_max_length), 0⟩
      ∧ (∀ j : Fin 64, j ≠ k → s1.Qat j = s.Qat j)
      ∧ s1.Q_current_count = inc16 s.Q_current_count ∧ s1.inv := by
  have hcreate := create_queue_run hinv.1.1 hi
  refine ⟨_, hcreate, ?_, fun j hj => ?_, rfl, create_queue_inv hinv (by rw [hcreate]; rfl)⟩
  · exact getD_set_same s.queues k.val _ _ (by rw [hinv.1.2.1]; exact k.isLt)
  · exact getD_set_ne s.queues j.val k.val _ _ (fun e => hj (Fin.ext e))

/-! ## The queue count (claim C14) -/

/-- Claim C14 (the code does otherwise). After `calls_quota_1285`, all of
which return, the quota is 1285 and the slots 0 to 50 are valid. The next
`create_queue` returns slot 51 and stores `51 * 1285 = 65535` in its
`start_offset`, which is `BAD_QUEUE`: the returned handle is not valid,
`Q::current_count` is 52 with 51 valid descriptors, and one more
`create_queue` returns slot 51 again. -/
theorem queue_count_invariant_fails :
    ∃ s, run_ok calls_quota_1285 fresh = some s ∧ Reachable s
      ∧ s.current_max_length = 1285 ∧ s.Q_current_count = 51 ∧ valid_count s = 51
      ∧ ∃ s1, create_queue s = .ok 51 s1 ∧ Reachable s1
        ∧ s1.Qat 51 = ⟨BAD_QUEUE, 0⟩ ∧ (s1.Qat 51).is_valid = false
        ∧ s1.Q_current_count = 52 ∧ valid_count s1 = 51
        ∧ (create_queue s1).value = some 51 := by
  -- two queues
  obtain ⟨s0, hrun0, hU0, hinv0, hqb0, hlast0⟩ := create_uniform 2 (by decide)
  have hL0 := head_of_uniform (by decide) (by decide) hU0 hqb0
  -- 1149 bytes into the first: the quota goes down to 643
  have hnum1 : head_run 2 1149 0 80 s0.last_Q_count = some (1149, 643) := by
    rw [hlast0]
    decide!
  obtain ⟨s1, hrun1, hL1, hinv1, hlast1⟩ :=
    head_enqueue_run 1 (by decide) (by decide) 1149 0 80 s0 1149 643 hL0 hinv0 (by decide)
      hnum1
  -- the second queue destroyed
  obtain ⟨s2, hrun2, hL2, hinv2, hlast2⟩ :=
    head_destroy (m := 1) (by decide) (by decide) hL1 hinv1
  -- one more byte: the quota becomes 1285
  have hnum3 : head_quota 1 1149 643 s2.last_Q_count = some 1285 := by
    rw [hlast2, hlast1]
    decide
  obtain ⟨s3, hrun3, hL3, hinv3, -⟩ :=
    head_enqueue 1 (by decide) (by decide) hL2 hinv2 hnum3
  -- 50 more queues
  obtain ⟨s4, hrun4, hL4, hinv4, -⟩ :=
    head_create_run 50 1 s3 (by decide) (by decide) hL3 hinv3 (by
      intro j hj1 hj2
      interval_cases j <;> decide)
  have hL := hL4
  obtain ⟨hwf, hcnt, hqb, hcml, h0, hlow, hhigh⟩ := hL4
  have hrunall : run_ok calls_quota_1285 fresh = some s4 := by
    unfold calls_quota_1285
    rw [run_ok_append, run_ok_append, run_ok_append]
    have e0 : run_ok [Call.create_queue, Call.create_queue] fresh = some s0 := hrun0
    rw [e0, Option.some_bind, hrun1, Option.some_bind]
    have e2 : run_ok [Call.destroy_queue (some 1), Call.enqueue_byte (some 0) 1] s1
        = some s3 := by
      simp only [run_ok, Call.returns]
      rw [show (some (1 : Fin 64)) = some ⟨1, by decide⟩ from rfl, hrun2]
      simp only [Outcome.returned, hrun3]
    rw [e2, Option.some_bind]
    exact hrun4
  have hre := reachable_run Reachable.fresh (run_of_run_ok hrunall)
  have hvalid := head_valid hL (by decide)
  have hcount : valid_count s4 = 51 := by
    unfold valid_count
    rw [show (fun j : Fin 64 => (s4.Qat j).is_valid) = (fun j => decide (j.val < 51)) from
      funext hvalid]
    decide
  -- the next queue
  have hi : Q.create s4 = some 51 :=
    Q_create_eq (fun j hj => head_offsets hL j hj) (by rw [hhigh 51 (le_refl _)])
  obtain ⟨s5, hc5, hq51, hqne, hcnt5, hinv5⟩ := create_queue_table hinv4 hi
  rw [hcml] at hq51
  have hq51b : s5.Qat 51 = ⟨BAD_QUEUE, 0⟩ := hq51
  have hvalid1 : ∀ j : Fin 64, (s5.Qat j).is_valid = decide (j.val < 51) := by
    intro j
    by_cases hj : j = 51
    · rw [hj, hq51b]
      rfl
    · rw [hqne j hj, hvalid j]
  have hi1 : Q.create s5 = some 51 :=
    Q_create_eq
      (fun j hj => by
        rw [hqne j (Fin.ne_of_lt hj)]
        exact head_offsets hL j hj)
      (by rw [hq51b])
  obtain ⟨s6, hc6, -⟩ := create_queue_table hinv5 hi1
  refine ⟨s4, hrunall, hre, hcml, hcnt, hcount, s5, hc5,
    Reachable.call Call.create_queue hre (by simp only [Call.after, hc5, Outcome.arena]),
    hq51b, by rw [hq51b]; rfl, by rw [hcnt5, hcnt]; rfl, ?_, by rw [hc6]; rfl⟩
  unfold valid_count
  rw [funext hvalid1]
  decide

/-! ## The quota (claim C19) -/

/-- Claim C19 (the code does otherwise). After three `create_queue` and 1791
`enqueue_byte` into the first queue, all of which return, the quota
`current_max_length` is 0 while one byte of the pool is still free; the next
`enqueue_byte` evaluates `max_queued_byte_count / current_max_length` with a
zero divisor. -/
theorem quota_positive_fails :
    ∃ s, run_ok calls_quota_zero fresh = some s ∧ Reachable s
      ∧ s.current_max_length = 0 ∧ (s.Qat 0).is_valid = true
      ∧ (s.Qat 0).length = 1791 ∧ s.qb_current_count = 1791
      ∧ bound_check_and_memory_rearrange s 0 = .undefined
      ∧ enqueue_byte s (some 0) 1 = .undefined := by
  obtain ⟨s0, hrun0, hU0, hinv0, hqb0, hlast0⟩ := create_uniform 3 (by decide)
  have hL0 := head_of_uniform (by decide) (by decide) hU0 hqb0
  have hnum : head_run 3 1791 0 80 s0.last_Q_count = some (1791, 0) := by
    rw [hlast0]
    decide!
  obtain ⟨s, hrun, hL, hinv, -⟩ :=
    head_enqueue_run 1 (by decide) (by decide) 1791 0 80 s0 1791 0 hL0 hinv0 (by decide) hnum
  have hrunall : run_ok calls_quota_zero fresh = some s := by
    unfold calls_quota_zero
    rw [run_ok_append, hrun0]
    exact hrun
  obtain ⟨-, -, hqb, hcml, h0, -, -⟩ := hL
  have hv : (s.Qat 0).is_valid = true := by
    rw [h0]
    decide
  have hb := bound_check_zero_quota (s := s) 0 (by rw [hqb]; decide)
    (by rw [memory_used_of_inv hinv]) hcml
  exact ⟨s, hrunall, reachable_run Reachable.fresh (run_of_run_ok hrunall), hcml, hv,
    by rw [h0], hqb, hb, enqueue_byte_undefined 1 hv (by rw [hqb]; decide) hb⟩

end QueueArena
